import Mathlib

/-!
Verification of the libosmium relation-collector core and string matcher.

The development shallowly embeds two source files:

* `include/osmium/util/string_matcher.hpp` — the `StringMatcher` tagged
  union and its `match` operation,
* `include/osmium/relations/collector.hpp` — the two-pass `Collector`
  template: pass‑1 relation recording (`add_relation`), the per-kind
  `MemberMeta` index, pass‑2 member matching (`find_and_add_object`),
  completion (`clear_member_metas`), and buffer compaction support
  (`possibly_purge_removed_members`, `moving_in_buffer`,
  `get_incomplete_relations`, `get_offset`).

The small record types `RelationMeta` and `MemberMeta` live in detail
headers that are not part of this tree; they are modelled from the spec
(section 3 of the design document) as noted on their declarations.
C strings are modelled as `List Char` (no interior NUL), machine integers
as `Int`/`Nat` (the collector never overflows a 64-bit id in any scenario
considered here), and the user hooks (`keep_relation`, `keep_member`) as
Boolean-valued functions; the `complete_relation` and
`*_not_in_any_relation` hooks are instrumented as an event trace.
-/

namespace Osmium

/-! ## String matcher (`string_matcher.hpp`) -/

/-- C strings are NUL-free character lists. -/
abbrev CStr := List Char

/-- Models `!std::strcmp(a, b)`: true iff the two C strings are equal. -/
def strcmpZero (a b : CStr) : Bool := a == b

/-- Models `std::strstr(t, s) != nullptr`: scan every suffix of `t` for
`s` as a prefix; the empty needle always hits. -/
def strstrHit (t s : CStr) : Bool :=
  match t with
  | [] => s.isEmpty
  | c :: t2 => s.isPrefixOf (c :: t2) || strstrHit t2 s

/-- The `StringMatcher` variant type (`boost::variant` in the source).
The regex alternative is compiled out by default (`OSMIUM_WITH_REGEX`
unset) and is not modelled.  The source calls the fourth variant
`prefix`; that word is a Lean keyword, so the constructor is named
`prefixM` here. -/
inductive StringMatcher where
  | always_false
  | always_true
  | equal (s : CStr)
  | prefixM (s : CStr)
  | substring (s : CStr)
  | list (strings : List CStr)
deriving DecidableEq

/-- `StringMatcher::operator()(const char*)`, dispatching `match` on the
stored variant.  `equal::match` is `!strcmp(m_str, t)`;
`prefix::match` is `m_str.compare(0, npos, t, 0, m_str.size()) == 0`,
i.e. it compares the stored string against `t` truncated to the stored
string's length; `substring::match` is `strstr(t, m_str)`;
`list::match` strcmp-scans the stored strings. -/
def StringMatcher.matches (m : StringMatcher) (t : CStr) : Bool :=
  match m with
  | .always_false => false
  | .always_true => true
  | .equal s => strcmpZero s t
  | .prefixM s => s == t.take s.length
  | .substring s => strstrHit t s
  | .list ss => ss.any (fun s => strcmpZero s t)

/-- The default constructor `StringMatcher()` selects `always_false`. -/
def StringMatcher.mkDefault : StringMatcher := .always_false

theorem strcmpZero_iff (a b : CStr) : strcmpZero a b = true ↔ a = b := by
  simp [strcmpZero]

theorem strstrHit_iff (t s : CStr) : strstrHit t s = true ↔ s <:+: t := by
  induction t with
  | nil =>
    simp [strstrHit, List.infix_nil, List.isEmpty_iff]
  | cons c t2 ih =>
    simp only [strstrHit, Bool.or_eq_true, List.infix_cons_iff, ih,
      List.isPrefixOf_iff_prefix]

theorem prefix_matches_iff (s t : CStr) :
    (s == t.take s.length) = true ↔ s <+: t := by
  rw [beq_iff_eq, List.prefix_iff_eq_take]

/-- C5: the six matcher variants have exactly the advertised semantics
over all strings: `equal` is string equality, `prefixM` is "t starts
with s", `substring` is "t contains s", `list` is membership, and the
two constant matchers are constant. -/
theorem stringMatcher_semantics (s t : CStr) (l : List CStr) :
    ((StringMatcher.equal s).matches t = true ↔ s = t)
    ∧ ((StringMatcher.prefixM s).matches t = true ↔ s <+: t)
    ∧ ((StringMatcher.substring s).matches t = true ↔ s <:+: t)
    ∧ ((StringMatcher.list l).matches t = true ↔ ∃ x ∈ l, x = t)
    ∧ (StringMatcher.always_true.matches t = true)
    ∧ (StringMatcher.always_false.matches t = false) := by
  refine ⟨strcmpZero_iff s t, prefix_matches_iff s t, strstrHit_iff t s, ?_, rfl, rfl⟩
  simp [StringMatcher.matches, List.any_eq_true, strcmpZero]

/-- C10: the default-constructed `StringMatcher` holds the
`always_false` variant, hence matches no string at all. -/
theorem stringMatcher_default_matches_nothing (t : CStr) :
    StringMatcher.mkDefault.matches t = false := rfl

/-! ## Relation collector (`collector.hpp`)

### Data model -/

/-- `osmium::item_type`, restricted to the three object kinds the
collector indexes (`m_member_meta[type - 1]`). -/
inductive ItemKind where
  | node
  | way
  | relation
deriving DecidableEq

/-- One entry of a relation's member list: `(type, ref, role)`.  The
`position` the spec mentions is the entry's index in the list. -/
structure Member where
  kind : ItemKind
  ref : Int
  role : String
deriving DecidableEq

/-- An OSM object: kind, 64-bit signed id, and (for relations) the
member list.  Nodes and ways carry an empty member list. -/
structure Obj where
  kind : ItemKind
  id : Int
  members : List Member
deriving DecidableEq

def defaultObj : Obj := ⟨.node, 0, []⟩

/-- Modelled from the spec: `RelationMeta` (detail header
`relation_meta.hpp`, not in this tree).  Spec section 3: a location
handle into the relations arena plus `need_members`, the count of
interesting members still outstanding; completion is derived as
`need_members == 0`.  The counter is a C++ `int`, so it is modelled as
`Int` with plain (release-mode) decrement. -/
structure RelationMeta where
  relation_offset : Nat := 0
  need_members : Int := 0
deriving DecidableEq

def RelationMeta.has_all_members (r : RelationMeta) : Bool := r.need_members == 0

/-- Modelled from the spec: `MemberMeta` (detail header
`member_meta.hpp`, not in this tree).  Spec section 3: member id,
index of the owning RelationMeta, position inside that relation's
member list, the member's location in the members arena once it has
arrived (`none` is the "not yet seen" sentinel), and a tombstone flag.
Ordering for the sorted per-kind vectors and for `std::equal_range`
compares `member_id` only. -/
structure MemberMeta where
  member_id : Int
  relation_pos : Nat
  member_pos : Nat
  buffer_offset : Option Nat := none
  removed : Bool := false
deriving DecidableEq

def mmDefault : MemberMeta := ⟨0, 0, 0, none, false⟩

/-- Instrumentation of the user hooks: `complete_relation` records the
triggering index in the per-kind vector, the relation's position in
`m_relations`, and the relation's id; `X_not_in_any_relation` records
the rejected object's kind and id. -/
inductive Event where
  | complete (trigIdx relPos : Nat) (relId : Int)
  | notInAny (kind : ItemKind) (id : Int)
deriving DecidableEq

/-- The compile-time hooks a `TCollector` subclass supplies
(`keep_relation`, `keep_member`), modelled as Boolean functions. -/
structure Hooks where
  keep_relation : Obj → Bool
  keep_member : RelationMeta → Member → Bool

def keepAllHooks : Hooks := ⟨fun _ => true, fun _ _ => true⟩

/-- The collector state: the two arenas (`m_relations_buffer` holds
committed relation copies, `m_members_buffer` committed member copies
with the arena's removal flag), the `m_relations` vector, the three
per-kind `MemberMeta` vectors, and the completion counter.  Arena
offsets are modelled as list indices.  `trace` and `purges` are ghost
instrumentation: the emitted hook events and the number of
`purge_removed` compactions. -/
structure CollectorState where
  relations_buffer : List Obj := []
  members_buffer : List (Obj × Bool) := []
  m_relations : List RelationMeta := []
  mm_nodes : List MemberMeta := []
  mm_ways : List MemberMeta := []
  mm_relations : List MemberMeta := []
  m_count_complete : Nat := 0
  trace : List Event := []
  purges : Nat := 0
deriving DecidableEq

/-- `member_meta(type)`: select the per-kind vector. -/
def CollectorState.member_meta (st : CollectorState) (k : ItemKind) : List MemberMeta :=
  match k with
  | .node => st.mm_nodes
  | .way => st.mm_ways
  | .relation => st.mm_relations

def CollectorState.setMM (st : CollectorState) (k : ItemKind) (v : List MemberMeta) :
    CollectorState :=
  match k with
  | .node => { st with mm_nodes := v }
  | .way => { st with mm_ways := v }
  | .relation => { st with mm_relations := v }

/-- `get_relation(offset)`: read a committed relation from the
relations arena. -/
def CollectorState.get_relation (st : CollectorState) (offset : Nat) : Obj :=
  st.relations_buffer.getD offset defaultObj

/-- `get_relation(member_meta)`: the relation owning a `MemberMeta`,
via `m_relations[member_meta.relation_pos()]`. -/
def CollectorState.relationOfMeta (st : CollectorState) (m : MemberMeta) : Obj :=
  st.get_relation ((st.m_relations.getD m.relation_pos {}).relation_offset)

/-! ### The sorted index and `std::equal_range` -/

/-- Stable insertion into a `member_id`-sorted list; `mmSort` below
models the effect of `std::sort` in `sort_member_meta` (the source
orders `MemberMeta` by `member_id` only; `std::sort` promises some
sorted permutation, and this model fixes the stable one). -/
def mmInsert (m : MemberMeta) : List MemberMeta → List MemberMeta
  | [] => [m]
  | x :: xs => if m.member_id < x.member_id then m :: x :: xs else x :: mmInsert m xs

def mmSort (l : List MemberMeta) : List MemberMeta :=
  l.foldl (fun acc m => mmInsert m acc) []

/-- `find_member_meta`: `std::equal_range` over the sorted per-kind
vector, comparing `member_id`.  On a sorted vector the result is the
half-open index interval `[countP (< id), countP (≤ id))`. -/
def findRange (v : List MemberMeta) (id : Int) : Nat × Nat :=
  (v.countP (fun m => decide (m.member_id < id)),
   v.countP (fun m => decide (m.member_id ≤ id)))

/-- The elements of the index interval `[lo, hi)`. -/
def sliceOf (v : List MemberMeta) (lo hi : Nat) : List MemberMeta :=
  (v.drop lo).take (hi - lo)

/-- Apply `f` to the elements of the index interval `[lo, hi)`. -/
def updateRange (v : List MemberMeta) (lo hi : Nat) (f : MemberMeta → MemberMeta) :
    List MemberMeta :=
  v.take lo ++ (sliceOf v lo hi).map f ++ v.drop hi

/-- `count_not_removed(range)`. -/
def count_not_removed (v : List MemberMeta) (lo hi : Nat) : Nat :=
  (sliceOf v lo hi).countP (fun m => !m.removed)

/-! ### Compaction -/

/-- `moving_in_buffer(old_offset, new_offset)`: look up the moved
object's kind and id at its old offset and redirect every `MemberMeta`
in its equal-range to the new offset (the debug `assert` that each one
pointed at `old_offset` has no release-mode effect). -/
def moving_in_buffer (st : CollectorState) (oldOff newOff : Nat) : CollectorState :=
  let obj := (st.members_buffer.getD oldOff (defaultObj, true)).1
  let v := st.member_meta obj.kind
  let r := findRange v obj.id
  st.setMM obj.kind (updateRange v r.1 r.2 (fun m => { m with buffer_offset := some newOff }))

/-- Walk the buffer tracking the old index `o` and the next new index
`n`: removed entries are dropped, surviving entries take new index `n`,
and a relocation pair `(o, n)` is recorded when the survivor actually
moves. -/
def movesOfAux : List (Obj × Bool) → Nat → Nat → List (Nat × Nat)
  | [], _, _ => []
  | e :: rest, o, n =>
    if e.2 then movesOfAux rest (o + 1) n
    else if o == n then movesOfAux rest (o + 1) (n + 1)
    else (o, n) :: movesOfAux rest (o + 1) (n + 1)

/-- The relocations a compaction performs: each surviving (unremoved)
entry moves to its rank among the survivors; pairs `(old, new)` are
listed in buffer order and only when the entry actually moves. -/
def movesOf (buf : List (Obj × Bool)) : List (Nat × Nat) :=
  movesOfAux buf 0 0

/-- Modelled from the spec: `Buffer::purge_removed(this)` (arena
contract, spec section 6; the buffer class is outside this tree).
Compact away all removed entries, preserving survivor order, and call
`moving_in_buffer(old, new)` on the collector for each survivor that
moves, before the buffer is rewritten. -/
def purge_removed (st : CollectorState) : CollectorState :=
  let buf := st.members_buffer
  let st1 := (movesOf buf).foldl (fun s p => moving_in_buffer s p.1 p.2) st
  { st1 with
    members_buffer := buf.filter (fun e => !e.2),
    purges := st1.purges + 1 }

def purgeThreshold : Nat := 10000

/-- `possibly_purge_removed_members`: bump the completion counter and
compact the members arena once it exceeds the threshold, then reset
the counter. -/
def possibly_purge_removed_members (st : CollectorState) : CollectorState :=
  let st1 := { st with m_count_complete := st.m_count_complete + 1 }
  if purgeThreshold < st1.m_count_complete then
    { purge_removed st1 with m_count_complete := 0 }
  else st1

/-! ### Completion: `clear_member_metas` -/

/-- Mark the members-arena entry at `off` removed
(`get_member(offset).set_removed(true)`). -/
def markRemoved (buf : List (Obj × Bool)) (off : Nat) : List (Obj × Bool) :=
  buf.set off ((buf.getD off (defaultObj, true)).1, true)

/-- The inner loop of `clear_member_metas`: walk the equal-range from
index `k` (with `fuel = hi - k`) and tombstone the first not-removed
`MemberMeta` whose owning relation has id `relId`, then stop. -/
def removeFirstIn (st : CollectorState) (relId : Int) (v : List MemberMeta) :
    Nat → Nat → List MemberMeta
  | 0, _ => v
  | fuel + 1, k =>
    match v[k]? with
    | none => v
    | some m =>
      if !m.removed && relId == (st.relationOfMeta m).id then
        v.set k { m with removed := true }
      else removeFirstIn st relId v fuel (k + 1)

/-- One iteration of `clear_member_metas` over a member of the
completed relation: skip members whose ref was zeroed in pass 1;
otherwise, if this equal-range has exactly one live `MemberMeta`, mark
the stored member object (at the offset recorded in the first range
entry) removed in the arena; then tombstone this relation's first live
`MemberMeta` in the range.  When the recorded offset is still the
sentinel (a completion with a member that never arrived - reachable
only on duplicate input) the arena write is skipped; the source
dereferences an uninitialised offset there and has no defined
behaviour to model. -/
def clear_one (rel : Obj) (st : CollectorState) (member : Member) : CollectorState :=
  if member.ref == 0 then st
  else
    let v := st.member_meta member.kind
    let r := findRange v member.ref
    let st1 :=
      if count_not_removed v r.1 r.2 == 1 then
        match (v.getD r.1 mmDefault).buffer_offset with
        | some off => { st with members_buffer := markRemoved st.members_buffer off }
        | none => st
      else st
    st1.setMM member.kind (removeFirstIn st1 rel.id v (r.2 - r.1) r.1)

/-- `clear_member_metas(relation_meta)`: walk the completed relation's
stored member list and tombstone each member's `MemberMeta`. -/
def clear_member_metas (st : CollectorState) (relation_meta : RelationMeta) :
    CollectorState :=
  let rel := st.get_relation relation_meta.relation_offset
  rel.members.foldl (clear_one rel) st

/-! ### Pass 2: `find_and_add_object` -/

/-- The completion step inside `find_and_add_object`'s second loop:
invoke `complete_relation` (renders as a trace event carrying the
triggering index `trigIdx`, the relation's position `p` and its id),
run `clear_member_metas`, reset `m_relations[p]` to a fresh
`RelationMeta`, and drive the purge counter. -/
def doComplete (st : CollectorState) (trigIdx p : Nat) : CollectorState :=
  let rm := st.m_relations.getD p {}
  let rel := st.get_relation rm.relation_offset
  let st1 := { st with trace := st.trace ++ [.complete trigIdx p rel.id] }
  let st2 := clear_member_metas st1 rm
  let st3 := { st2 with m_relations := st2.m_relations.set p {} }
  possibly_purge_removed_members st3

/-- The second loop of `find_and_add_object`: walk the equal-range from
index `k` (with `fuel = hi - k`), stopping at the first removed
`MemberMeta` (`break` in the source), decrementing each visited meta's
relation (`got_one_member`) and completing relations that reach zero. -/
def processLoop (kind : ItemKind) (hi : Nat) : Nat → Nat → CollectorState → CollectorState
  | 0, _, st => st
  | fuel + 1, k, st =>
    match (st.member_meta kind)[k]? with
    | none => st
    | some m =>
      if m.removed then st
      else
        let p := m.relation_pos
        let rm := st.m_relations.getD p {}
        let rm1 := { rm with need_members := rm.need_members - 1 }
        let st1 := { st with m_relations := st.m_relations.set p rm1 }
        let st2 := if rm1.has_all_members then doComplete st1 k p else st1
        processLoop kind hi fuel (k + 1) st2

/-- `find_and_add_object(object)`: find the object's equal-range; if no
live `MemberMeta` matches, report failure; otherwise commit a copy of
the object to the members arena, record its offset in every matching
`MemberMeta` (removed ones included), then run the decrement loop.
Returns the new state and the Boolean result. -/
def find_and_add_object (st : CollectorState) (obj : Obj) : CollectorState × Bool :=
  let v := st.member_meta obj.kind
  let r := findRange v obj.id
  if count_not_removed v r.1 r.2 == 0 then (st, false)
  else
    let member_offset := st.members_buffer.length
    let st1 := { st with members_buffer := st.members_buffer ++ [(obj, false)] }
    let st2 := st1.setMM obj.kind
      (updateRange v r.1 r.2 (fun m => { m with buffer_offset := some member_offset }))
    (processLoop obj.kind r.2 (r.2 - r.1) r.1 st2, true)

/-! ### Pass 1: `add_relation` and `read_relations` -/

/-- `add_relation(relation)`: append the relation to the relations
arena (uncommitted), walk the stored copy's members asking
`keep_member` — kept members yield a `MemberMeta` in their kind's
vector and bump `need_members`, rejected members get their ref zeroed
in the copy — then commit and push a `RelationMeta`, or roll the
append back if nothing was kept.  The fold mirrors the source loop:
the running accumulator carries `need_members` (the `RelationMeta`
handed to `keep_member`), the mutated member list, the emitted metas
(kind-tagged, in member order) and the member position `n`. -/
def addRelStep (h : Hooks) (offset rp : Nat)
    (acc : Int × List Member × List (ItemKind × MemberMeta) × Nat) (member : Member) :
    Int × List Member × List (ItemKind × MemberMeta) × Nat :=
  let need := acc.1
  let stored := acc.2.1
  let metas := acc.2.2.1
  let n := acc.2.2.2
  if h.keep_member { relation_offset := offset, need_members := need } member then
    (need + 1, stored ++ [member],
     metas ++ [(member.kind, ⟨member.ref, rp, n, none, false⟩)],
     n + 1)
  else
    (need, stored ++ [{ member with ref := 0 }], metas, n + 1)

def add_relation (h : Hooks) (st : CollectorState) (relation : Obj) : CollectorState :=
  let offset := st.relations_buffer.length
  let res := relation.members.foldl (addRelStep h offset st.m_relations.length) (0, [], [], 0)
  if res.1 == 0 then st
  else
    let st1 := { st with
      relations_buffer := st.relations_buffer ++ [{ relation with members := res.2.1 }] }
    let st2 := res.2.2.1.foldl (fun s km => s.setMM km.1 (s.member_meta km.1 ++ [km.2])) st1
    { st2 with
      m_relations := st2.m_relations ++ [{ relation_offset := offset, need_members := res.1 }] }

/-- `HandlerPass1::relation`: keep-filter and record each relation of
the first pass (non-relation objects are not routed to the handler). -/
def handle_pass1 (h : Hooks) (st : CollectorState) (obj : Obj) : CollectorState :=
  if obj.kind == .relation && h.keep_relation obj then add_relation h st obj else st

/-- `read_relations`: run pass 1 over the input, then
`sort_member_meta` sorts the three per-kind vectors by member id. -/
def read_relations (h : Hooks) (input : List Obj) (st : CollectorState) : CollectorState :=
  let st1 := input.foldl (handle_pass1 h) st
  { st1 with
    mm_nodes := mmSort st1.mm_nodes,
    mm_ways := mmSort st1.mm_ways,
    mm_relations := mmSort st1.mm_relations }

/-- `HandlerPass2`: objects of a kind the collector is not interested
in (the `TNodes`/`TWays`/`TRelations` template flags) are ignored;
otherwise `find_and_add_object` runs and a failure fires the
`X_not_in_any_relation` hook. -/
def handle_pass2 (tn tw tr : Bool) (st : CollectorState) (obj : Obj) : CollectorState :=
  let enabled :=
    match obj.kind with
    | .node => tn
    | .way => tw
    | .relation => tr
  if enabled then
    let r := find_and_add_object st obj
    if r.2 then r.1 else { r.1 with trace := r.1.trace ++ [.notInAny obj.kind obj.id] }
  else st

/-- A full two-pass run from the empty collector. -/
def runCollector (h : Hooks) (tn tw tr : Bool) (pass1 pass2 : List Obj) : CollectorState :=
  pass2.foldl (handle_pass2 tn tw tr) (read_relations h pass1 {})

/-- `get_incomplete_relations()`: the stored relations whose meta still
wants members. -/
def get_incomplete_relations (st : CollectorState) : List Obj :=
  (st.m_relations.filter (fun rm => !rm.has_all_members)).map
    (fun rm => st.get_relation rm.relation_offset)

/-- `get_offset(type, id)`: the buffer offset recorded in the first
`MemberMeta` of the equal-range; `none` when the range is empty (the
source asserts) or the offset is still the sentinel. -/
def get_offset (st : CollectorState) (kind : ItemKind) (id : Int) : Option Nat :=
  let v := st.member_meta kind
  let r := findRange v id
  if r.1 < r.2 then (v.getD r.1 mmDefault).buffer_offset else none

/-! ## Scenario S1 (claim C1) -/

def wayMember (ref : Int) (role : String) : Member := ⟨.way, ref, role⟩

def way (i : Int) : Obj := ⟨.way, i, []⟩

def rel20 : Obj := ⟨.relation, 20, [wayMember 10 "outer"]⟩

def rel21 : Obj := ⟨.relation, 21, [wayMember 11 "outer", wayMember 12 "outer"]⟩

def rel22 : Obj :=
  ⟨.relation, 22, [wayMember 13 "outer", wayMember 10 "inner", wayMember 14 "inner"]⟩

def s1Pass1 : List Obj := [rel20, rel21, rel22]

/-- The state of a ways-only collector (all relations and members kept)
after the first `n` of the S1 ways 10,11,12,13,14,15 have arrived. -/
def runS1 (n : Nat) : CollectorState :=
  runCollector keepAllHooks false true false s1Pass1
    (([10, 11, 12, 13, 14, 15].take n).map way)

/-- C1: in scenario S1 the completion hook fires exactly three times —
for r20 (position 0) immediately after way 10, for r21 immediately
after way 12, and for r22 immediately after way 14; way 15 makes
`find_and_add_object` return false and fires only
`way_not_in_any_relation`; no other hook invocation occurs at any of
the six steps. -/
theorem s1_completion_trace :
    (runS1 1).trace = [.complete 0 0 20]
    ∧ (runS1 2).trace = [.complete 0 0 20]
    ∧ (runS1 3).trace = [.complete 0 0 20, .complete 3 1 21]
    ∧ (runS1 4).trace = [.complete 0 0 20, .complete 3 1 21]
    ∧ (runS1 5).trace = [.complete 0 0 20, .complete 3 1 21, .complete 5 2 22]
    ∧ (runS1 6).trace
        = [.complete 0 0 20, .complete 3 1 21, .complete 5 2 22, .notInAny .way 15]
    ∧ (find_and_add_object (runS1 5) (way 15)).2 = false := by
  decide

/-! ## The purge counter (claim C4) -/

/-- Forward iteration of an endomorphism. -/
def iterN (f : α → α) : Nat → α → α
  | 0, a => a
  | n + 1, a => f (iterN f n a)

theorem setMM_purges (st : CollectorState) (k : ItemKind) (v : List MemberMeta) :
    (st.setMM k v).purges = st.purges := by
  cases k <;> rfl

theorem setMM_count (st : CollectorState) (k : ItemKind) (v : List MemberMeta) :
    (st.setMM k v).m_count_complete = st.m_count_complete := by
  cases k <;> rfl

theorem moving_in_buffer_purges (s : CollectorState) (a b : Nat) :
    (moving_in_buffer s a b).purges = s.purges := by
  unfold moving_in_buffer
  exact setMM_purges ..

theorem moving_in_buffer_count (s : CollectorState) (a b : Nat) :
    (moving_in_buffer s a b).m_count_complete = s.m_count_complete := by
  unfold moving_in_buffer
  exact setMM_count ..

theorem movesFold_purges (l : List (Nat × Nat)) :
    ∀ s : CollectorState,
      (l.foldl (fun s p => moving_in_buffer s p.1 p.2) s).purges = s.purges := by
  induction l with
  | nil => intro s; rfl
  | cons p l ih => intro s; rw [List.foldl_cons, ih, moving_in_buffer_purges]

theorem movesFold_count (l : List (Nat × Nat)) :
    ∀ s : CollectorState,
      (l.foldl (fun s p => moving_in_buffer s p.1 p.2) s).m_count_complete
        = s.m_count_complete := by
  induction l with
  | nil => intro s; rfl
  | cons p l ih => intro s; rw [List.foldl_cons, ih, moving_in_buffer_count]

theorem purge_removed_purges (s : CollectorState) :
    (purge_removed s).purges = s.purges + 1 := by
  show (List.foldl (fun s p => moving_in_buffer s p.1 p.2) s (movesOf s.members_buffer)).purges
      + 1 = s.purges + 1
  rw [movesFold_purges]

theorem purge_removed_count (s : CollectorState) :
    (purge_removed s).m_count_complete = s.m_count_complete := by
  show (List.foldl (fun s p => moving_in_buffer s p.1 p.2) s
      (movesOf s.members_buffer)).m_count_complete = s.m_count_complete
  rw [movesFold_count]

theorem possibly_purge_count (s : CollectorState) :
    (possibly_purge_removed_members s).m_count_complete
      = if purgeThreshold < s.m_count_complete + 1 then 0 else s.m_count_complete + 1 := by
  simp only [possibly_purge_removed_members]
  split <;> rfl

theorem possibly_purge_purges (s : CollectorState) :
    (possibly_purge_removed_members s).purges
      = if purgeThreshold < s.m_count_complete + 1 then s.purges + 1 else s.purges := by
  simp only [possibly_purge_removed_members]
  split
  · show (purge_removed _).purges = s.purges + 1
    rw [purge_removed_purges]
  · rfl

/-- Closed form of the purge pacing: starting from a zeroed counter,
`n` completions have driven exactly `n / 10001` compactions and leave
the counter at `n % 10001`. -/
theorem purge_pacing (st : CollectorState) (n : Nat) :
    (iterN possibly_purge_removed_members n { st with m_count_complete := 0 }).purges
      = st.purges + n / (purgeThreshold + 1)
    ∧ (iterN possibly_purge_removed_members n
        { st with m_count_complete := 0 }).m_count_complete
      = n % (purgeThreshold + 1) := by
  induction n with
  | zero => exact ⟨rfl, rfl⟩
  | succ n ih =>
    obtain ⟨ihp, ihc⟩ := ih
    simp only [iterN, possibly_purge_purges, possibly_purge_count, ihp, ihc, purgeThreshold]
    constructor <;> split <;> omega

/-- C4 counterexample: 10 000 completions from a fresh collector have
issued no purge at all (the claim of one purge per 10 000 completions
would demand exactly one); the counter sits at 10 000 and only the
next call purges. -/
theorem purge_per_10000_false :
    (iterN possibly_purge_removed_members 10000 ({} : CollectorState)).purges = 0
    ∧ (iterN possibly_purge_removed_members 10000
        ({} : CollectorState)).m_count_complete = 10000
    ∧ (iterN possibly_purge_removed_members 10001 ({} : CollectorState)).purges = 1 := by
  refine ⟨?_, ?_, ?_⟩
  · exact ((purge_pacing {} 10000).1).trans (by decide)
  · exact ((purge_pacing {} 10000).2).trans (by decide)
  · exact ((purge_pacing {} 10001).1).trans (by decide)

/-- C4 as amended: the compaction runs exactly once per 10 001
completions — the counter is incremented on each call, a purge is
issued exactly when the incremented counter exceeds 10 000, and the
counter is then reset, so `n` completions from a zeroed counter give
`n / 10001` purges and leave the counter at `n % 10001`. -/
theorem purge_every_10001 (st : CollectorState) (n : Nat) :
    (iterN possibly_purge_removed_members n { st with m_count_complete := 0 }).purges
      = st.purges + n / 10001
    ∧ (iterN possibly_purge_removed_members n
        { st with m_count_complete := 0 }).m_count_complete = n % 10001
    ∧ (possibly_purge_removed_members st).purges
      = (if 10000 < st.m_count_complete + 1 then st.purges + 1 else st.purges)
    ∧ (possibly_purge_removed_members st).m_count_complete
      = (if 10000 < st.m_count_complete + 1 then 0 else st.m_count_complete + 1) := by
  refine ⟨(purge_pacing st n).1, (purge_pacing st n).2, ?_, ?_⟩
  · rw [possibly_purge_purges]; rfl
  · rw [possibly_purge_count]; rfl

/-! ## Rollback when no member is kept (claim C7) -/

theorem addRelStep_allFalse (h : Hooks) (offset rp : Nat) (l : List Member)
    (hall : ∀ m ∈ l, h.keep_member { relation_offset := offset, need_members := 0 } m = false) :
    ∀ stored metas n,
      (l.foldl (addRelStep h offset rp) (0, stored, metas, n)).1 = 0 := by
  induction l with
  | nil => intro stored metas n; rfl
  | cons m l ih =>
    intro stored metas n
    rw [List.foldl_cons]
    have hm := hall m (List.mem_cons_self m l)
    show (l.foldl (addRelStep h offset rp) (addRelStep h offset rp (0, stored, metas, n) m)).1 = 0
    rw [show addRelStep h offset rp (0, stored, metas, n) m
        = (0, stored ++ [{ m with ref := 0 }], metas, n + 1) by
      simp only [addRelStep, hm]
      rfl]
    exact ih (fun x hx => hall x (List.mem_cons_of_mem m hx)) _ _ _

/-- C7: when `keep_member` rejects every member of a kept relation
(each call sees the fresh `RelationMeta` with `need_members = 0`, since
nothing is ever kept), `add_relation` rolls the arena append back and
the whole collector state — committed relations buffer, `m_relations`,
and the three `MemberMeta` vectors — is unchanged. -/
theorem add_relation_rollback (h : Hooks) (st : CollectorState) (r : Obj)
    (hall : ∀ m ∈ r.members,
      h.keep_member { relation_offset := st.relations_buffer.length, need_members := 0 } m
        = false) :
    add_relation h st r = st := by
  have h0 : (r.members.foldl (addRelStep h st.relations_buffer.length st.m_relations.length)
      (0, [], [], 0)).1 = 0 :=
    addRelStep_allFalse h st.relations_buffer.length st.m_relations.length r.members hall [] [] 0
  unfold add_relation
  simp only [h0, beq_self_eq_true, if_true]

/-- C7 witness: a collector whose `keep_member` hook rejects
everything leaves the state untouched when fed the S1 relation r22. -/
theorem add_relation_rollback_witness :
    add_relation ⟨fun _ => true, fun _ _ => false⟩ {} rel22 = {} :=
  add_relation_rollback ⟨fun _ => true, fun _ _ => false⟩ {} rel22 (by decide)

/-! ## Pass-1 index invariant (claim C9) -/

/-- The ordering `sort_member_meta` establishes: non-decreasing
`member_id`. -/
@[reducible] def mmSorted (l : List MemberMeta) : Prop :=
  l.Pairwise (fun a b => a.member_id ≤ b.member_id)

theorem mmInsert_perm (m : MemberMeta) (l : List MemberMeta) :
    (mmInsert m l).Perm (m :: l) := by
  induction l with
  | nil => exact List.Perm.refl _
  | cons x xs ih =>
    unfold mmInsert
    split
    · exact List.Perm.refl _
    · exact (List.Perm.cons x ih).trans (List.Perm.swap m x xs)

theorem mem_mmInsert {y m : MemberMeta} {l : List MemberMeta} :
    y ∈ mmInsert m l ↔ y = m ∨ y ∈ l := by
  rw [(mmInsert_perm m l).mem_iff, List.mem_cons]

theorem mmInsert_sorted (m : MemberMeta) {l : List MemberMeta} (hs : mmSorted l) :
    mmSorted (mmInsert m l) := by
  induction l with
  | nil => simp [mmSorted, mmInsert]
  | cons x xs ih =>
    rw [mmSorted, List.pairwise_cons] at hs
    unfold mmInsert
    split
    · rename_i hlt
      rw [mmSorted, List.pairwise_cons]
      refine ⟨?_, List.pairwise_cons.mpr hs⟩
      intro b hb
      rcases List.mem_cons.mp hb with hb | hb
      · exact le_of_lt (hb ▸ hlt)
      · exact le_of_lt (lt_of_lt_of_le hlt (hs.1 b hb))
    · rename_i hge
      rw [mmSorted, List.pairwise_cons]
      refine ⟨?_, ih hs.2⟩
      intro b hb
      rcases mem_mmInsert.mp hb with hb | hb
      · exact hb ▸ le_of_not_lt hge
      · exact hs.1 b hb

theorem mmSortAux_perm (l : List MemberMeta) :
    ∀ acc : List MemberMeta,
      (l.foldl (fun acc m => mmInsert m acc) acc).Perm (acc ++ l) := by
  induction l with
  | nil => intro acc; simp
  | cons m l ih =>
    intro acc
    rw [List.foldl_cons]
    exact ((ih (mmInsert m acc)).trans
      (((mmInsert_perm m acc).append_right l).trans List.perm_middle.symm))

theorem mmSort_perm (l : List MemberMeta) : (mmSort l).Perm l := mmSortAux_perm l []

theorem mmSort_sorted (l : List MemberMeta) : mmSorted (mmSort l) := by
  have aux : ∀ acc : List MemberMeta, mmSorted acc →
      mmSorted (l.foldl (fun acc m => mmInsert m acc) acc) := by
    induction l with
    | nil => intro acc h; exact h
    | cons m l ih =>
      intro acc h
      rw [List.foldl_cons]
      exact ih _ (mmInsert_sorted m h)
  exact aux [] List.Pairwise.nil

/-- Validity of the per-kind index: every `MemberMeta` points at an
existing `RelationMeta`. -/
def metasValid (st : CollectorState) : Prop :=
  ∀ k : ItemKind, ∀ m ∈ st.member_meta k, m.relation_pos < st.m_relations.length

theorem member_meta_setMM (st : CollectorState) (k : ItemKind) (v : List MemberMeta)
    (j : ItemKind) :
    (st.setMM k v).member_meta j = if j = k then v else st.member_meta j := by
  cases k <;> cases j <;> rfl

theorem m_relations_setMM (st : CollectorState) (k : ItemKind) (v : List MemberMeta) :
    (st.setMM k v).m_relations = st.m_relations := by
  cases k <;> rfl

theorem addRelStep_metas_rp (h : Hooks) (offset rp : Nat) (l : List Member) :
    ∀ acc, (∀ km ∈ acc.2.2.1, (Prod.snd km).relation_pos = rp) →
      ∀ km ∈ (l.foldl (addRelStep h offset rp) acc).2.2.1, (Prod.snd km).relation_pos = rp := by
  induction l with
  | nil => intro acc hacc; exact hacc
  | cons m l ih =>
    intro acc hacc
    rw [List.foldl_cons]
    refine ih _ ?_
    simp only [addRelStep]
    split
    · intro km hkm
      rcases List.mem_append.mp hkm with hkm | hkm
      · exact hacc km hkm
      · rw [List.mem_singleton.mp hkm]
    · exact hacc

theorem setMMFold_m_relations (metas : List (ItemKind × MemberMeta)) :
    ∀ s : CollectorState,
      (metas.foldl (fun s km => s.setMM km.1 (s.member_meta km.1 ++ [km.2])) s).m_relations
        = s.m_relations := by
  induction metas with
  | nil => intro s; rfl
  | cons km metas ih =>
    intro s
    rw [List.foldl_cons, ih, m_relations_setMM]

theorem setMMFold_mem (metas : List (ItemKind × MemberMeta)) :
    ∀ (s : CollectorState) (k : ItemKind) (m : MemberMeta),
      m ∈ (metas.foldl (fun s km => s.setMM km.1 (s.member_meta km.1 ++ [km.2])) s).member_meta k →
      m ∈ s.member_meta k ∨ ∃ km ∈ metas, Prod.snd km = m := by
  induction metas with
  | nil => intro s k m hm; exact Or.inl hm
  | cons km metas ih =>
    intro s k m hm
    rw [List.foldl_cons] at hm
    rcases ih _ k m hm with hm | hm
    · rw [member_meta_setMM] at hm
      by_cases hk : k = km.1
      · rw [if_pos hk] at hm
        rcases List.mem_append.mp hm with hm | hm
        · exact Or.inl (hk ▸ hm)
        · exact Or.inr ⟨km, List.mem_cons_self km metas, (List.mem_singleton.mp hm).symm⟩
      · rw [if_neg hk] at hm
        exact Or.inl hm
    · obtain ⟨km2, hkm2, he⟩ := hm
      exact Or.inr ⟨km2, List.mem_cons_of_mem km hkm2, he⟩

theorem metasValid_commit (st2 : CollectorState) (x : RelationMeta)
    (h2 : ∀ k : ItemKind, ∀ m ∈ st2.member_meta k,
      m.relation_pos < st2.m_relations.length + 1) :
    metasValid { st2 with m_relations := st2.m_relations ++ [x] } := by
  intro k m hm
  have hk : ({ st2 with m_relations := st2.m_relations ++ [x] } :
      CollectorState).member_meta k = st2.member_meta k := by
    cases k <;> rfl
  rw [hk] at hm
  show m.relation_pos < (st2.m_relations ++ [x]).length
  rw [List.length_append, List.length_singleton]
  exact h2 k m hm

theorem add_relation_valid (h : Hooks) (st : CollectorState) (r : Obj)
    (hv : metasValid st) : metasValid (add_relation h st r) := by
  simp only [add_relation]
  split
  · exact hv
  · refine metasValid_commit _ _ ?_
    intro k m hm
    rw [setMMFold_m_relations]
    rcases setMMFold_mem _ _ k m hm with hm | hm
    · exact Nat.lt_succ_of_lt (hv k m hm)
    · obtain ⟨km, hkm, he⟩ := hm
      have hrp := addRelStep_metas_rp h st.relations_buffer.length st.m_relations.length
        r.members (0, [], [], 0) (by intro km2 hkm2; cases hkm2) km hkm
      rw [he] at hrp
      rw [hrp]
      exact Nat.lt_succ_self _

theorem pass1Fold_valid (h : Hooks) (input : List Obj) :
    ∀ st : CollectorState, metasValid st →
      metasValid (input.foldl (handle_pass1 h) st) := by
  induction input with
  | nil => intro st hv; exact hv
  | cons o input ih =>
    intro st hv
    rw [List.foldl_cons]
    refine ih _ ?_
    unfold handle_pass1
    split
    · exact add_relation_valid h st o hv
    · exact hv

/-- C9: after pass 1 and `sort_member_meta`, every `MemberMeta` in each
of the three per-kind vectors points at a valid `m_relations` index,
and each vector is non-decreasing in `member_id`. -/
theorem pass1_index_invariant (h : Hooks) (input : List Obj) :
    metasValid (read_relations h input {})
    ∧ ∀ k : ItemKind, mmSorted ((read_relations h input {}).member_meta k) := by
  have hv : metasValid (input.foldl (handle_pass1 h) {}) :=
    pass1Fold_valid h input {} (by intro k m hm; cases k <;> cases hm)
  constructor
  · intro k m hm
    have hperm : ∀ j : ItemKind, ((read_relations h input {}).member_meta j).Perm
        ((input.foldl (handle_pass1 h) {}).member_meta j) := by
      intro j
      cases j <;> exact mmSort_perm _
    have : (read_relations h input {}).m_relations
        = (input.foldl (handle_pass1 h) {}).m_relations := rfl
    rw [this]
    exact hv k m ((hperm k).mem_iff.mp hm)
  · intro k
    cases k <;> exact mmSort_sorted _

/-- C9 witness: the invariant instantiated on the S1 pass-1 input — the
concrete way-vector is sorted and its first meta's `relation_pos` is a
valid index. -/
theorem pass1_index_invariant_witness :
    (⟨10, 0, 0, none, false⟩ : MemberMeta).relation_pos
        < (read_relations keepAllHooks s1Pass1 {}).m_relations.length
    ∧ mmSorted ((read_relations keepAllHooks s1Pass1 {}).member_meta .way) :=
  ⟨(pass1_index_invariant keepAllHooks s1Pass1).1 .way ⟨10, 0, 0, none, false⟩ (by decide),
   (pass1_index_invariant keepAllHooks s1Pass1).2 .way⟩

/-! ## The equal-range on a sorted vector

On a sorted vector the half-open interval returned by `findRange` is
exactly the set of positions holding the searched `member_id`; range
updates and range reads are therefore id-conditional maps and
filters. -/

theorem findRange_le (v : List MemberMeta) (id : Int) :
    (findRange v id).1 ≤ (findRange v id).2 ∧ (findRange v id).2 ≤ v.length :=
  ⟨List.countP_mono_left (fun m _ hm => by
      simp only [decide_eq_true_eq] at hm ⊢
      exact le_of_lt hm),
   List.countP_le_length _⟩

theorem countP_lt_zero_of_min {t : List MemberMeta} {a : MemberMeta} (id : Int)
    (hall : ∀ b ∈ t, a.member_id ≤ b.member_id) (ha : id ≤ a.member_id) :
    t.countP (fun m => decide (m.member_id < id)) = 0 :=
  List.countP_eq_zero.mpr (fun b hb => by
    simp only [decide_eq_true_eq, not_lt]
    exact le_trans ha (hall b hb))

theorem countP_le_zero_of_min {t : List MemberMeta} {a : MemberMeta} (id : Int)
    (hall : ∀ b ∈ t, a.member_id ≤ b.member_id) (ha : id < a.member_id) :
    t.countP (fun m => decide (m.member_id ≤ id)) = 0 :=
  List.countP_eq_zero.mpr (fun b hb => by
    simp only [decide_eq_true_eq, not_le]
    exact lt_of_lt_of_le ha (hall b hb))

theorem mapCond_id {v : List MemberMeta} {id : Int} {f : MemberMeta → MemberMeta}
    (h : ∀ m ∈ v, ¬ m.member_id = id) :
    v.map (fun m => if m.member_id = id then f m else m) = v := by
  have hc : ∀ m ∈ v, (if m.member_id = id then f m else m) = m := by
    intro m hm
    rw [if_neg (h m hm)]
  exact (List.map_congr_left hc).trans (List.map_id v)

theorem updateRange_cons_succ (a : MemberMeta) (t : List MemberMeta) (lo hi : Nat)
    (f : MemberMeta → MemberMeta) :
    updateRange (a :: t) (lo + 1) (hi + 1) f = a :: updateRange t lo hi f := by
  unfold updateRange sliceOf
  rw [List.take_succ_cons, List.drop_succ_cons, List.drop_succ_cons, Nat.succ_sub_succ]
  rfl

theorem updateRange_cons_hit (a : MemberMeta) (t : List MemberMeta) (hi : Nat)
    (f : MemberMeta → MemberMeta) :
    updateRange (a :: t) 0 (hi + 1) f = f a :: updateRange t 0 hi f := by
  unfold updateRange sliceOf
  rw [List.drop_zero, List.drop_zero, Nat.sub_zero, Nat.sub_zero, List.take_succ_cons,
    List.drop_succ_cons, List.map_cons]
  rfl

theorem updateRange_zero_zero (v : List MemberMeta) (f : MemberMeta → MemberMeta) :
    updateRange v 0 0 f = v := by
  unfold updateRange sliceOf
  rw [List.take_zero, List.drop_zero, Nat.sub_zero, List.take_zero, List.map_nil]
  rfl

theorem sliceOf_cons_succ (a : MemberMeta) (t : List MemberMeta) (lo hi : Nat) :
    sliceOf (a :: t) (lo + 1) (hi + 1) = sliceOf t lo hi := by
  unfold sliceOf
  rw [List.drop_succ_cons, Nat.succ_sub_succ]

theorem sliceOf_cons_hit (a : MemberMeta) (t : List MemberMeta) (hi : Nat) :
    sliceOf (a :: t) 0 (hi + 1) = a :: sliceOf t 0 hi := by
  unfold sliceOf
  rw [List.drop_zero, List.drop_zero, Nat.sub_zero, Nat.sub_zero, List.take_succ_cons]

theorem updateRange_sorted (id : Int) (f : MemberMeta → MemberMeta) :
    ∀ v : List MemberMeta, mmSorted v →
      updateRange v (findRange v id).1 (findRange v id).2 f
        = v.map (fun m => if m.member_id = id then f m else m) := by
  intro v
  induction v with
  | nil => intro _; rfl
  | cons a t ih =>
    intro hs
    rw [mmSorted, List.pairwise_cons] at hs
    have hst : mmSorted t := hs.2
    rcases lt_trichotomy a.member_id id with hlt | heq | hgt
    · have h1 : (findRange (a :: t) id).1 = (findRange t id).1 + 1 := by
        simp [findRange, List.countP_cons, hlt]
      have h2 : (findRange (a :: t) id).2 = (findRange t id).2 + 1 := by
        simp [findRange, List.countP_cons, le_of_lt hlt]
      rw [h1, h2, updateRange_cons_succ, ih hst, List.map_cons, if_neg (ne_of_lt hlt)]
    · have hlo : (findRange (a :: t) id).1 = 0 := by
        have h0 := countP_lt_zero_of_min id hs.1 (le_of_eq heq.symm)
        simp [findRange, List.countP_cons, heq, h0]
      have hlot : (findRange t id).1 = 0 :=
        countP_lt_zero_of_min id hs.1 (le_of_eq heq.symm)
      have hhi : (findRange (a :: t) id).2 = (findRange t id).2 + 1 := by
        simp [findRange, List.countP_cons, le_of_eq heq]
      have hih := ih hst
      rw [hlot] at hih
      rw [hlo, hhi, updateRange_cons_hit, hih, List.map_cons, if_pos heq]
    · have hlo : (findRange (a :: t) id).1 = 0 := by
        have h0 := countP_lt_zero_of_min id hs.1 (le_of_lt hgt)
        simp [findRange, List.countP_cons, not_lt.mpr (le_of_lt hgt), h0]
      have hhi : (findRange (a :: t) id).2 = 0 := by
        have h0 := countP_le_zero_of_min id hs.1 hgt
        simp [findRange, List.countP_cons, not_le.mpr hgt, h0]
      rw [hlo, hhi, updateRange_zero_zero, mapCond_id]
      intro m hm
      rcases List.mem_cons.mp hm with hm | hm
      · exact hm ▸ (ne_of_gt hgt)
      · exact ne_of_gt (lt_of_lt_of_le hgt (hs.1 m hm))

theorem sliceOf_sorted (id : Int) :
    ∀ v : List MemberMeta, mmSorted v →
      sliceOf v (findRange v id).1 (findRange v id).2
        = v.filter (fun m => m.member_id == id) := by
  intro v
  induction v with
  | nil => intro _; rfl
  | cons a t ih =>
    intro hs
    rw [mmSorted, List.pairwise_cons] at hs
    have hst : mmSorted t := hs.2
    rcases lt_trichotomy a.member_id id with hlt | heq | hgt
    · have h1 : (findRange (a :: t) id).1 = (findRange t id).1 + 1 := by
        simp [findRange, List.countP_cons, hlt]
      have h2 : (findRange (a :: t) id).2 = (findRange t id).2 + 1 := by
        simp [findRange, List.countP_cons, le_of_lt hlt]
      rw [h1, h2, sliceOf_cons_succ, List.filter_cons, if_neg (by simp [hlt.ne])]
      exact ih hst
    · have hlo : (findRange (a :: t) id).1 = 0 := by
        have h0 := countP_lt_zero_of_min id hs.1 (le_of_eq heq.symm)
        simp [findRange, List.countP_cons, heq, h0]
      have hlot : (findRange t id).1 = 0 :=
        countP_lt_zero_of_min id hs.1 (le_of_eq heq.symm)
      have hhi : (findRange (a :: t) id).2 = (findRange t id).2 + 1 := by
        simp [findRange, List.countP_cons, le_of_eq heq]
      have hih := ih hst
      rw [hlot] at hih
      rw [hlo, hhi, sliceOf_cons_hit, hih, List.filter_cons, if_pos (by simp [heq])]
    · have hlo : (findRange (a :: t) id).1 = 0 := by
        have h0 := countP_lt_zero_of_min id hs.1 (le_of_lt hgt)
        simp [findRange, List.countP_cons, not_lt.mpr (le_of_lt hgt), h0]
      have hhi : (findRange (a :: t) id).2 = 0 := by
        have h0 := countP_le_zero_of_min id hs.1 hgt
        simp [findRange, List.countP_cons, not_le.mpr hgt, h0]
      have hnone : List.filter (fun m => m.member_id == id) (a :: t) = [] := by
        rw [List.filter_eq_nil_iff]
        intro m hm
        rcases List.mem_cons.mp hm with hm | hm
        · simp [hm, ne_of_gt hgt]
        · simp [ne_of_gt (lt_of_lt_of_le hgt (hs.1 m hm))]
      rw [hlo, hhi, hnone]
      rfl

/-! ## Duplicate arrivals (claims C2 and C3): the concrete scenario

Relation 40 has the single member way 30; relation 41 has members
way 30 and way 31.  Way 30 arrives twice, with different payloads.
After the first arrival relation 40 completes and its meta is
tombstoned; the second arrival is accepted (relation 41's meta is
still live), stores a second copy, redirects every matching meta —
including the tombstoned one — to the new copy, and then the
decrement loop breaks at the tombstone without decrementing relation
41. -/

def rel40 : Obj := ⟨.relation, 40, [⟨.way, 30, "outer"⟩]⟩

def rel41 : Obj := ⟨.relation, 41, [⟨.way, 30, "outer"⟩, ⟨.way, 31, "outer"⟩]⟩

def way30a : Obj := ⟨.way, 30, []⟩

def way30b : Obj := ⟨.way, 30, [⟨.node, 7, ""⟩]⟩

/-- The collector state after pass 1 over relations 40 and 41 and the
first arrival of way 30. -/
def stDup1 : CollectorState :=
  runCollector keepAllHooks false true false [rel40, rel41] [way30a]

/-- The same run after way 30 has arrived a second time (with
different content `way30b`). -/
def stDup2 : CollectorState :=
  runCollector keepAllHooks false true false [rel40, rel41] [way30a, way30b]

/-- C2 counterexample: on a duplicate arrival the collector stores a
second copy and redirects every matching `MemberMeta` to it, so the
copy used for member purposes is the second one, not the first: the
offset lookup for way 30 yields offset 1 (the second stored copy,
whose bytes differ from the first), not offset 0. -/
theorem duplicate_first_copy_wins_false :
    (find_and_add_object stDup1 way30b).2 = true
    ∧ (find_and_add_object stDup1 way30b).1 = stDup2
    ∧ stDup2.members_buffer = [(way30a, false), (way30b, false)]
    ∧ get_offset stDup2 .way 30 = some 1
    ∧ ¬ get_offset stDup2 .way 30 = some 0
    ∧ ¬ way30b = way30a := by
  decide

/-- C3 counterexample: in the accepted second `add` of way 30, the
equal-range holds the tombstoned meta of relation 40 followed by the
live meta of relation 41; the loop breaks at the tombstone, so the
live matching meta's relation is *not* decremented in that call
(`need_members` of relation 41 stays 1, where the claim demands a
decrement to 0). -/
theorem equal_range_decrement_skipped :
    (find_and_add_object stDup1 way30b).2 = true
    ∧ (find_and_add_object stDup1 way30b).1 = stDup2
    ∧ (stDup1.mm_ways.getD 1 mmDefault).member_id = 30
    ∧ (stDup1.mm_ways.getD 1 mmDefault).removed = false
    ∧ (stDup1.mm_ways.getD 1 mmDefault).relation_pos = 1
    ∧ (stDup1.m_relations.getD 1 {}).need_members = 1
    ∧ (stDup2.m_relations.getD 1 {}).need_members = 1 := by
  decide

/-! ## Frame and stability lemmas for the pass-2 loop -/

def keyOf (m : MemberMeta) : Int × Nat × Nat := (m.member_id, m.relation_pos, m.member_pos)

/-- Between two states of an index vector, only the `removed` flags may
differ: lengths, keys, and buffer offsets agree pointwise. -/
def offsetsStable (v w : List MemberMeta) : Prop :=
  w.length = v.length ∧
  ∀ i : Nat, ∀ mv mw : MemberMeta, v[i]? = some mv → w[i]? = some mw →
    keyOf mw = keyOf mv ∧ mw.buffer_offset = mv.buffer_offset

theorem offsetsStable_refl (v : List MemberMeta) : offsetsStable v v := by
  refine ⟨rfl, ?_⟩
  intro i mv mw h1 h2
  rw [h1] at h2
  cases h2
  exact ⟨rfl, rfl⟩

theorem offsetsStable_trans {u v w : List MemberMeta}
    (h1 : offsetsStable u v) (h2 : offsetsStable v w) : offsetsStable u w := by
  refine ⟨h2.1.trans h1.1, ?_⟩
  intro i mu mw hu hw
  have hi : i < v.length := by
    rw [h1.1]
    exact (List.getElem?_eq_some_iff.mp hu).1
  have hv : v[i]? = some v[i] := List.getElem?_eq_getElem hi
  obtain ⟨hk1, ho1⟩ := h1.2 i mu v[i] hu hv
  obtain ⟨hk2, ho2⟩ := h2.2 i v[i] mw hv hw
  exact ⟨hk2.trans hk1, ho2.trans ho1⟩

theorem offsetsStable_set {v : List MemberMeta} {k : Nat} {m : MemberMeta}
    (hm : v[k]? = some m) (b : Bool) :
    offsetsStable v (v.set k { m with removed := b }) := by
  refine ⟨List.length_set v k _, ?_⟩
  intro i mv mw h1 h2
  by_cases hik : k = i
  · subst hik
    rw [hm] at h1
    cases h1
    rw [List.getElem?_set_self (List.getElem?_eq_some_iff.mp hm).1] at h2
    cases h2
    exact ⟨rfl, rfl⟩
  · rw [List.getElem?_set_ne hik] at h2
    rw [h1] at h2
    cases h2
    exact ⟨rfl, rfl⟩

/-- Between two states of the members arena, only removal flags may
differ. -/
def bufObjStable (b1 b2 : List (Obj × Bool)) : Prop :=
  b2.length = b1.length ∧ ∀ i : Nat, (b2[i]?).map Prod.fst = (b1[i]?).map Prod.fst

theorem bufObjStable_refl (b : List (Obj × Bool)) : bufObjStable b b := ⟨rfl, fun _ => rfl⟩

theorem bufObjStable_trans {a b c : List (Obj × Bool)}
    (h1 : bufObjStable a b) (h2 : bufObjStable b c) : bufObjStable a c :=
  ⟨h2.1.trans h1.1, fun i => (h2.2 i).trans (h1.2 i)⟩

theorem bufObjStable_markRemoved (b : List (Obj × Bool)) (off : Nat) :
    bufObjStable b (markRemoved b off) := by
  unfold markRemoved
  refine ⟨List.length_set b off _, ?_⟩
  intro i
  by_cases hoff : off = i
  · subst hoff
    by_cases hlt : off < b.length
    · rw [List.getElem?_set_self hlt, List.getElem?_eq_getElem hlt]
      rw [List.getD_eq_getElem?_getD, List.getElem?_eq_getElem hlt]
      rfl
    · rw [List.getElem?_eq_none (le_of_not_lt hlt),
        List.getElem?_eq_none (le_of_not_lt (by rw [List.length_set]; exact hlt))]
  · rw [List.getElem?_set_ne hoff]

/-- The state evolution the decrement loop performs on everything
except `m_relations` values, the trace, and the counter: the arenas
keep their committed objects and the index keeps its keys and
offsets. -/
def loopStable (st st2 : CollectorState) : Prop :=
  (∀ j : ItemKind, offsetsStable (st.member_meta j) (st2.member_meta j))
  ∧ bufObjStable st.members_buffer st2.members_buffer
  ∧ st2.relations_buffer = st.relations_buffer
  ∧ st2.m_relations.length = st.m_relations.length

theorem loopStable_refl (st : CollectorState) : loopStable st st :=
  ⟨fun _ => offsetsStable_refl _, bufObjStable_refl _, rfl, rfl⟩

theorem loopStable_trans {a b c : CollectorState}
    (h1 : loopStable a b) (h2 : loopStable b c) : loopStable a c :=
  ⟨fun j => offsetsStable_trans (h1.1 j) (h2.1 j),
   bufObjStable_trans h1.2.1 h2.2.1,
   h2.2.2.1.trans h1.2.2.1,
   h2.2.2.2.trans h1.2.2.2⟩

theorem removeFirstIn_stable (st : CollectorState) (relId : Int) (v : List MemberMeta) :
    ∀ fuel k : Nat, offsetsStable v (removeFirstIn st relId v fuel k) := by
  intro fuel
  induction fuel with
  | zero => intro k; exact offsetsStable_refl v
  | succ fuel ih =>
    intro k
    unfold removeFirstIn
    split
    · exact offsetsStable_refl v
    · rename_i m hm
      split
      · exact offsetsStable_set hm true
      · exact ih (k + 1)

theorem member_meta_membuf (st : CollectorState) (b : List (Obj × Bool)) (j : ItemKind) :
    ({ st with members_buffer := b } : CollectorState).member_meta j = st.member_meta j := by
  cases j <;> rfl

theorem clear_one_core (st st1 : CollectorState) (k : ItemKind) (relId : Int)
    (fuel lo : Nat)
    (hbuf : bufObjStable st.members_buffer st1.members_buffer)
    (hmm : ∀ j : ItemKind, st1.member_meta j = st.member_meta j)
    (hrb : st1.relations_buffer = st.relations_buffer)
    (hmr : st1.m_relations = st.m_relations) :
    loopStable st (st1.setMM k (removeFirstIn st1 relId (st.member_meta k) fuel lo)) := by
  refine ⟨?_, ?_, ?_, ?_⟩
  · intro j
    rw [member_meta_setMM]
    by_cases hj : j = k
    · subst hj
      rw [if_pos rfl]
      exact removeFirstIn_stable st1 relId (st.member_meta j) fuel lo
    · rw [if_neg hj, hmm j]
      exact offsetsStable_refl _
  · have : (st1.setMM k (removeFirstIn st1 relId (st.member_meta k) fuel lo)).members_buffer
        = st1.members_buffer := by cases k <;> rfl
    rw [this]
    exact hbuf
  · have : (st1.setMM k (removeFirstIn st1 relId (st.member_meta k) fuel lo)).relations_buffer
        = st1.relations_buffer := by cases k <;> rfl
    rw [this, hrb]
  · have : (st1.setMM k (removeFirstIn st1 relId (st.member_meta k) fuel lo)).m_relations
        = st1.m_relations := by cases k <;> rfl
    rw [this, hmr]

theorem clear_one_stable (rel : Obj) (st : CollectorState) (member : Member) :
    loopStable st (clear_one rel st member) := by
  simp only [clear_one]
  split
  · exact loopStable_refl st
  · split
    · split
      · refine clear_one_core st _ member.kind rel.id _ _ ?_ ?_ ?_ ?_
        · exact bufObjStable_markRemoved _ _
        · intro j; exact member_meta_membuf st _ j
        · rfl
        · rfl
      · exact clear_one_core st st member.kind rel.id _ _ (bufObjStable_refl _)
          (fun _ => rfl) rfl rfl
    · exact clear_one_core st st member.kind rel.id _ _ (bufObjStable_refl _)
        (fun _ => rfl) rfl rfl

theorem clear_one_frame (rel : Obj) (st : CollectorState) (member : Member) :
    (clear_one rel st member).trace = st.trace
    ∧ (clear_one rel st member).m_count_complete = st.m_count_complete
    ∧ (clear_one rel st member).m_relations = st.m_relations
    ∧ (clear_one rel st member).relations_buffer = st.relations_buffer
    ∧ (clear_one rel st member).purges = st.purges := by
  simp only [clear_one]
  split
  · exact ⟨rfl, rfl, rfl, rfl, rfl⟩
  · split
    · split
      · cases member.kind <;> exact ⟨rfl, rfl, rfl, rfl, rfl⟩
      · cases member.kind <;> exact ⟨rfl, rfl, rfl, rfl, rfl⟩
    · cases member.kind <;> exact ⟨rfl, rfl, rfl, rfl, rfl⟩

theorem clearFold_stable (rel : Obj) (ms : List Member) :
    ∀ s : CollectorState, loopStable s (ms.foldl (clear_one rel) s) := by
  induction ms with
  | nil => intro s; exact loopStable_refl s
  | cons m ms ih =>
    intro s
    rw [List.foldl_cons]
    exact loopStable_trans (clear_one_stable rel s m) (ih _)

theorem clearFold_frame (rel : Obj) (ms : List Member) :
    ∀ s : CollectorState,
      (ms.foldl (clear_one rel) s).trace = s.trace
      ∧ (ms.foldl (clear_one rel) s).m_count_complete = s.m_count_complete
      ∧ (ms.foldl (clear_one rel) s).m_relations = s.m_relations
      ∧ (ms.foldl (clear_one rel) s).relations_buffer = s.relations_buffer
      ∧ (ms.foldl (clear_one rel) s).purges = s.purges := by
  induction ms with
  | nil => intro s; exact ⟨rfl, rfl, rfl, rfl, rfl⟩
  | cons m ms ih =>
    intro s
    rw [List.foldl_cons]
    obtain ⟨h1, h2, h3, h4, h5⟩ := ih (clear_one rel s m)
    obtain ⟨g1, g2, g3, g4, g5⟩ := clear_one_frame rel s m
    exact ⟨h1.trans g1, h2.trans g2, h3.trans g3, h4.trans g4, h5.trans g5⟩

theorem clear_member_metas_stable (st : CollectorState) (rm : RelationMeta) :
    loopStable st (clear_member_metas st rm) :=
  clearFold_stable _ _ st

theorem clear_member_metas_frame (st : CollectorState) (rm : RelationMeta) :
    (clear_member_metas st rm).trace = st.trace
    ∧ (clear_member_metas st rm).m_count_complete = st.m_count_complete
    ∧ (clear_member_metas st rm).m_relations = st.m_relations
    ∧ (clear_member_metas st rm).relations_buffer = st.relations_buffer
    ∧ (clear_member_metas st rm).purges = st.purges :=
  clearFold_frame _ _ st

/-- When the counter stays at or below the threshold no compaction
runs: the call is a pure counter increment. -/
theorem possibly_purge_of_le (s : CollectorState)
    (h : s.m_count_complete + 1 ≤ purgeThreshold) :
    possibly_purge_removed_members s = { s with m_count_complete := s.m_count_complete + 1 } := by
  simp only [possibly_purge_removed_members]
  rw [if_neg (not_lt.mpr h)]

/-- The index position that triggered an event (0 for rejections). -/
def idxOf : Event → Nat
  | .complete i _ _ => i
  | .notInAny _ _ => 0

/-- The event is a completion triggered at index ≥ `k`. -/
def completeAtLeast (k : Nat) : Event → Prop
  | .complete i _ _ => k ≤ i
  | .notInAny _ _ => False

theorem member_meta_trace_update (st : CollectorState) (tr : List Event) (j : ItemKind) :
    ({ st with trace := tr } : CollectorState).member_meta j = st.member_meta j := by
  cases j <;> rfl

theorem member_meta_count_update (st : CollectorState) (c : Nat) (j : ItemKind) :
    ({ st with m_count_complete := c } : CollectorState).member_meta j = st.member_meta j := by
  cases j <;> rfl

theorem member_meta_rels_update (st : CollectorState) (r : List RelationMeta) (j : ItemKind) :
    ({ st with m_relations := r } : CollectorState).member_meta j = st.member_meta j := by
  cases j <;> rfl

theorem loopStable_trace_update (st : CollectorState) (tr : List Event) :
    loopStable st { st with trace := tr } := by
  refine ⟨fun j => ?_, bufObjStable_refl _, rfl, rfl⟩
  rw [member_meta_trace_update]
  exact offsetsStable_refl _

theorem loopStable_count_update (st : CollectorState) (c : Nat) :
    loopStable st { st with m_count_complete := c } := by
  refine ⟨fun j => ?_, bufObjStable_refl _, rfl, rfl⟩
  rw [member_meta_count_update]
  exact offsetsStable_refl _

theorem loopStable_rels_set (st : CollectorState) (p : Nat) (x : RelationMeta) :
    loopStable st { st with m_relations := st.m_relations.set p x } := by
  refine ⟨fun j => ?_, bufObjStable_refl _, rfl, List.length_set _ _ _⟩
  rw [member_meta_rels_update]
  exact offsetsStable_refl _

theorem doComplete_master (st : CollectorState) (k p : Nat)
    (h : st.m_count_complete + 1 ≤ purgeThreshold) :
    (doComplete st k p).trace
      = st.trace ++ [.complete k p
          ((st.get_relation (st.m_relations.getD p {}).relation_offset).id)]
    ∧ (doComplete st k p).m_count_complete = st.m_count_complete + 1
    ∧ loopStable st (doComplete st k p) := by
  unfold doComplete
  set ev : Event := .complete k p
    ((st.get_relation (st.m_relations.getD p {}).relation_offset).id) with hev
  set st1 : CollectorState := { st with trace := st.trace ++ [ev] } with hst1def
  set st2 := clear_member_metas st1 (st.m_relations.getD p {}) with hst2def
  set st3 : CollectorState := { st2 with m_relations := st2.m_relations.set p {} } with hst3def
  obtain ⟨c1, c2, c3, c4, c5⟩ := clear_member_metas_frame st1 (st.m_relations.getD p {})
  have hcount3 : st3.m_count_complete = st.m_count_complete := c2
  have hpp := possibly_purge_of_le st3 (by rw [hcount3]; exact h)
  rw [hpp]
  refine ⟨?_, ?_, ?_⟩
  · show st3.trace = st.trace ++ [ev]
    rw [hst3def]
    show st2.trace = st.trace ++ [ev]
    rw [c1]
  · show st3.m_count_complete + 1 = st.m_count_complete + 1
    rw [hcount3]
  · have l1 : loopStable st st1 := loopStable_trace_update st _
    have l2 : loopStable st1 st2 := clear_member_metas_stable st1 _
    have l3 : loopStable st2 st3 := loopStable_rels_set st2 p {}
    have l4 : loopStable st3 { st3 with m_count_complete := st3.m_count_complete + 1 } :=
      loopStable_count_update st3 _
    exact loopStable_trans (loopStable_trans (loopStable_trans l1 l2) l3) l4

theorem completeAtLeast_mono {k k2 : Nat} (hk : k ≤ k2) :
    ∀ e : Event, completeAtLeast k2 e → completeAtLeast k e := by
  intro e
  cases e with
  | complete i p r => exact fun hi => le_trans hk hi
  | notInAny a b => exact fun hf => hf.elim

theorem lt_idxOf_of_atLeast {k : Nat} :
    ∀ e : Event, completeAtLeast (k + 1) e → k < idxOf e := by
  intro e
  cases e with
  | complete i p r => exact fun hi => hi
  | notInAny a b => exact fun hf => hf.elim

/-- The decrement loop of `find_and_add_object`, under enough headroom
on the completion counter that no compaction fires: it preserves the
arenas' objects and the index's keys and offsets, advances the counter
at most once per visited entry, and emits only completion events, in
strictly ascending order of the triggering index (each at least the
loop's starting index). -/
theorem processLoop_master (kind : ItemKind) (hi : Nat) :
    ∀ (fuel k : Nat) (st : CollectorState),
      st.m_count_complete + fuel ≤ purgeThreshold →
      loopStable st (processLoop kind hi fuel k st)
      ∧ (processLoop kind hi fuel k st).m_count_complete ≤ st.m_count_complete + fuel
      ∧ ∃ E : List Event, (processLoop kind hi fuel k st).trace = st.trace ++ E
          ∧ (∀ e ∈ E, completeAtLeast k e)
          ∧ E.Pairwise (fun a b => idxOf a < idxOf b) := by
  intro fuel
  induction fuel with
  | zero =>
    intro k st _
    exact ⟨loopStable_refl st, Nat.le_refl _,
      [], (List.append_nil _).symm, fun e he => absurd he (List.not_mem_nil e), List.Pairwise.nil⟩
  | succ fuel ih =>
    intro k st hroom
    simp only [processLoop]
    split
    · exact ⟨loopStable_refl st, Nat.le_add_right _ _,
        [], (List.append_nil _).symm, fun e he => absurd he (List.not_mem_nil e), List.Pairwise.nil⟩
    · rename_i m hm
      split
      · exact ⟨loopStable_refl st, Nat.le_add_right _ _,
          [], (List.append_nil _).symm, fun e he => absurd he (List.not_mem_nil e), List.Pairwise.nil⟩
      · set rm := st.m_relations.getD m.relation_pos {} with hrm
        set rm1 : RelationMeta := { rm with need_members := rm.need_members - 1 } with hrm1
        set st1 : CollectorState :=
          { st with m_relations := st.m_relations.set m.relation_pos rm1 } with hst1
        have hl1 : loopStable st st1 := loopStable_rels_set st _ _
        have hc1 : st1.m_count_complete = st.m_count_complete := rfl
        have ht1 : st1.trace = st.trace := rfl
        split
        · -- completion fires
          have hcm : st1.m_count_complete + 1 ≤ purgeThreshold := by
            rw [hc1]
            omega
          obtain ⟨dt, dc, dl⟩ := doComplete_master st1 k m.relation_pos hcm
          set st2 := doComplete st1 k m.relation_pos with hst2
          have hroom2 : st2.m_count_complete + fuel ≤ purgeThreshold := by
            rw [dc, hc1]
            omega
          obtain ⟨il, ic, E2, iE, iAl, iPw⟩ := ih (k + 1) st2 hroom2
          refine ⟨loopStable_trans (loopStable_trans hl1 dl) il, ?_, ?_⟩
          · omega
          · refine ⟨Event.complete k m.relation_pos
              ((st1.get_relation (st1.m_relations.getD m.relation_pos {}).relation_offset).id)
              :: E2, ?_, ?_, ?_⟩
            · rw [iE, dt, ht1, List.append_assoc]
              rfl
            · intro e he
              rcases List.mem_cons.mp he with he | he
              · rw [he]
                exact Nat.le_refl k
              · exact completeAtLeast_mono (Nat.le_succ k) e (iAl e he)
            · rw [List.pairwise_cons]
              refine ⟨?_, iPw⟩
              intro b hb
              exact lt_idxOf_of_atLeast b (iAl b hb)
        · -- no completion
          have hroom2 : st1.m_count_complete + fuel ≤ purgeThreshold := by
            rw [hc1]
            omega
          obtain ⟨il, ic, E2, iE, iAl, iPw⟩ := ih (k + 1) st1 hroom2
          refine ⟨loopStable_trans hl1 il, ?_, ?_⟩
          · omega
          · refine ⟨E2, ?_, ?_, iPw⟩
            · rw [iE, ht1]
            · intro e he
              exact completeAtLeast_mono (Nat.le_succ k) e (iAl e he)

/-! ## Last stored copy wins (claim C2, part i) -/

theorem member_meta_setMM_self (st : CollectorState) (k : ItemKind) (v : List MemberMeta) :
    (st.setMM k v).member_meta k = v := by
  cases k <;> rfl

theorem find_and_add_accepted (st : CollectorState) (obj : Obj)
    (hacc : count_not_removed (st.member_meta obj.kind)
        (findRange (st.member_meta obj.kind) obj.id).1
        (findRange (st.member_meta obj.kind) obj.id).2 ≠ 0) :
    find_and_add_object st obj
      = (processLoop obj.kind (findRange (st.member_meta obj.kind) obj.id).2
          ((findRange (st.member_meta obj.kind) obj.id).2
            - (findRange (st.member_meta obj.kind) obj.id).1)
          (findRange (st.member_meta obj.kind) obj.id).1
          (({ st with members_buffer := st.members_buffer ++ [(obj, false)] } :
              CollectorState).setMM obj.kind
            (updateRange (st.member_meta obj.kind)
              (findRange (st.member_meta obj.kind) obj.id).1
              (findRange (st.member_meta obj.kind) obj.id).2
              (fun m => { m with buffer_offset := some st.members_buffer.length }))),
        true) := by
  simp only [find_and_add_object]
  rw [if_neg (by simpa using hacc)]

/-- C2 as amended, call-level part: an accepted (duplicate) arrival
stores a fresh copy of the object at the end of the members arena and
redirects *every* `MemberMeta` of the equal-range — tombstoned ones
included — to that newest copy, so the most recently stored copy wins
for member purposes.  Hypotheses: the per-kind vector is sorted (as
after `sort_member_meta`) and the completion counter has enough
headroom that no compaction relocates the fresh copy during the same
call. -/
theorem find_and_add_last_copy_wins (st : CollectorState) (obj : Obj)
    (hsort : mmSorted (st.member_meta obj.kind))
    (hacc : count_not_removed (st.member_meta obj.kind)
        (findRange (st.member_meta obj.kind) obj.id).1
        (findRange (st.member_meta obj.kind) obj.id).2 ≠ 0)
    (hroom : st.m_count_complete
        + ((findRange (st.member_meta obj.kind) obj.id).2
            - (findRange (st.member_meta obj.kind) obj.id).1) ≤ purgeThreshold) :
    (find_and_add_object st obj).2 = true
    ∧ (∀ m ∈ (find_and_add_object st obj).1.member_meta obj.kind,
        m.member_id = obj.id → m.buffer_offset = some st.members_buffer.length)
    ∧ ((find_and_add_object st obj).1.members_buffer[st.members_buffer.length]?).map Prod.fst
      = some obj := by
  rw [find_and_add_accepted st obj hacc]
  set v := st.member_meta obj.kind with hv
  set r := findRange v obj.id with hr
  set st1 : CollectorState :=
    { st with members_buffer := st.members_buffer ++ [(obj, false)] } with hst1
  set w := updateRange v r.1 r.2
    (fun m => { m with buffer_offset := some st.members_buffer.length }) with hw
  set st2 := st1.setMM obj.kind w with hst2
  have hc2 : st2.m_count_complete = st.m_count_complete := by
    rw [hst2, setMM_count]
  have hroom2 : st2.m_count_complete + (r.2 - r.1) ≤ purgeThreshold := by
    rw [hc2]
    exact hroom
  obtain ⟨hstab, _, _⟩ := processLoop_master obj.kind r.2 (r.2 - r.1) r.1 st2 hroom2
  refine ⟨rfl, ?_, ?_⟩
  · intro m hm hid
    have hw2 : st2.member_meta obj.kind = w := member_meta_setMM_self st1 obj.kind w
    have hmap : w = v.map (fun m => if m.member_id = obj.id then
        { m with buffer_offset := some st.members_buffer.length } else m) := by
      rw [hw, hr]
      exact updateRange_sorted obj.id
        (fun m => { m with buffer_offset := some st.members_buffer.length }) v hsort
    have hveq : st2.member_meta obj.kind
        = v.map (fun m => if m.member_id = obj.id then
            { m with buffer_offset := some st.members_buffer.length } else m) :=
      hw2.trans hmap
    obtain ⟨i, hfi⟩ := List.mem_iff_getElem?.mp hm
    have hstabk := hstab.1 obj.kind
    have hi2 : i < (st2.member_meta obj.kind).length := by
      rw [← hstabk.1]
      exact (List.getElem?_eq_some_iff.mp hfi).1
    have hilen : i < v.length := by
      rw [hveq, List.length_map] at hi2
      exact hi2
    have hvx : v[i]? = some v[i] := List.getElem?_eq_getElem hilen
    have hst2i : (st2.member_meta obj.kind)[i]?
        = some (if v[i].member_id = obj.id then
            { v[i] with buffer_offset := some st.members_buffer.length } else v[i]) := by
      rw [hveq, List.getElem?_map, hvx]
      rfl
    obtain ⟨hkey, hoff⟩ := hstabk.2 i _ m hst2i hfi
    by_cases hxid : v[i].member_id = obj.id
    · rw [if_pos hxid] at hoff
      rw [hoff]
    · rw [if_neg hxid] at hkey
      have hmid : m.member_id = v[i].member_id := congrArg (fun q => q.1) hkey
      rw [hid] at hmid
      exact absurd hmid.symm hxid
  · have hb : bufObjStable st2.members_buffer
        (processLoop obj.kind r.2 (r.2 - r.1) r.1 st2).members_buffer := hstab.2.1
    have hb2 : st2.members_buffer = st.members_buffer ++ [(obj, false)] := by
      rw [hst2]
      cases obj.kind <;> rfl
    have := hb.2 st.members_buffer.length
    rw [this, hb2, List.getElem?_append]
    rw [if_neg (lt_irrefl _)]
    rw [Nat.sub_self]
    rfl

/-! ## No re-completion (claim C2, part ii) -/

/-- Relation positions for which `complete_relation` has fired, in
firing order. -/
def completedPositions (tr : List Event) : List Nat :=
  tr.filterMap (fun e => match e with
    | .complete _ p _ => some p
    | .notInAny _ _ => none)

theorem completedPositions_append_complete (tr : List Event) (i p : Nat) (rid : Int) :
    completedPositions (tr ++ [.complete i p rid]) = completedPositions tr ++ [p] := by
  unfold completedPositions
  rw [List.filterMap_append]
  rfl

theorem completedPositions_append_notInAny (tr : List Event) (k : ItemKind) (i : Int) :
    completedPositions (tr ++ [.notInAny k i]) = completedPositions tr := by
  unfold completedPositions
  rw [List.filterMap_append]
  simp

/-- The inductive invariant for re-completion freedom: fired positions
are pairwise distinct and their `need_members` went (and stays) at or
below zero — `got_one_member` can then never take them through the
`need_members == 0` test again. -/
def goodTrace (st : CollectorState) : Prop :=
  (completedPositions st.trace).Nodup
  ∧ ∀ p ∈ completedPositions st.trace, (st.m_relations.getD p {}).need_members ≤ 0

theorem getD_set (l : List RelationMeta) (i j : Nat) (x d : RelationMeta) :
    (l.set i x).getD j d = if i = j ∧ i < l.length then x else l.getD j d := by
  rw [List.getD_eq_getElem?_getD, List.getD_eq_getElem?_getD, List.getElem?_set]
  by_cases hij : i = j
  · subst hij
    by_cases hlt : i < l.length
    · rw [if_pos rfl, if_pos hlt, if_pos ⟨rfl, hlt⟩]
      rfl
    · rw [if_pos rfl, if_neg hlt, if_neg (fun hc => hlt hc.2)]
      rw [List.getElem?_eq_none (le_of_not_lt hlt)]
  · rw [if_neg hij, if_neg (fun hc => hij hc.1)]

theorem setMM_trace (st : CollectorState) (k : ItemKind) (v : List MemberMeta) :
    (st.setMM k v).trace = st.trace := by
  cases k <;> rfl

theorem setMM_rels (st : CollectorState) (k : ItemKind) (v : List MemberMeta) :
    (st.setMM k v).m_relations = st.m_relations := by
  cases k <;> rfl

theorem moving_in_buffer_frame (s : CollectorState) (a b : Nat) :
    (moving_in_buffer s a b).m_relations = s.m_relations
    ∧ (moving_in_buffer s a b).trace = s.trace := by
  unfold moving_in_buffer
  exact ⟨setMM_rels .., setMM_trace ..⟩

theorem movesFold_frame (l : List (Nat × Nat)) :
    ∀ s : CollectorState,
      (l.foldl (fun s p => moving_in_buffer s p.1 p.2) s).m_relations = s.m_relations
      ∧ (l.foldl (fun s p => moving_in_buffer s p.1 p.2) s).trace = s.trace := by
  induction l with
  | nil => intro s; exact ⟨rfl, rfl⟩
  | cons p l ih =>
    intro s
    rw [List.foldl_cons]
    obtain ⟨h1, h2⟩ := ih (moving_in_buffer s p.1 p.2)
    obtain ⟨g1, g2⟩ := moving_in_buffer_frame s p.1 p.2
    exact ⟨h1.trans g1, h2.trans g2⟩

theorem purge_removed_frame (s : CollectorState) :
    (purge_removed s).m_relations = s.m_relations
    ∧ (purge_removed s).trace = s.trace := by
  unfold purge_removed
  exact ⟨(movesFold_frame _ s).1, (movesFold_frame _ s).2⟩

theorem possibly_purge_frame (s : CollectorState) :
    (possibly_purge_removed_members s).m_relations = s.m_relations
    ∧ (possibly_purge_removed_members s).trace = s.trace := by
  simp only [possibly_purge_removed_members]
  split
  · exact ⟨(purge_removed_frame _).1, (purge_removed_frame _).2⟩
  · exact ⟨rfl, rfl⟩

theorem goodTrace_transfer {st st2 : CollectorState}
    (htr : st2.trace = st.trace) (hrl : st2.m_relations = st.m_relations)
    (h : goodTrace st) : goodTrace st2 := by
  unfold goodTrace
  rw [htr, hrl]
  exact h

theorem doComplete_good (st : CollectorState) (k p : Nat)
    (hst : goodTrace st) (hp : p ∉ completedPositions st.trace) :
    goodTrace (doComplete st k p) := by
  unfold doComplete
  set ev : Event := .complete k p
    ((st.get_relation (st.m_relations.getD p {}).relation_offset).id) with hev
  set st1 : CollectorState := { st with trace := st.trace ++ [ev] } with hst1def
  set st2 := clear_member_metas st1 (st.m_relations.getD p {}) with hst2def
  set st3 : CollectorState := { st2 with m_relations := st2.m_relations.set p {} } with hst3def
  obtain ⟨c1, _, c3, _, _⟩ := clear_member_metas_frame st1 (st.m_relations.getD p {})
  refine goodTrace_transfer (possibly_purge_frame st3).2 (possibly_purge_frame st3).1 ?_
  have htr3 : st3.trace = st.trace ++ [ev] := by
    rw [hst3def]
    show st2.trace = st.trace ++ [ev]
    rw [c1]
  have hrl3 : st3.m_relations = st.m_relations.set p {} := by
    rw [hst3def]
    show st2.m_relations.set p {} = st.m_relations.set p {}
    rw [c3]
  constructor
  · rw [htr3, hev, completedPositions_append_complete]
    rw [List.nodup_append]
    refine ⟨hst.1, List.nodup_singleton p, ?_⟩
    intro a ha hb
    rw [List.mem_singleton.mp hb] at ha
    exact hp ha
  · intro q hq
    rw [htr3, hev, completedPositions_append_complete] at hq
    rw [hrl3, getD_set]
    rcases List.mem_append.mp hq with hq | hq
    · rw [if_neg (fun hc : p = q ∧ p < st.m_relations.length =>
        hp (by rw [hc.1]; exact hq))]
      exact hst.2 q hq
    · have hqp : q = p := List.mem_singleton.mp hq
      subst hqp
      split
      · exact le_refl 0
      · rename_i hcond
        have hge : st.m_relations.length ≤ q := by
          by_contra hlt
          exact hcond ⟨rfl, lt_of_not_le hlt⟩
        rw [List.getD_eq_getElem?_getD, List.getElem?_eq_none hge]
        exact le_refl 0

theorem processLoop_good (kind : ItemKind) (hi : Nat) :
    ∀ (fuel k : Nat) (st : CollectorState),
      goodTrace st → goodTrace (processLoop kind hi fuel k st) := by
  intro fuel
  induction fuel with
  | zero => intro k st h; exact h
  | succ fuel ih =>
    intro k st hst
    simp only [processLoop]
    split
    · exact hst
    · rename_i m hm
      split
      · exact hst
      · set rm := st.m_relations.getD m.relation_pos {} with hrm
        set rm1 : RelationMeta := { rm with need_members := rm.need_members - 1 } with hrm1
        set st1 : CollectorState :=
          { st with m_relations := st.m_relations.set m.relation_pos rm1 } with hst1
        have htr1 : st1.trace = st.trace := rfl
        split
        · rename_i hfire
          have hneed0 : rm1.need_members = 0 := by
            have := of_decide_eq_true hfire
            simpa [RelationMeta.has_all_members] using hfire
          have hneed : rm.need_members = 1 := by
            have : rm.need_members - 1 = 0 := hneed0
            omega
          have hp : m.relation_pos ∉ completedPositions st.trace := by
            intro hmem
            have := hst.2 m.relation_pos hmem
            rw [← hrm] at this
            omega
          have hg1 : goodTrace st1 := by
            constructor
            · rw [htr1]; exact hst.1
            · intro q hq
              rw [htr1] at hq
              show (st1.m_relations.getD q {}).need_members ≤ 0
              have : st1.m_relations = st.m_relations.set m.relation_pos rm1 := rfl
              rw [this, getD_set]
              rw [if_neg (fun hc : m.relation_pos = q ∧ _ =>
                hp (by rw [hc.1]; exact hq))]
              exact hst.2 q hq
          have hp1 : m.relation_pos ∉ completedPositions st1.trace := by
            rw [htr1]; exact hp
          exact ih (k + 1) _ (doComplete_good st1 k m.relation_pos hg1 hp1)
        · have hg1 : goodTrace st1 := by
            constructor
            · rw [htr1]; exact hst.1
            · intro q hq
              rw [htr1] at hq
              show (st1.m_relations.getD q {}).need_members ≤ 0
              have hrow : st1.m_relations = st.m_relations.set m.relation_pos rm1 := rfl
              rw [hrow, getD_set]
              split
              · rename_i hc
                have hb := hst.2 q hq
                rw [← hc.1, ← hrm] at hb
                rw [hrm1]
                show rm.need_members - 1 ≤ 0
                omega
              · exact hst.2 q hq
          exact ih (k + 1) _ hg1

theorem find_and_add_good (st : CollectorState) (obj : Obj)
    (h : goodTrace st) : goodTrace (find_and_add_object st obj).1 := by
  simp only [find_and_add_object]
  split
  · exact h
  · refine processLoop_good _ _ _ _ _ ?_
    refine goodTrace_transfer ?_ ?_ h
    · rw [setMM_trace]
    · rw [setMM_rels]

theorem handle_pass2_good (tn tw tr : Bool) (st : CollectorState) (obj : Obj)
    (h : goodTrace st) : goodTrace (handle_pass2 tn tw tr st obj) := by
  simp only [handle_pass2]
  split
  · split
    · exact find_and_add_good st obj h
    · have hg := find_and_add_good st obj h
      refine ⟨?_, ?_⟩
      · show (completedPositions (_ ++ [.notInAny obj.kind obj.id])).Nodup
        rw [completedPositions_append_notInAny]
        exact hg.1
      · intro q hq
        rw [completedPositions_append_notInAny] at hq
        exact hg.2 q hq
  · exact h

theorem setMMFold_trace (metas : List (ItemKind × MemberMeta)) :
    ∀ s : CollectorState,
      (metas.foldl (fun s km => s.setMM km.1 (s.member_meta km.1 ++ [km.2])) s).trace
        = s.trace := by
  induction metas with
  | nil => intro s; rfl
  | cons km metas ih =>
    intro s
    rw [List.foldl_cons, ih, setMM_trace]

theorem add_relation_trace (h : Hooks) (st : CollectorState) (r : Obj) :
    (add_relation h st r).trace = st.trace := by
  simp only [add_relation]
  split
  · rfl
  · exact setMMFold_trace _ _

theorem read_relations_trace (h : Hooks) (input : List Obj) :
    ∀ st : CollectorState, (read_relations h input st).trace = st.trace := by
  have hfold : ∀ (l : List Obj) (st : CollectorState),
      (l.foldl (handle_pass1 h) st).trace = st.trace := by
    intro l
    induction l with
    | nil => intro st; rfl
    | cons o l ih =>
      intro st
      rw [List.foldl_cons, ih]
      unfold handle_pass1
      split
      · exact add_relation_trace h st o
      · rfl
  intro st
  show (List.foldl (handle_pass1 h) st input).trace = st.trace
  exact hfold input st

theorem pass2Fold_good (tn tw tr : Bool) (p2 : List Obj) :
    ∀ st : CollectorState, goodTrace st →
      goodTrace (p2.foldl (handle_pass2 tn tw tr) st) := by
  induction p2 with
  | nil => intro st h; exact h
  | cons o p2 ih =>
    intro st h
    rw [List.foldl_cons]
    exact ih _ (handle_pass2_good tn tw tr st o h)

theorem runCollector_good (h : Hooks) (tn tw tr : Bool) (p1 p2 : List Obj) :
    goodTrace (runCollector h tn tw tr p1 p2) := by
  refine pass2Fold_good tn tw tr p2 _ ?_
  constructor
  · rw [read_relations_trace]
    exact List.nodup_nil
  · intro q hq
    rw [read_relations_trace] at hq
    exact absurd hq (List.not_mem_nil q)

/-- C2 as amended: a duplicate object is accepted without error; when
it still matches a live `MemberMeta` it is stored again and every
matching `MemberMeta` is redirected to the newest copy (the most
recently stored copy wins for member purposes); each matching meta up
to the first tombstone still decrements independently; and on any run,
`complete_relation` fires at most once per relation position — a
completed relation is never re-completed. -/
theorem duplicate_handling_amended :
    (∀ (st : CollectorState) (obj : Obj),
      mmSorted (st.member_meta obj.kind) →
      count_not_removed (st.member_meta obj.kind)
          (findRange (st.member_meta obj.kind) obj.id).1
          (findRange (st.member_meta obj.kind) obj.id).2 ≠ 0 →
      st.m_count_complete
          + ((findRange (st.member_meta obj.kind) obj.id).2
              - (findRange (st.member_meta obj.kind) obj.id).1) ≤ purgeThreshold →
      (find_and_add_object st obj).2 = true
      ∧ (∀ m ∈ (find_and_add_object st obj).1.member_meta obj.kind,
          m.member_id = obj.id → m.buffer_offset = some st.members_buffer.length)
      ∧ ((find_and_add_object st obj).1.members_buffer[st.members_buffer.length]?).map
          Prod.fst = some obj)
    ∧ ∀ (h : Hooks) (tn tw tr : Bool) (p1 p2 : List Obj),
        (completedPositions (runCollector h tn tw tr p1 p2).trace).Nodup :=
  ⟨fun st obj hs ha hr => find_and_add_last_copy_wins st obj hs ha hr,
   fun h tn tw tr p1 p2 => (runCollector_good h tn tw tr p1 p2).1⟩

/-- C2 amended-claim witness: the duplicate scenario instantiates the
call-level part (the second way 30 is accepted and the matching metas
point at the new copy) and the run-level part (no position completes
twice). -/
theorem duplicate_handling_amended_witness :
    ((find_and_add_object stDup1 way30b).2 = true
      ∧ (∀ m ∈ (find_and_add_object stDup1 way30b).1.member_meta way30b.kind,
          m.member_id = way30b.id → m.buffer_offset = some stDup1.members_buffer.length)
      ∧ ((find_and_add_object stDup1 way30b).1.members_buffer[
          stDup1.members_buffer.length]?).map Prod.fst = some way30b)
    ∧ (completedPositions stDup2.trace).Nodup :=
  ⟨duplicate_handling_amended.1 stDup1 way30b (by decide) (by decide) (by decide),
   duplicate_handling_amended.2 keepAllHooks false true false [rel40, rel41] [way30a, way30b]⟩

/-! ## Full decrement when the equal-range is tombstone-free (claim C3) -/

theorem sliceOf_eq_cons (v : List MemberMeta) (k hi : Nat) (hk : k < hi)
    (hh : hi ≤ v.length) :
    sliceOf v k hi = v.getD k mmDefault :: sliceOf v (k + 1) hi := by
  have hkl : k < v.length := lt_of_lt_of_le hk hh
  unfold sliceOf
  rw [List.drop_eq_getElem_cons hkl, List.getD_eq_getElem v mmDefault hkl]
  rw [show hi - k = (hi - (k + 1)) + 1 by omega, List.take_succ_cons]

/-- `got_one_member` on the relation at position `p`: replace its meta
by one with the counter decremented. -/
def decrementAt (st : CollectorState) (p : Nat) : CollectorState :=
  let rm := st.m_relations.getD p {}
  let rm1 : RelationMeta := { rm with need_members := rm.need_members - 1 }
  { st with m_relations := st.m_relations.set p rm1 }

/-- The body of one non-tombstoned iteration of the decrement loop:
`got_one_member` on the owning relation, then the completion check. -/
def loopBody (st : CollectorState) (k p : Nat) : CollectorState :=
  let rm := st.m_relations.getD p {}
  let rm1 : RelationMeta := { rm with need_members := rm.need_members - 1 }
  if rm1.has_all_members then doComplete (decrementAt st p) k p else decrementAt st p

theorem processLoop_succ_notRemoved (kind : ItemKind) (hi fuel k : Nat)
    (st : CollectorState) (m : MemberMeta)
    (hgk : (st.member_meta kind)[k]? = some m) (hmr : m.removed = false) :
    processLoop kind hi (fuel + 1) k st
      = processLoop kind hi fuel (k + 1) (loopBody st k m.relation_pos) := by
  simp only [processLoop, loopBody, decrementAt, hgk]
  rw [if_neg (by rw [hmr]; exact Bool.false_ne_true)]

theorem loopBody_noFire (st : CollectorState) (k p : Nat)
    (hno : (((st.m_relations.getD p {}).need_members - 1 == 0) = false)) :
    loopBody st k p = decrementAt st p := by
  simp only [loopBody]
  rw [if_neg (by show ¬ ((_ == 0) = true); rw [hno]; exact Bool.false_ne_true)]

theorem decrementAt_member_meta (st : CollectorState) (p : Nat) (j : ItemKind) :
    (decrementAt st p).member_meta j = st.member_meta j := by
  cases j <;> rfl

theorem decrementAt_frame (st : CollectorState) (p : Nat) :
    (decrementAt st p).trace = st.trace
    ∧ (decrementAt st p).members_buffer = st.members_buffer
    ∧ (decrementAt st p).m_relations.length = st.m_relations.length :=
  ⟨rfl, rfl, List.length_set _ _ _⟩

theorem decrementAt_getD (st : CollectorState) (p q : Nat) :
    (decrementAt st p).m_relations.getD q {}
      = if p = q ∧ p < st.m_relations.length
        then RelationMeta.mk (st.m_relations.getD p {}).relation_offset
          ((st.m_relations.getD p {}).need_members - 1)
        else st.m_relations.getD q {} :=
  getD_set st.m_relations p q _ {}

/-- The decrement loop when every `MemberMeta` of the remaining range
is live and every touched relation still needs strictly more members
than the range will supply: no relation completes, nothing is
tombstoned or purged, and every visited meta decrements its relation,
so each relation position ends up decremented once per matching
entry. -/
theorem processLoop_noFire (kind : ItemKind) (hi : Nat) :
    ∀ (fuel k : Nat) (st : CollectorState),
      fuel = hi - k →
      hi ≤ (st.member_meta kind).length →
      (∀ m ∈ sliceOf (st.member_meta kind) k hi,
        m.removed = false
        ∧ m.relation_pos < st.m_relations.length
        ∧ (st.m_relations.getD m.relation_pos {}).need_members
            > ((sliceOf (st.member_meta kind) k hi).countP
                (fun m2 => m2.relation_pos == m.relation_pos) : Int)) →
      (processLoop kind hi fuel k st).trace = st.trace
      ∧ (processLoop kind hi fuel k st).members_buffer = st.members_buffer
      ∧ (∀ j : ItemKind, (processLoop kind hi fuel k st).member_meta j = st.member_meta j)
      ∧ (processLoop kind hi fuel k st).m_relations.length = st.m_relations.length
      ∧ ∀ q : Nat, (processLoop kind hi fuel k st).m_relations.getD q {}
          = RelationMeta.mk (st.m_relations.getD q {}).relation_offset
              ((st.m_relations.getD q {}).need_members
                - ((sliceOf (st.member_meta kind) k hi).countP
                    (fun m2 => m2.relation_pos == q) : Int)) := by
  intro fuel
  induction fuel with
  | zero =>
    intro k st hfuel hlen hslice
    have hslice0 : sliceOf (st.member_meta kind) k hi = [] := by
      unfold sliceOf
      rw [show hi - k = 0 by omega]
      rfl
    refine ⟨rfl, rfl, fun _ => rfl, rfl, ?_⟩
    intro q
    rw [hslice0]
    show st.m_relations.getD q {}
      = RelationMeta.mk (st.m_relations.getD q {}).relation_offset
          ((st.m_relations.getD q {}).need_members - ((0 : Nat) : Int))
    simp
  | succ fuel ih =>
    intro k st hfuel hlen hslice
    have hk : k < hi := by omega
    have hkl : k < (st.member_meta kind).length := lt_of_lt_of_le hk hlen
    have hcons := sliceOf_eq_cons (st.member_meta kind) k hi hk hlen
    set m := (st.member_meta kind).getD k mmDefault with hmdef
    have hmem : m ∈ sliceOf (st.member_meta kind) k hi := by
      rw [hcons]
      exact List.mem_cons_self _ _
    obtain ⟨hrm0, hvp, hneedm⟩ := hslice m hmem
    have hgk : (st.member_meta kind)[k]? = some m := by
      rw [hmdef, List.getD_eq_getElem _ mmDefault hkl]
      exact List.getElem?_eq_getElem hkl
    set p := m.relation_pos with hpdef
    have hcntp : ((sliceOf (st.member_meta kind) k hi).countP
        (fun m2 => m2.relation_pos == p) : Int)
        = ((sliceOf (st.member_meta kind) (k + 1) hi).countP
            (fun m2 => m2.relation_pos == p) : Int) + 1 := by
      rw [hcons, List.countP_cons]
      rw [if_pos (by simp [hpdef])]
      push_cast
      ring
    have hcnt1 : 1 ≤ ((sliceOf (st.member_meta kind) k hi).countP
        (fun m2 => m2.relation_pos == p) : Int) := by
      have : (0 : Int) ≤ ((sliceOf (st.member_meta kind) (k + 1) hi).countP
          (fun m2 => m2.relation_pos == p) : Int) := Int.natCast_nonneg _
      omega
    have hgt1 : (st.m_relations.getD p {}).need_members > 1 := by omega
    have hno : (((st.m_relations.getD p {}).need_members - 1 == 0) = false) := by
      simp only [beq_eq_false_iff_ne, ne_eq]
      omega
    rw [processLoop_succ_notRemoved kind hi fuel k st m hgk hrm0, loopBody_noFire st k p hno]
    set st1 := decrementAt st p with hst1def
    have hmm1 : ∀ j : ItemKind, st1.member_meta j = st.member_meta j :=
      fun j => decrementAt_member_meta st p j
    have hlen1 : st1.m_relations.length = st.m_relations.length := (decrementAt_frame st p).2.2
    have hgetD1 : ∀ q : Nat, st1.m_relations.getD q {}
        = if p = q ∧ p < st.m_relations.length
          then RelationMeta.mk (st.m_relations.getD p {}).relation_offset
            ((st.m_relations.getD p {}).need_members - 1)
          else st.m_relations.getD q {} :=
      fun q => decrementAt_getD st p q
    have hslice1 : ∀ m2 ∈ sliceOf (st1.member_meta kind) (k + 1) hi,
        m2.removed = false
        ∧ m2.relation_pos < st1.m_relations.length
        ∧ (st1.m_relations.getD m2.relation_pos {}).need_members
            > ((sliceOf (st1.member_meta kind) (k + 1) hi).countP
                (fun m3 => m3.relation_pos == m2.relation_pos) : Int) := by
      intro m2 hm2
      rw [hmm1] at hm2
      have hm2full : m2 ∈ sliceOf (st.member_meta kind) k hi := by
        rw [hcons]
        exact List.mem_cons_of_mem _ hm2
      obtain ⟨h1, h2, h3⟩ := hslice m2 hm2full
      refine ⟨h1, by rw [hlen1]; exact h2, ?_⟩
      rw [hmm1, hgetD1]
      by_cases hq : p = m2.relation_pos
      · rw [if_pos ⟨hq, hvp⟩]
        show (st.m_relations.getD p {}).need_members - 1 > _
        rw [← hq] at h3 ⊢
        omega
      · rw [if_neg (fun hc => hq hc.1)]
        have hc2 : ((sliceOf (st.member_meta kind) k hi).countP
            (fun m3 => m3.relation_pos == m2.relation_pos) : Int)
            = ((sliceOf (st.member_meta kind) (k + 1) hi).countP
                (fun m3 => m3.relation_pos == m2.relation_pos) : Int) := by
          rw [hcons, List.countP_cons,
            if_neg (by simp only [beq_iff_eq, ← hpdef]; exact hq)]
          simp
        omega
    obtain ⟨i1, i2, i3, i4, i5⟩ := ih (k + 1) st1 (by omega)
      (by rw [hmm1]; exact hlen) hslice1
    refine ⟨i1.trans (decrementAt_frame st p).1, i2.trans (decrementAt_frame st p).2.1,
      fun j => (i3 j).trans (hmm1 j), i4.trans hlen1, ?_⟩
    intro q
    rw [i5 q, hgetD1 q]
    rw [hmm1]
    by_cases hq : p = q
    · subst hq
      rw [if_pos ⟨rfl, hvp⟩, hcntp]
      show RelationMeta.mk _ _ = RelationMeta.mk _ _
      have harith : (st.m_relations.getD p {}).need_members - 1
          - ((sliceOf (st.member_meta kind) (k + 1) hi).countP
              (fun m2 => m2.relation_pos == p) : Int)
          = (st.m_relations.getD p {}).need_members
          - (((sliceOf (st.member_meta kind) (k + 1) hi).countP
              (fun m2 => m2.relation_pos == p) : Int) + 1) := by ring
      rw [harith]
    · rw [if_neg (fun hc => hq hc.1)]
      have hc2 : ((sliceOf (st.member_meta kind) k hi).countP
          (fun m2 => m2.relation_pos == q) : Int)
          = ((sliceOf (st.member_meta kind) (k + 1) hi).countP
              (fun m2 => m2.relation_pos == q) : Int) := by
        rw [hcons, List.countP_cons,
            if_neg (by simp only [beq_iff_eq, ← hpdef]; exact hq)]
        simp
      rw [hc2]

theorem st2_trace_eq (st : CollectorState) (obj : Obj) (w : List MemberMeta) :
    (({ st with members_buffer := st.members_buffer ++ [(obj, false)] } :
      CollectorState).setMM obj.kind w).trace = st.trace := by
  cases obj.kind <;> rfl

theorem st2_rels_eq (st : CollectorState) (obj : Obj) (w : List MemberMeta) :
    (({ st with members_buffer := st.members_buffer ++ [(obj, false)] } :
      CollectorState).setMM obj.kind w).m_relations = st.m_relations := by
  cases obj.kind <;> rfl

/-- C3 as amended.  Call-level guarantees of `find_and_add_object` on
an accepted object: (a) every `MemberMeta` of the equal-range —
tombstoned ones included — records the fresh copy's offset;
(b) the `complete_relation` callbacks of the call fire in strictly
ascending order of the triggering position in the per-kind vector;
(c) when no `MemberMeta` of the range is tombstoned and every touched
relation still needs strictly more members than the range supplies,
the walk reaches every matching meta: each relation position is
decremented exactly once per matching entry and no callback fires. -/
theorem equal_range_processing_amended :
    (∀ (st : CollectorState) (obj : Obj),
      mmSorted (st.member_meta obj.kind) →
      count_not_removed (st.member_meta obj.kind)
          (findRange (st.member_meta obj.kind) obj.id).1
          (findRange (st.member_meta obj.kind) obj.id).2 ≠ 0 →
      st.m_count_complete
          + ((findRange (st.member_meta obj.kind) obj.id).2
              - (findRange (st.member_meta obj.kind) obj.id).1) ≤ purgeThreshold →
      (find_and_add_object st obj).2 = true
      ∧ (∀ m ∈ (find_and_add_object st obj).1.member_meta obj.kind,
          m.member_id = obj.id → m.buffer_offset = some st.members_buffer.length)
      ∧ ∃ E : List Event, (find_and_add_object st obj).1.trace = st.trace ++ E
          ∧ (∀ e ∈ E, completeAtLeast (findRange (st.member_meta obj.kind) obj.id).1 e)
          ∧ E.Pairwise (fun a b => idxOf a < idxOf b))
    ∧ (∀ (st : CollectorState) (obj : Obj),
      mmSorted (st.member_meta obj.kind) →
      count_not_removed (st.member_meta obj.kind)
          (findRange (st.member_meta obj.kind) obj.id).1
          (findRange (st.member_meta obj.kind) obj.id).2 ≠ 0 →
      (∀ m ∈ sliceOf (st.member_meta obj.kind)
          (findRange (st.member_meta obj.kind) obj.id).1
          (findRange (st.member_meta obj.kind) obj.id).2,
        m.removed = false
        ∧ m.relation_pos < st.m_relations.length
        ∧ (st.m_relations.getD m.relation_pos {}).need_members
            > ((sliceOf (st.member_meta obj.kind)
                (findRange (st.member_meta obj.kind) obj.id).1
                (findRange (st.member_meta obj.kind) obj.id).2).countP
                  (fun m2 => m2.relation_pos == m.relation_pos) : Int)) →
      (find_and_add_object st obj).1.trace = st.trace
      ∧ ∀ q : Nat, (find_and_add_object st obj).1.m_relations.getD q {}
          = RelationMeta.mk (st.m_relations.getD q {}).relation_offset
              ((st.m_relations.getD q {}).need_members
                - ((sliceOf (st.member_meta obj.kind)
                    (findRange (st.member_meta obj.kind) obj.id).1
                    (findRange (st.member_meta obj.kind) obj.id).2).countP
                      (fun m2 => m2.relation_pos == q) : Int))) := by
  constructor
  · intro st obj hsort hacc hroom
    obtain ⟨h1, h2, h3⟩ := find_and_add_last_copy_wins st obj hsort hacc hroom
    refine ⟨h1, h2, ?_⟩
    rw [find_and_add_accepted st obj hacc]
    set v := st.member_meta obj.kind with hv
    set r := findRange v obj.id with hr
    set st1 : CollectorState :=
      { st with members_buffer := st.members_buffer ++ [(obj, false)] } with hst1
    set w := updateRange v r.1 r.2
      (fun m => { m with buffer_offset := some st.members_buffer.length }) with hwdef
    set st2 := st1.setMM obj.kind w with hst2
    have hc2 : st2.m_count_complete = st.m_count_complete := by
      rw [hst2, setMM_count]
    obtain ⟨_, _, E, hE, hAl, hPw⟩ := processLoop_master obj.kind r.2 (r.2 - r.1) r.1 st2
      (by rw [hc2]; exact hroom)
    refine ⟨E, ?_, hAl, hPw⟩
    rw [hE, hst2, hst1]
    rw [st2_trace_eq]
  · intro st obj hsort hacc hslice
    rw [find_and_add_accepted st obj hacc]
    set v := st.member_meta obj.kind with hv
    set r := findRange v obj.id with hr
    set st1 : CollectorState :=
      { st with members_buffer := st.members_buffer ++ [(obj, false)] } with hst1
    set cond : MemberMeta → MemberMeta := fun m =>
      { m with buffer_offset := some st.members_buffer.length } with hcond
    set w := updateRange v r.1 r.2 cond with hwdef
    set st2 := st1.setMM obj.kind w with hst2
    have hmap : w = v.map (fun m => if m.member_id = obj.id then cond m else m) := by
      rw [hwdef, hr]
      exact updateRange_sorted obj.id cond v hsort
    have hmm2 : st2.member_meta obj.kind = w := member_meta_setMM_self st1 obj.kind w
    have hrels2 : st2.m_relations = st.m_relations := by
      rw [hst2, hst1]
      exact st2_rels_eq st obj w
    have hlen2 : r.2 ≤ (st2.member_meta obj.kind).length := by
      rw [hmm2, hmap, List.length_map]
      exact (by rw [hr]; exact (findRange_le v obj.id).2)
    have hslicemap : sliceOf (st2.member_meta obj.kind) r.1 r.2
        = (sliceOf v r.1 r.2).map (fun m => if m.member_id = obj.id then cond m else m) := by
      rw [hmm2, hmap]
      unfold sliceOf
      rw [← List.map_drop, ← List.map_take]
    have hpos : ∀ x : MemberMeta,
        ((if x.member_id = obj.id then cond x else x)).relation_pos = x.relation_pos := by
      intro x
      by_cases hx : x.member_id = obj.id
      · rw [if_pos hx, hcond]
      · rw [if_neg hx]
    have hrem : ∀ x : MemberMeta,
        ((if x.member_id = obj.id then cond x else x)).removed = x.removed := by
      intro x
      by_cases hx : x.member_id = obj.id
      · rw [if_pos hx, hcond]
      · rw [if_neg hx]
    have hcnt_eq : ∀ q : Nat,
        (sliceOf (st2.member_meta obj.kind) r.1 r.2).countP (fun m2 => m2.relation_pos == q)
          = (sliceOf v r.1 r.2).countP (fun m2 => m2.relation_pos == q) := by
      intro q
      rw [hslicemap, List.countP_map]
      refine List.countP_congr ?_
      intro x _
      show ((if x.member_id = obj.id then cond x else x).relation_pos == q) = true
        ↔ (x.relation_pos == q) = true
      rw [hpos x]
    have hslice2 : ∀ m ∈ sliceOf (st2.member_meta obj.kind) r.1 r.2,
        m.removed = false
        ∧ m.relation_pos < st2.m_relations.length
        ∧ (st2.m_relations.getD m.relation_pos {}).need_members
            > ((sliceOf (st2.member_meta obj.kind) r.1 r.2).countP
                (fun m2 => m2.relation_pos == m.relation_pos) : Int) := by
      intro m hm
      rw [hslicemap] at hm
      obtain ⟨x, hx, hcx⟩ := List.mem_map.mp hm
      obtain ⟨g1, g2, g3⟩ := hslice x hx
      refine ⟨by rw [← hcx, hrem x]; exact g1, ?_, ?_⟩
      · rw [← hcx, hpos x, hrels2]
        exact g2
      · rw [← hcx, hpos x, hrels2, hcnt_eq]
        exact g3
    obtain ⟨n1, _, _, _, n5⟩ := processLoop_noFire obj.kind r.2 (r.2 - r.1) r.1 st2
      rfl hlen2 hslice2
    constructor
    · rw [n1, hst2, hst1, st2_trace_eq]
    · intro q
      rw [n5 q, hrels2, hcnt_eq]

def rel50 : Obj := ⟨.relation, 50, [⟨.way, 20, "outer"⟩, ⟨.way, 21, "outer"⟩]⟩

def way20 : Obj := ⟨.way, 20, []⟩

/-- A collector that tracked relation 50 (ways 20 and 21) and has seen
nothing yet: the equal-range of way 20 is live and relation 50 still
needs more members than the range supplies. -/
def stNoRem : CollectorState := read_relations keepAllHooks [rel50] {}

/-- C3 amended-claim witness: the duplicate scenario instantiates
parts (a) and (b) — offsets all set, events ascending — and the fresh
scenario instantiates part (c): way 20 decrements relation 50 once
and no callback fires. -/
theorem equal_range_processing_amended_witness :
    ((find_and_add_object stDup1 way30b).2 = true
      ∧ (∀ m ∈ (find_and_add_object stDup1 way30b).1.member_meta way30b.kind,
          m.member_id = way30b.id → m.buffer_offset = some stDup1.members_buffer.length)
      ∧ ∃ E : List Event, (find_and_add_object stDup1 way30b).1.trace = stDup1.trace ++ E
          ∧ (∀ e ∈ E, completeAtLeast
              (findRange (stDup1.member_meta way30b.kind) way30b.id).1 e)
          ∧ E.Pairwise (fun a b => idxOf a < idxOf b))
    ∧ ((find_and_add_object stNoRem way20).1.trace = stNoRem.trace
      ∧ ∀ q : Nat, (find_and_add_object stNoRem way20).1.m_relations.getD q {}
          = RelationMeta.mk (stNoRem.m_relations.getD q {}).relation_offset
              ((stNoRem.m_relations.getD q {}).need_members
                - ((sliceOf (stNoRem.member_meta way20.kind)
                    (findRange (stNoRem.member_meta way20.kind) way20.id).1
                    (findRange (stNoRem.member_meta way20.kind) way20.id).2).countP
                      (fun m2 => m2.relation_pos == q) : Int))) :=
  ⟨equal_range_processing_amended.1 stDup1 way30b (by decide) (by decide) (by decide),
   equal_range_processing_amended.2 stNoRem way20 (by decide) (by decide) (by decide)⟩

/-! ## Compaction relocates consistently (claim C8) -/

theorem filter_getElem_countP {α : Type} (p : α → Bool) :
    ∀ (l : List α) (i : Nat) (e : α),
      l[i]? = some e → p e = true →
      (l.filter p)[(l.take i).countP p]? = some e := by
  intro l
  induction l with
  | nil => intro i e h _; cases h
  | cons a t ih =>
    intro i e h hp
    cases i with
    | zero =>
      rw [List.getElem?_cons_zero] at h
      cases h
      rw [List.take_zero, List.filter_cons, if_pos hp]
      simp
    | succ i =>
      rw [List.getElem?_cons_succ] at h
      rw [List.take_succ_cons, List.countP_cons, List.filter_cons]
      by_cases hpa : p a = true
      · rw [if_pos hpa, if_pos hpa, List.getElem?_cons_succ]
        exact ih i e h hp
      · rw [if_neg hpa, if_neg hpa, Nat.add_zero]
        exact ih i e h hp

/-- The rank of a buffer position: the number of survivors strictly
before it. -/
def rankOf (buf : List (Obj × Bool)) (i : Nat) : Nat :=
  (buf.take i).countP (fun x => !x.2)

theorem rankOf_succ (buf : List (Obj × Bool)) (i : Nat) (e : Obj × Bool)
    (he : buf[i]? = some e) :
    rankOf buf (i + 1) = rankOf buf i + (if e.2 then 0 else 1) := by
  unfold rankOf
  rw [List.take_succ, he]
  show ((buf.take i) ++ [e]).countP _ = _
  rw [List.countP_append]
  cases h2 : e.2 <;> simp [h2]

theorem movesOfAux_spec (buf : List (Obj × Bool)) :
    ∀ (l : List (Obj × Bool)) (o : Nat),
      l = buf.drop o →
      ((∀ pr ∈ movesOfAux l o (rankOf buf o),
          (∃ e, buf[pr.1]? = some e ∧ e.2 = false)
          ∧ pr.2 = rankOf buf pr.1 ∧ pr.1 ≠ pr.2 ∧ o ≤ pr.1)
      ∧ (∀ i : Nat, o ≤ i → ∀ e, buf[i]? = some e → e.2 = false →
          i ≠ rankOf buf i → (i, rankOf buf i) ∈ movesOfAux l o (rankOf buf o))
      ∧ ((movesOfAux l o (rankOf buf o)).map Prod.fst).Nodup) := by
  intro l
  induction l with
  | nil =>
    intro o hdrop
    refine ⟨fun pr hpr => absurd hpr (List.not_mem_nil pr), ?_, List.nodup_nil⟩
    intro i hoi e he hrm _
    have hlen : buf.length ≤ o := by
      by_contra hlt
      have hne : buf.drop o ≠ [] := by
        intro hc
        have hle := congrArg List.length hc
        rw [List.length_drop] at hle
        simp at hle
        omega
      exact hne hdrop.symm
    rw [List.getElem?_eq_none (le_trans hlen hoi)] at he
    cases he
  | cons a t ih =>
    intro o hdrop
    have hoa : buf[o]? = some a := by
      have h0 : (buf.drop o)[0]? = some a := by
        rw [← hdrop]
        exact List.getElem?_cons_zero
      rw [List.getElem?_drop] at h0
      simpa using h0
    have hdrop1 : t = buf.drop (o + 1) := by
      have h1 : (buf.drop o).tail = buf.drop (o + 1) := by rw [List.tail_drop]
      rw [← hdrop] at h1
      exact h1
    have hrk := rankOf_succ buf o a hoa
    obtain ⟨ih1, ih2, ih3⟩ := ih (o + 1) hdrop1
    by_cases ha : a.2 = true
    · have hrkeq : rankOf buf (o + 1) = rankOf buf o := by
        rw [hrk, ha]
        rfl
      have hstep : movesOfAux (a :: t) o (rankOf buf o)
          = movesOfAux t (o + 1) (rankOf buf (o + 1)) := by
        show (if a.2 then movesOfAux t (o + 1) (rankOf buf o)
          else if (o == rankOf buf o) then movesOfAux t (o + 1) (rankOf buf o + 1)
          else (o, rankOf buf o) :: movesOfAux t (o + 1) (rankOf buf o + 1)) = _
        rw [if_pos ha, hrkeq]
      rw [hstep]
      refine ⟨?_, ?_, ih3⟩
      · intro pr hpr
        obtain ⟨g1, g2, g3, g4⟩ := ih1 pr hpr
        exact ⟨g1, g2, g3, by omega⟩
      · intro i hoi e he hrm hne
        rcases Nat.eq_or_lt_of_le hoi with hieq | hilt
        · rw [← hieq, hoa] at he
          cases he
          rw [ha] at hrm
          cases hrm
        · exact ih2 i (by omega) e he hrm hne
    · have ha2 : a.2 = false := by
        cases h2 : a.2
        · rfl
        · exact absurd h2 ha
      have hrkeq : rankOf buf (o + 1) = rankOf buf o + 1 := by
        rw [hrk, ha2]
        rfl
      by_cases heq : o = rankOf buf o
      · have hstep : movesOfAux (a :: t) o (rankOf buf o)
            = movesOfAux t (o + 1) (rankOf buf (o + 1)) := by
          show (if a.2 then movesOfAux t (o + 1) (rankOf buf o)
            else if (o == rankOf buf o) then movesOfAux t (o + 1) (rankOf buf o + 1)
            else (o, rankOf buf o) :: movesOfAux t (o + 1) (rankOf buf o + 1)) = _
          rw [ha2, if_neg Bool.false_ne_true, if_pos (beq_iff_eq.mpr heq), hrkeq]
        rw [hstep]
        refine ⟨?_, ?_, ih3⟩
        · intro pr hpr
          obtain ⟨g1, g2, g3, g4⟩ := ih1 pr hpr
          exact ⟨g1, g2, g3, by omega⟩
        · intro i hoi e he hrm hne
          rcases Nat.eq_or_lt_of_le hoi with hieq | hilt
          · exfalso
            rw [← hieq] at hne
            exact hne heq
          · exact ih2 i (by omega) e he hrm hne
      · have hstep : movesOfAux (a :: t) o (rankOf buf o)
            = (o, rankOf buf o) :: movesOfAux t (o + 1) (rankOf buf (o + 1)) := by
          show (if a.2 then movesOfAux t (o + 1) (rankOf buf o)
            else if (o == rankOf buf o) then movesOfAux t (o + 1) (rankOf buf o + 1)
            else (o, rankOf buf o) :: movesOfAux t (o + 1) (rankOf buf o + 1)) = _
          rw [ha2, if_neg Bool.false_ne_true, if_neg (by simp [heq]), hrkeq]
        rw [hstep]
        refine ⟨?_, ?_, ?_⟩
        · intro pr hpr
          rcases List.mem_cons.mp hpr with hpr | hpr
          · rw [hpr]
            exact ⟨⟨a, hoa, ha2⟩, rfl, heq, Nat.le_refl o⟩
          · obtain ⟨g1, g2, g3, g4⟩ := ih1 pr hpr
            exact ⟨g1, g2, g3, by omega⟩
        · intro i hoi e he hrm hne
          rcases Nat.eq_or_lt_of_le hoi with hieq | hilt
          · subst hieq
            exact List.mem_cons_self _ _
          · exact List.mem_cons_of_mem _ (ih2 i (by omega) e he hrm hne)
        · rw [List.map_cons, List.nodup_cons]
          refine ⟨?_, ih3⟩
          intro hmem
          obtain ⟨pr, hpr, hfst⟩ := List.mem_map.mp hmem
          obtain ⟨_, _, _, g4⟩ := ih1 pr hpr
          omega

theorem movesOf_spec (buf : List (Obj × Bool)) :
    (∀ pr ∈ movesOf buf,
      (∃ e, buf[pr.1]? = some e ∧ e.2 = false)
      ∧ pr.2 = rankOf buf pr.1 ∧ pr.1 ≠ pr.2)
    ∧ (∀ i : Nat, ∀ e, buf[i]? = some e → e.2 = false →
        i ≠ rankOf buf i → (i, rankOf buf i) ∈ movesOf buf)
    ∧ ((movesOf buf).map Prod.fst).Nodup := by
  have h := movesOfAux_spec buf buf 0 rfl
  have h0 : rankOf buf 0 = 0 := rfl
  rw [h0] at h
  exact ⟨fun pr hpr => ⟨(h.1 pr hpr).1, (h.1 pr hpr).2.1, (h.1 pr hpr).2.2.1⟩,
    fun i e he hrm hne => h.2.1 i (Nat.zero_le i) e he hrm hne,
    h.2.2⟩

/-- Between two vector states, keys (id and positions) agree pointwise;
offsets and tombstones are unconstrained. -/
def keysStable (v w : List MemberMeta) : Prop :=
  w.length = v.length ∧
  ∀ i : Nat, ∀ mv mw : MemberMeta, v[i]? = some mv → w[i]? = some mw → keyOf mw = keyOf mv

theorem keysStable_refl (v : List MemberMeta) : keysStable v v := by
  refine ⟨rfl, ?_⟩
  intro i mv mw h1 h2
  rw [h1] at h2
  cases h2
  rfl

theorem keysStable_trans {u v w : List MemberMeta}
    (h1 : keysStable u v) (h2 : keysStable v w) : keysStable u w := by
  refine ⟨h2.1.trans h1.1, ?_⟩
  intro i mu mw hu hw
  have hi : i < v.length := by
    rw [h1.1]
    exact (List.getElem?_eq_some_iff.mp hu).1
  have hv : v[i]? = some v[i] := List.getElem?_eq_getElem hi
  exact (h2.2 i v[i] mw hv hw).trans (h1.2 i mu v[i] hu hv)

theorem keysStable_map (v : List MemberMeta) (g : MemberMeta → MemberMeta)
    (hg : ∀ x, keyOf (g x) = keyOf x) : keysStable v (v.map g) := by
  refine ⟨List.length_map v g, ?_⟩
  intro i mv mw h1 h2
  rw [List.getElem?_map, h1] at h2
  cases h2
  exact hg mv

theorem mmSorted_of_keysStable {v w : List MemberMeta}
    (h : keysStable v w) (hs : mmSorted v) : mmSorted w := by
  rw [mmSorted, List.pairwise_iff_getElem] at hs ⊢
  intro i j hi hj hij
  have hiv : i < v.length := by rw [← h.1]; exact hi
  have hjv : j < v.length := by rw [← h.1]; exact hj
  have hki := h.2 i v[i] w[i] (List.getElem?_eq_getElem hiv) (List.getElem?_eq_getElem hi)
  have hkj := h.2 j v[j] w[j] (List.getElem?_eq_getElem hjv) (List.getElem?_eq_getElem hj)
  have hidi : (w[i]).member_id = (v[i]).member_id := congrArg (fun q => q.1) hki
  have hidj : (w[j]).member_id = (v[j]).member_id := congrArg (fun q => q.1) hkj
  rw [hidi, hidj]
  exact hs i j hiv hjv hij

theorem mem_key_transfer {v w : List MemberMeta} (h : keysStable v w) :
    ∀ mw ∈ w, ∃ mv ∈ v, keyOf mw = keyOf mv := by
  intro mw hmw
  obtain ⟨i, hi⟩ := List.mem_iff_getElem?.mp hmw
  have hiv : i < v.length := by
    rw [← h.1]
    exact (List.getElem?_eq_some_iff.mp hi).1
  exact ⟨v[i], List.getElem_mem hiv, h.2 i v[i] mw (List.getElem?_eq_getElem hiv) hi⟩

theorem setMM_members_buffer (st : CollectorState) (k : ItemKind) (v : List MemberMeta) :
    (st.setMM k v).members_buffer = st.members_buffer := by
  cases k <;> rfl

/-- `moving_in_buffer` written as an explicit range update once the
moved entry is known. -/
theorem moving_eq_update (s : CollectorState) (o n : Nat) (e : Obj × Bool)
    (he : s.members_buffer[o]? = some e) :
    moving_in_buffer s o n
      = s.setMM e.1.kind (updateRange (s.member_meta e.1.kind)
          (findRange (s.member_meta e.1.kind) e.1.id).1
          (findRange (s.member_meta e.1.kind) e.1.id).2
          (fun m => { m with buffer_offset := some n })) := by
  unfold moving_in_buffer
  rw [List.getD_eq_getElem?_getD, he]
  rfl

theorem offsetCond_keyOf (id2 : Int) (n : Nat) :
    ∀ x : MemberMeta, keyOf (if x.member_id = id2 then
      { x with buffer_offset := some n } else x) = keyOf x := by
  intro x
  by_cases hx : x.member_id = id2
  · rw [if_pos hx]
    rfl
  · rw [if_neg hx]

/-- One relocation call for a survivor other than the tracked one: the
arena is untouched, keys are untouched, and the tracked object's
equal-range keeps its common offset. -/
theorem move_step (st : CollectorState) (O : Obj) (A : Nat)
    (Hsort : ∀ k : ItemKind, mmSorted (st.member_meta k))
    (Hassert : ∀ i : Nat, ∀ obj : Obj, st.members_buffer[i]? = some (obj, false) →
        ∀ m ∈ st.member_meta obj.kind, m.member_id = obj.id → m.buffer_offset = some i)
    (HA : st.members_buffer[A]? = some (O, false)) :
    ∀ (s : CollectorState) (o n : Nat) (c : Option Nat) (e : Obj × Bool),
      o ≠ A → st.members_buffer[o]? = some e → e.2 = false →
      s.members_buffer = st.members_buffer →
      (∀ k : ItemKind, keysStable (st.member_meta k) (s.member_meta k)) →
      (∀ m ∈ s.member_meta O.kind, m.member_id = O.id → m.buffer_offset = c) →
      (moving_in_buffer s o n).members_buffer = st.members_buffer
      ∧ (∀ k : ItemKind, keysStable (st.member_meta k) ((moving_in_buffer s o n).member_meta k))
      ∧ (∀ m ∈ (moving_in_buffer s o n).member_meta O.kind,
          m.member_id = O.id → m.buffer_offset = c) := by
  intro s o n c e hne he hre hbuf hks hc
  have hse : s.members_buffer[o]? = some e := by rw [hbuf]; exact he
  rw [moving_eq_update s o n e hse]
  have hsorted : mmSorted (s.member_meta e.1.kind) :=
    mmSorted_of_keysStable (hks e.1.kind) (Hsort e.1.kind)
  have hupd := updateRange_sorted e.1.id
    (fun m => { m with buffer_offset := some n }) (s.member_meta e.1.kind) hsorted
  refine ⟨?_, ?_, ?_⟩
  · rw [setMM_members_buffer]
    exact hbuf
  · intro k
    rw [member_meta_setMM]
    by_cases hk : k = e.1.kind
    · rw [if_pos hk, hupd]
      refine keysStable_trans (by rw [hk]; exact hks e.1.kind) ?_
      exact keysStable_map _ _ (offsetCond_keyOf e.1.id n)
    · rw [if_neg hk]
      exact hks k
  · intro m hm hid
    rw [member_meta_setMM] at hm
    by_cases hk : O.kind = e.1.kind
    · rw [if_pos hk, hupd] at hm
      obtain ⟨x, hx, hcx⟩ := List.mem_map.mp hm
      by_cases hxid : x.member_id = e.1.id
      · exfalso
        -- x is a live meta matching the moved object; but it also matches O,
        -- so the assert invariant pins its original offset to both o and A
        have hOid : e.1.id = O.id := by
          rw [if_pos hxid] at hcx
          rw [← hcx] at hid
          rw [← hid, ← hxid]
        have hxO : x.member_id = O.id := by rw [hxid, hOid]
        obtain ⟨mv, hmv, hkeq⟩ := mem_key_transfer (hks e.1.kind) x hx
        have hxmv : x.member_id = mv.member_id := congrArg (fun q => q.1) hkeq
        have hmvid : mv.member_id = O.id := by rw [← hxmv]; exact hxO
        have h1 := Hassert A O HA mv (by rw [hk]; exact hmv) hmvid
        have h2 := Hassert o e.1 (by rw [← hre]; exact he) mv hmv
          (by rw [hmvid, hOid])
        rw [h1] at h2
        cases h2
        exact hne rfl
      · rw [if_neg hxid] at hcx
        rw [← hcx]
        rw [← hcx] at hid
        exact hc x (by rw [hk]; exact hx) hid
    · rw [if_neg hk] at hm
      exact hc m hm hid

/-- Folding relocations that never touch the tracked survivor. -/
theorem movesFold_keepC (st : CollectorState) (O : Obj) (A : Nat)
    (Hsort : ∀ k : ItemKind, mmSorted (st.member_meta k))
    (Hassert : ∀ i : Nat, ∀ obj : Obj, st.members_buffer[i]? = some (obj, false) →
        ∀ m ∈ st.member_meta obj.kind, m.member_id = obj.id → m.buffer_offset = some i)
    (HA : st.members_buffer[A]? = some (O, false)) :
    ∀ (L : List (Nat × Nat)) (s : CollectorState) (c : Option Nat),
      (∀ pr ∈ L, pr.1 ≠ A
        ∧ ∃ e : Obj × Bool, st.members_buffer[pr.1]? = some e ∧ e.2 = false) →
      s.members_buffer = st.members_buffer →
      (∀ k : ItemKind, keysStable (st.member_meta k) (s.member_meta k)) →
      (∀ m ∈ s.member_meta O.kind, m.member_id = O.id → m.buffer_offset = c) →
      (L.foldl (fun s p => moving_in_buffer s p.1 p.2) s).members_buffer = st.members_buffer
      ∧ (∀ k : ItemKind, keysStable (st.member_meta k)
          ((L.foldl (fun s p => moving_in_buffer s p.1 p.2) s).member_meta k))
      ∧ (∀ m ∈ (L.foldl (fun s p => moving_in_buffer s p.1 p.2) s).member_meta O.kind,
          m.member_id = O.id → m.buffer_offset = c) := by
  intro L
  induction L with
  | nil => intro s c _ hbuf hks hc; exact ⟨hbuf, hks, hc⟩
  | cons pr L ih =>
    intro s c hL hbuf hks hc
    obtain ⟨hne, e, he, hre⟩ := hL pr (List.mem_cons_self pr L)
    obtain ⟨g1, g2, g3⟩ := move_step st O A Hsort Hassert HA s pr.1 pr.2 c e hne he hre
      hbuf hks hc
    rw [List.foldl_cons]
    exact ih _ c (fun q hq => hL q (List.mem_cons_of_mem pr hq)) g1 g2 g3

/-- The relocation of the tracked survivor itself redirects every
MemberMeta matching its (type, id) to the new offset. -/
theorem move_step_A (st : CollectorState) (O : Obj) (A B : Nat)
    (Hsort : ∀ k : ItemKind, mmSorted (st.member_meta k))
    (HA : st.members_buffer[A]? = some (O, false)) :
    ∀ s : CollectorState,
      s.members_buffer = st.members_buffer →
      (∀ k : ItemKind, keysStable (st.member_meta k) (s.member_meta k)) →
      (moving_in_buffer s A B).members_buffer = st.members_buffer
      ∧ (∀ k : ItemKind, keysStable (st.member_meta k) ((moving_in_buffer s A B).member_meta k))
      ∧ (∀ m ∈ (moving_in_buffer s A B).member_meta O.kind,
          m.member_id = O.id → m.buffer_offset = some B) := by
  intro s hbuf hks
  have hse : s.members_buffer[A]? = some (O, false) := by rw [hbuf]; exact HA
  rw [moving_eq_update s A B (O, false) hse]
  have hOred : ((O, false) : Obj × Bool).1 = O := rfl
  rw [hOred]
  have hsorted : mmSorted (s.member_meta O.kind) :=
    mmSorted_of_keysStable (hks O.kind) (Hsort O.kind)
  have hupd := updateRange_sorted O.id
    (fun m => { m with buffer_offset := some B }) (s.member_meta O.kind) hsorted
  refine ⟨by rw [setMM_members_buffer]; exact hbuf, ?_, ?_⟩
  · intro k
    rw [member_meta_setMM]
    by_cases hk : k = O.kind
    · rw [if_pos hk, hupd]
      refine keysStable_trans (by rw [hk]; exact hks O.kind) ?_
      exact keysStable_map _ _ (offsetCond_keyOf O.id B)
    · rw [if_neg hk]
      exact hks k
  · intro m hm hid
    rw [member_meta_setMM, if_pos rfl, hupd] at hm
    obtain ⟨x, hx, hcx⟩ := List.mem_map.mp hm
    by_cases hxid : x.member_id = O.id
    · rw [if_pos hxid] at hcx
      simp [← hcx]
    · rw [if_neg hxid] at hcx
      rw [← hcx] at hid
      exact absurd hid hxid

theorem purge_removed_members_buffer (st : CollectorState) :
    (purge_removed st).members_buffer = st.members_buffer.filter (fun e => !e.2) := rfl

theorem purge_removed_member_meta (st : CollectorState) (k : ItemKind) :
    (purge_removed st).member_meta k
      = ((movesOf st.members_buffer).foldl
          (fun s p => moving_in_buffer s p.1 p.2) st).member_meta k := by
  cases k <;> rfl

/-- In a sorted vector with a nonempty equal-range, the meta at the
range's lower bound carries the looked-up id. -/
theorem getD_findRange_matches (v : List MemberMeta) (id : Int) (hs : mmSorted v)
    (hr : (findRange v id).1 < (findRange v id).2) :
    (v.getD (findRange v id).1 mmDefault).member_id = id
    ∧ v.getD (findRange v id).1 mmDefault ∈ v := by
  have hle := findRange_le v id
  have hc := sliceOf_eq_cons v _ _ hr hle.2
  rw [sliceOf_sorted id v hs] at hc
  have hmem : v.getD (findRange v id).1 mmDefault ∈ v.filter (fun m => m.member_id == id) := by
    rw [hc]
    exact List.mem_cons_self _ _
  have h2 := List.mem_filter.mp hmem
  exact ⟨by simpa using h2.2, h2.1⟩

/-- `get_offset` returns the common offset of a matching range. -/
theorem get_offset_of_matching (s : CollectorState) (k : ItemKind) (id : Int) (B : Nat)
    (hs : mmSorted (s.member_meta k))
    (hall : ∀ m ∈ s.member_meta k, m.member_id = id → m.buffer_offset = some B)
    (hex : ∃ m ∈ s.member_meta k, m.member_id = id) :
    get_offset s k id = some B := by
  obtain ⟨m, hm, hid⟩ := hex
  have hr : (findRange (s.member_meta k) id).1 < (findRange (s.member_meta k) id).2 := by
    by_contra hcon
    have hempty : sliceOf (s.member_meta k) (findRange (s.member_meta k) id).1
        (findRange (s.member_meta k) id).2 = [] := by
      unfold sliceOf
      rw [show (findRange (s.member_meta k) id).2 - (findRange (s.member_meta k) id).1 = 0
        from by omega]
      rfl
    rw [sliceOf_sorted id (s.member_meta k) hs] at hempty
    have hin : m ∈ (s.member_meta k).filter (fun x => x.member_id == id) :=
      List.mem_filter.mpr ⟨hm, by simp [hid]⟩
    rw [hempty] at hin
    exact absurd hin (List.not_mem_nil m)
  obtain ⟨hfid, hfmem⟩ := getD_findRange_matches (s.member_meta k) id hs hr
  simp only [get_offset]
  rw [if_pos hr]
  exact hall _ hfmem hfid

/-- C8: a compaction of the members arena moves each surviving stored
member object from its old offset `A` to its survivor rank `B`; the
`moving_in_buffer(A, B)` callbacks redirect every MemberMeta matching
that object's (type, id) to `B`, so `get_offset` / the buffer lookup for
that member id return the same object as before the compaction.
Hypotheses are the code's own invariants: each per-type MemberMeta
vector is sorted by member id (established in pass 1), and — the assert
inside `moving_in_buffer` — every MemberMeta matching a live stored
object records that object's buffer offset. -/
theorem relocation_correctness (st : CollectorState) (O : Obj) (A : Nat)
    (Hsort : ∀ k : ItemKind, mmSorted (st.member_meta k))
    (Hassert : ∀ i : Nat, ∀ obj : Obj, st.members_buffer[i]? = some (obj, false) →
        ∀ m ∈ st.member_meta obj.kind, m.member_id = obj.id → m.buffer_offset = some i)
    (HA : st.members_buffer[A]? = some (O, false)) :
    ((purge_removed st).members_buffer)[rankOf st.members_buffer A]? = some (O, false)
    ∧ (∀ m ∈ (purge_removed st).member_meta O.kind,
        m.member_id = O.id → m.buffer_offset = some (rankOf st.members_buffer A))
    ∧ ((∃ m ∈ (purge_removed st).member_meta O.kind, m.member_id = O.id) →
        get_offset (purge_removed st) O.kind O.id = some (rankOf st.members_buffer A)
        ∧ ((purge_removed st).members_buffer.getD (rankOf st.members_buffer A)
            (defaultObj, true)).1 = O) := by
  have spec := movesOf_spec st.members_buffer
  have part1 : ((purge_removed st).members_buffer)[rankOf st.members_buffer A]?
      = some (O, false) := by
    rw [purge_removed_members_buffer]
    exact filter_getElem_countP (fun e => !e.2) st.members_buffer A (O, false) HA (by rfl)
  have main : (∀ k : ItemKind, keysStable (st.member_meta k) ((purge_removed st).member_meta k))
      ∧ (∀ m ∈ (purge_removed st).member_meta O.kind,
          m.member_id = O.id → m.buffer_offset = some (rankOf st.members_buffer A)) := by
    have hmm := purge_removed_member_meta st
    by_cases hAB : A = rankOf st.members_buffer A
    · have hL : ∀ pr ∈ movesOf st.members_buffer,
          pr.1 ≠ A ∧ ∃ e, st.members_buffer[pr.1]? = some e ∧ e.2 = false := by
        intro pr hpr
        obtain ⟨he, hrk, hne⟩ := spec.1 pr hpr
        exact ⟨fun hc => hne (by rw [hrk, hc, ← hAB]), he⟩
      have h := movesFold_keepC st O A Hsort Hassert HA (movesOf st.members_buffer) st
        (some A) hL rfl (fun k => keysStable_refl _) (Hassert A O HA)
      refine ⟨fun k => by rw [hmm k]; exact h.2.1 k, ?_⟩
      intro m hm hid
      rw [hmm O.kind] at hm
      rw [h.2.2 m hm hid, ← hAB]
    · have hmemA : (A, rankOf st.members_buffer A) ∈ movesOf st.members_buffer :=
        spec.2.1 A (O, false) HA rfl hAB
      obtain ⟨L1, L2, hsplit⟩ := List.append_of_mem hmemA
      have hnd := spec.2.2
      rw [hsplit, List.map_append, List.map_cons, List.nodup_append] at hnd
      have hA1 : A ∉ L1.map Prod.fst := fun hc => hnd.2.2 hc (List.mem_cons_self _ _)
      have hA2 : A ∉ L2.map Prod.fst := (List.nodup_cons.mp hnd.2.1).1
      have hL1 : ∀ pr ∈ L1,
          pr.1 ≠ A ∧ ∃ e, st.members_buffer[pr.1]? = some e ∧ e.2 = false := by
        intro pr hpr
        refine ⟨fun hc => hA1 (hc ▸ List.mem_map_of_mem Prod.fst hpr), ?_⟩
        exact (spec.1 pr (by rw [hsplit]; exact List.mem_append_left _ hpr)).1
      have hL2 : ∀ pr ∈ L2,
          pr.1 ≠ A ∧ ∃ e, st.members_buffer[pr.1]? = some e ∧ e.2 = false := by
        intro pr hpr
        refine ⟨fun hc => hA2 (hc ▸ List.mem_map_of_mem Prod.fst hpr), ?_⟩
        refine (spec.1 pr ?_).1
        rw [hsplit]
        exact List.mem_append_right _ (List.mem_cons_of_mem _ hpr)
      have hfold : ∀ k : ItemKind,
          ((movesOf st.members_buffer).foldl (fun s p => moving_in_buffer s p.1 p.2) st)
            = (L2.foldl (fun s p => moving_in_buffer s p.1 p.2)
                (moving_in_buffer (L1.foldl (fun s p => moving_in_buffer s p.1 p.2) st)
                  A (rankOf st.members_buffer A))) := by
        intro _
        rw [hsplit, List.foldl_append, List.foldl_cons]
      have h1 := movesFold_keepC st O A Hsort Hassert HA L1 st (some A) hL1 rfl
        (fun k => keysStable_refl _) (Hassert A O HA)
      have h2 := move_step_A st O A (rankOf st.members_buffer A) Hsort HA _ h1.1 h1.2.1
      have h3 := movesFold_keepC st O A Hsort Hassert HA L2 _
        (some (rankOf st.members_buffer A)) hL2 h2.1 h2.2.1 h2.2.2
      refine ⟨fun k => ?_, fun m hm hid => ?_⟩
      · rw [hmm k, hfold k]
        exact h3.2.1 k
      · rw [hmm O.kind, hfold O.kind] at hm
        exact h3.2.2 m hm hid
  refine ⟨part1, main.2, fun hex => ⟨?_, ?_⟩⟩
  · exact get_offset_of_matching (purge_removed st) O.kind O.id (rankOf st.members_buffer A)
      (mmSorted_of_keysStable (main.1 O.kind) (Hsort O.kind)) main.2 hex
  · rw [List.getD_eq_getElem?_getD, part1]
    rfl

def c8obj : Obj := ⟨.way, 7, []⟩

def c8st : CollectorState :=
  { relations_buffer := [],
    members_buffer := [(⟨.way, 5, []⟩, true), (c8obj, false)],
    m_relations := [],
    mm_nodes := [],
    mm_ways := [⟨7, 0, 0, some 1, false⟩],
    mm_relations := [],
    m_count_complete := 0,
    trace := [],
    purges := 0 }

theorem relocation_correctness_witness :
    ((purge_removed c8st).members_buffer)[rankOf c8st.members_buffer 1]? = some (c8obj, false)
    ∧ (∀ m ∈ (purge_removed c8st).member_meta c8obj.kind,
        m.member_id = c8obj.id → m.buffer_offset = some (rankOf c8st.members_buffer 1))
    ∧ ((∃ m ∈ (purge_removed c8st).member_meta c8obj.kind, m.member_id = c8obj.id) →
        get_offset (purge_removed c8st) c8obj.kind c8obj.id
          = some (rankOf c8st.members_buffer 1)
        ∧ ((purge_removed c8st).members_buffer.getD (rankOf c8st.members_buffer 1)
            (defaultObj, true)).1 = c8obj) :=
  relocation_correctness c8st c8obj 1
    (by intro k; cases k <;> decide)
    (by
      intro i obj h
      match i with
      | 0 => simp [c8st] at h
      | 1 =>
        have hobj : obj = c8obj := by
          have h2 : some ((c8obj, false) : Obj × Bool) = some (obj, false) := h
          cases h2
          rfl
        subst hobj
        intro m hm hid
        have hm2 : m = (⟨7, 0, 0, some 1, false⟩ : MemberMeta) := by
          simpa [c8st, c8obj, CollectorState.member_meta] using hm
        rw [hm2]
      | (i + 2) => simp [c8st] at h)
    (by decide)

/-! ## Claim C6: `get_incomplete_relations` after flush -/

def relC6 : Obj := ⟨.relation, 60, [⟨.way, 1, "a"⟩, ⟨.way, 2, "b"⟩]⟩

def wayC6 : Obj := ⟨.way, 1, []⟩

/-- C6 counterexample: on the stream where way 1 appears twice and way 2
never appears, relation 60 {way 1, way 2} is prematurely completed (the
second copy of way 1 decrements `need_members` again), so after flush
`get_incomplete_relations` is empty even though kept member way 2 never
arrived — the claimed exactness fails for arbitrary input streams. -/
theorem incomplete_relations_duplicate_cex :
    (⟨.way, 2, "b"⟩ : Member) ∈ relC6.members
    ∧ (∀ o ∈ [wayC6, wayC6], ¬(o.kind = ItemKind.way ∧ o.id = 2))
    ∧ (runCollector keepAllHooks false true false [relC6] [wayC6, wayC6]).m_relations.length = 1
    ∧ Event.complete 0 0 60
        ∈ (runCollector keepAllHooks false true false [relC6] [wayC6, wayC6]).trace
    ∧ get_incomplete_relations
        (runCollector keepAllHooks false true false [relC6] [wayC6, wayC6]) = [] := by
  decide

/-- Whether pass 2 routes objects of this kind to the collector
(the `TNodes`/`TWays`/`TRelations` template flags). -/
def kindEnabled (tn tw tr : Bool) (k : ItemKind) : Bool :=
  match k with
  | .node => tn
  | .way => tw
  | .relation => tr

/-- An (enabled) object with this kind and id occurs in the stream. -/
def arrived (tn tw tr : Bool) (done : List Obj) (k : ItemKind) (id : Int) : Bool :=
  done.any (fun o => kindEnabled tn tw tr o.kind && o.kind == k && o.id == id)

/-- The kept members of a stored relation copy: `add_relation` zeroes
the ref of every rejected member in the copy, so (for inputs whose
member refs are nonzero) the kept ones are those with nonzero ref. -/
def keptRefs (rel : Obj) : List Member :=
  rel.members.filter (fun mem => mem.ref != 0)

/-- How many kept member slots of `rel` are still missing after the
objects in `done` have been delivered. -/
def missingCount (tn tw tr : Bool) (done : List Obj) (rel : Obj) : Nat :=
  (keptRefs rel).countP (fun mem => !arrived tn tw tr done mem.kind mem.ref)

/-- What pass 1 establishes on a spec-conformant input: `m_relations[p]`
points at arena slot `p` and wants exactly its kept members (at least
one); stored relation ids are pairwise distinct; the per-kind vectors
are sorted, fresh, valid, and mirror the kept member slots with
multiplicity (`bij`). -/
structure Pass1Good (st0 : CollectorState) : Prop where
  rlen : st0.m_relations.length = st0.relations_buffer.length
  entry : ∀ (p : Nat) (rm : RelationMeta), st0.m_relations[p]? = some rm →
    rm.relation_offset = p
    ∧ rm.need_members = ((keptRefs (st0.get_relation p)).length : Int)
    ∧ 1 ≤ (keptRefs (st0.get_relation p)).length
  ids : st0.relations_buffer.Pairwise (fun a b => a.id ≠ b.id)
  sorted : ∀ k : ItemKind, mmSorted (st0.member_meta k)
  flags : ∀ k : ItemKind, ∀ m ∈ st0.member_meta k, m.removed = false
  valid : ∀ k : ItemKind, ∀ m ∈ st0.member_meta k, m.relation_pos < st0.m_relations.length
  bij : ∀ (k : ItemKind) (p : Nat) (id : Int),
    (st0.member_meta k).countP (fun m => m.relation_pos == p && m.member_id == id)
      = (keptRefs (st0.get_relation p)).countP (fun mem => mem.kind == k && mem.ref == id)

/-- The pass-2 invariant: after delivering `done`, each tracked relation
is either completed (entry reset to the default) or wants exactly its
missing kept members; every `MemberMeta` keeps its key and is tombstoned
exactly when its owning relation completed. -/
structure C6Inv (tn tw tr : Bool) (st0 : CollectorState) (done : List Obj)
    (st : CollectorState) : Prop where
  rbuf : st.relations_buffer = st0.relations_buffer
  rlen : st.m_relations.length = st0.m_relations.length
  entry : ∀ p : Nat, p < st0.m_relations.length →
    st.m_relations[p]? = some (
      if missingCount tn tw tr done (st0.get_relation p) = 0 then {}
      else ⟨p, (missingCount tn tw tr done (st0.get_relation p) : Int)⟩)
  mlen : ∀ k : ItemKind, (st.member_meta k).length = (st0.member_meta k).length
  mkey : ∀ (k : ItemKind) (i : Nat) (m0 m : MemberMeta),
    (st0.member_meta k)[i]? = some m0 → (st.member_meta k)[i]? = some m →
    keyOf m = keyOf m0
    ∧ m.removed = decide (missingCount tn tw tr done (st0.get_relation m0.relation_pos) = 0)

theorem countP_pointwise {α β : Type} (p : α → Bool) (q : β → Bool) :
    ∀ (l1 : List α) (l2 : List β), l2.length = l1.length →
      (∀ (i : Nat) (x1 : α) (x2 : β), l1[i]? = some x1 → l2[i]? = some x2 → p x1 = q x2) →
      l1.countP p = l2.countP q := by
  intro l1
  induction l1 with
  | nil =>
    intro l2 hlen _
    rw [List.length_nil, List.length_eq_zero] at hlen
    rw [hlen]
    rfl
  | cons a t ih =>
    intro l2 hlen h
    cases l2 with
    | nil => cases hlen
    | cons b t2 =>
      rw [List.countP_cons, List.countP_cons]
      rw [List.length_cons, List.length_cons] at hlen
      have hab : p a = q b := h 0 a b (by simp) (by simp)
      rw [ih t2 (Nat.succ_injective hlen)
        (fun i x1 x2 h1 h2 => h (i + 1) x1 x2
          (by rw [List.getElem?_cons_succ]; exact h1)
          (by rw [List.getElem?_cons_succ]; exact h2)), hab]

theorem findRange_eq_of_keys (v0 v : List MemberMeta)
    (hlen : v.length = v0.length)
    (hkey : ∀ (i : Nat) (m0 m : MemberMeta), v0[i]? = some m0 → v[i]? = some m →
      keyOf m = keyOf m0) (id : Int) :
    findRange v id = findRange v0 id := by
  have hid : ∀ (i : Nat) (m0 m : MemberMeta), v0[i]? = some m0 → v[i]? = some m →
      m.member_id = m0.member_id := by
    intro i m0 m h0 h1
    exact congrArg (fun q => q.1) (hkey i m0 m h0 h1)
  unfold findRange
  refine Prod.ext ?_ ?_
  · exact (countP_pointwise _ _ v0 v hlen
      (fun i x1 x2 h1 h2 => by rw [hid i x1 x2 h1 h2])).symm
  · exact (countP_pointwise _ _ v0 v hlen
      (fun i x1 x2 h1 h2 => by rw [hid i x1 x2 h1 h2])).symm

/-- On a sorted vector, a monotone-downward predicate holds exactly on a
prefix whose length is its count. -/
theorem sorted_countP_iff (p : MemberMeta → Bool)
    (hmono : ∀ a b : MemberMeta, a.member_id ≤ b.member_id → p b = true → p a = true) :
    ∀ (v : List MemberMeta), mmSorted v → ∀ (i : Nat) (hi : i < v.length),
      (i < v.countP p ↔ p v[i] = true) := by
  intro v
  induction v with
  | nil => intro _ i hi; cases hi
  | cons a t ih =>
    intro hs i hi
    rw [mmSorted, List.pairwise_cons] at hs
    have hall : p a = false → ∀ b ∈ t, p b = false := by
      intro hpa b hb
      by_contra hc
      have : p b = true := by
        cases h2 : p b
        · exact absurd h2 hc
        · rfl
      rw [hmono a b (hs.1 b hb) this] at hpa
      cases hpa
    rw [List.countP_cons]
    cases i with
    | zero =>
      cases hpa : p a
      · have ht : t.countP p = 0 := by
          rw [List.countP_eq_zero]
          intro b hb
          rw [hall hpa b hb]
          exact Bool.false_ne_true
        simp [ht, hpa]
      · simp [hpa]
    | succ i =>
      rw [List.length_cons] at hi
      have hi2 : i < t.length := Nat.lt_of_succ_lt_succ hi
      have hgt : (a :: t)[i + 1] = t[i] := rfl
      cases hpa : p a
      · have ht : ∀ b ∈ t, p b = false := hall hpa
        have ht0 : t.countP p = 0 := by
          rw [List.countP_eq_zero]
          intro b hb
          rw [ht b hb]
          exact Bool.false_ne_true
        rw [hgt, ht0, ht t[i] (List.getElem_mem hi2)]
        simp [hpa]
      · rw [hgt, if_pos rfl, Nat.add_lt_add_iff_right]
        exact ih hs.2 i hi2

/-- Index membership in the equal-range of a sorted vector. -/
theorem range_index_iff (v : List MemberMeta) (id : Int) (hs : mmSorted v)
    (i : Nat) (hi : i < v.length) :
    ((findRange v id).1 ≤ i ∧ i < (findRange v id).2) ↔ v[i].member_id = id := by
  have hlt := sorted_countP_iff (fun m => decide (m.member_id < id))
    (fun a b hab hb => by
      simp only [decide_eq_true_eq] at hb ⊢
      exact lt_of_le_of_lt hab hb) v hs i hi
  have hle := sorted_countP_iff (fun m => decide (m.member_id ≤ id))
    (fun a b hab hb => by
      simp only [decide_eq_true_eq] at hb ⊢
      exact le_trans hab hb) v hs i hi
  simp only [decide_eq_true_eq] at hlt hle
  unfold findRange
  constructor
  · intro ⟨h1, h2⟩
    have hx2 := hle.mp h2
    have hx1 : ¬v[i].member_id < id := fun hc => absurd (hlt.mpr hc) (by omega)
    omega
  · intro h
    refine ⟨?_, hle.mpr (le_of_eq h)⟩
    by_contra hc
    have := hlt.mp (by omega)
    omega

theorem sliceOf_length (v : List MemberMeta) (lo hi : Nat) (h1 : lo ≤ hi)
    (h2 : hi ≤ v.length) : (sliceOf v lo hi).length = hi - lo := by
  unfold sliceOf
  rw [List.length_take, List.length_drop]
  omega

theorem sliceOf_getElem (v : List MemberMeta) (lo hi j : Nat) (hj : j < hi - lo) :
    (sliceOf v lo hi)[j]? = v[lo + j]? := by
  unfold sliceOf
  rw [List.getElem?_take, if_pos hj, List.getElem?_drop]

theorem setMM_relations_buffer (st : CollectorState) (k : ItemKind) (v : List MemberMeta) :
    (st.setMM k v).relations_buffer = st.relations_buffer := by
  cases k <;> rfl

theorem member_meta_rbuf_update (st : CollectorState) (b : List Obj) (j : ItemKind) :
    ({ st with relations_buffer := b } : CollectorState).member_meta j = st.member_meta j := by
  cases j <;> rfl

theorem setMMFold_relations_buffer (metas : List (ItemKind × MemberMeta)) :
    ∀ s : CollectorState,
      (metas.foldl (fun s km => s.setMM km.1 (s.member_meta km.1 ++ [km.2])) s).relations_buffer
        = s.relations_buffer := by
  induction metas with
  | nil => intro s; rfl
  | cons km metas ih =>
    intro s
    rw [List.foldl_cons, ih, setMM_relations_buffer]

theorem setMMFold_countP (metas : List (ItemKind × MemberMeta)) (Q : MemberMeta → Bool) :
    ∀ (s : CollectorState) (k : ItemKind),
      ((metas.foldl (fun s km => s.setMM km.1 (s.member_meta km.1 ++ [km.2])) s).member_meta
        k).countP Q
        = (s.member_meta k).countP Q
          + metas.countP (fun km => km.1 == k && Q (Prod.snd km)) := by
  induction metas with
  | nil =>
    intro s k
    rw [List.foldl_nil, List.countP_nil]
    omega
  | cons km metas ih =>
    intro s k
    rw [List.foldl_cons, ih, List.countP_cons, member_meta_setMM]
    by_cases hk : k = km.1
    · subst hk
      rw [if_pos rfl, List.countP_append, List.countP_cons, List.countP_nil]
      simp only [beq_self_eq_true, Bool.true_and]
      omega
    · rw [if_neg hk]
      have hbeq : (km.1 == k) = false := by
        rw [beq_eq_false_iff_ne]
        exact fun hc => hk hc.symm
      rw [hbeq]
      simp only [Bool.false_and]
      simp

theorem countP_one {α : Type} (p : α → Bool) (a : α) :
    List.countP p [a] = if p a then 1 else 0 := by
  rw [List.countP_cons, List.countP_nil, Nat.zero_add]

/-- The running invariant of `add_relation`'s member fold: the counter
equals the number of stored members with nonzero ref, every emitted meta
is fresh and owned by relation `rp`, and the emitted metas mirror the
kept stored slots groupwise. -/
theorem addRelStep_char (h : Hooks) (offset rp : Nat) :
    ∀ (l : List Member) (acc : Int × List Member × List (ItemKind × MemberMeta) × Nat),
      (∀ mem ∈ l, mem.ref ≠ 0) →
      acc.1 = ((acc.2.1.countP (fun mem => mem.ref != 0) : Nat) : Int) →
      (∀ km ∈ acc.2.2.1, (Prod.snd km).relation_pos = rp ∧ (Prod.snd km).removed = false) →
      (∀ (k : ItemKind) (id : Int),
        acc.2.2.1.countP (fun km => km.1 == k && (Prod.snd km).member_id == id)
          = acc.2.1.countP (fun mem => mem.ref != 0 && mem.kind == k && mem.ref == id)) →
      (l.foldl (addRelStep h offset rp) acc).1
          = (((l.foldl (addRelStep h offset rp) acc).2.1.countP
              (fun mem => mem.ref != 0) : Nat) : Int)
      ∧ (∀ km ∈ (l.foldl (addRelStep h offset rp) acc).2.2.1,
          (Prod.snd km).relation_pos = rp ∧ (Prod.snd km).removed = false)
      ∧ (∀ (k : ItemKind) (id : Int),
          (l.foldl (addRelStep h offset rp) acc).2.2.1.countP
              (fun km => km.1 == k && (Prod.snd km).member_id == id)
            = (l.foldl (addRelStep h offset rp) acc).2.1.countP
              (fun mem => mem.ref != 0 && mem.kind == k && mem.ref == id)) := by
  intro l
  induction l with
  | nil => intro acc _ h1 h2 h3; exact ⟨h1, h2, h3⟩
  | cons mem l ih =>
    intro acc hrefs h1 h2 h3
    rw [List.foldl_cons]
    have hmem : mem.ref ≠ 0 := hrefs mem (List.mem_cons_self mem l)
    have hbne : (mem.ref != 0) = true := by
      rw [bne_iff_ne]
      exact hmem
    refine ih _ (fun m hm => hrefs m (List.mem_cons_of_mem mem hm)) ?_ ?_ ?_
    · simp only [addRelStep]
      split
      · show acc.1 + 1
            = ((List.countP (fun mem => mem.ref != 0) (acc.2.1 ++ [mem]) : Nat) : Int)
        rw [List.countP_append, countP_one, h1, hbne]
        rw [if_pos rfl]
        push_cast
        ring
      · show acc.1
            = ((List.countP (fun mem => mem.ref != 0)
                (acc.2.1 ++ [{ mem with ref := 0 }]) : Nat) : Int)
        rw [List.countP_append, countP_one, h1]
        have hz : ((({ mem with ref := 0 } : Member).ref != 0) : Bool) = false := rfl
        rw [hz]
        simp
    · intro km hkm
      simp only [addRelStep] at hkm
      split at hkm
      · have hkm2 : km ∈ acc.2.2.1 ++ [(mem.kind,
            (⟨mem.ref, rp, acc.2.2.2, none, false⟩ : MemberMeta))] := hkm
        rcases List.mem_append.mp hkm2 with hk | hk
        · exact h2 km hk
        · rw [List.mem_singleton] at hk
          rw [hk]
          exact ⟨rfl, rfl⟩
      · exact h2 km hkm
    · intro k id
      simp only [addRelStep]
      split
      · show List.countP _ (acc.2.2.1
              ++ [(mem.kind, (⟨mem.ref, rp, acc.2.2.2, none, false⟩ : MemberMeta))])
            = List.countP _ (acc.2.1 ++ [mem])
        rw [List.countP_append, List.countP_append, h3 k id, countP_one, countP_one]
        congr 1
        have hc : ((mem.kind == k && ((⟨mem.ref, rp, acc.2.2.2, none, false⟩ :
            MemberMeta).member_id == id)) : Bool)
            = (mem.ref != 0 && mem.kind == k && mem.ref == id) := by
          simp [hbne]
        rw [hc]
      · show List.countP _ acc.2.2.1
            = List.countP _ (acc.2.1 ++ [{ mem with ref := 0 }])
        rw [List.countP_append, h3 k id, countP_one]
        have hc : ((({ mem with ref := 0 } : Member).ref != 0
            && ({ mem with ref := 0 } : Member).kind == k
            && ({ mem with ref := 0 } : Member).ref == id) : Bool)
            = false := rfl
        rw [hc]
        simp

/-- The pass-1 fold invariant (before `sort_member_meta`): `Pass1Good`
without sortedness. -/
structure Pass1Mid (st : CollectorState) : Prop where
  rlen : st.m_relations.length = st.relations_buffer.length
  entry : ∀ (p : Nat) (rm : RelationMeta), st.m_relations[p]? = some rm →
    rm.relation_offset = p
    ∧ rm.need_members = ((keptRefs (st.get_relation p)).length : Int)
    ∧ 1 ≤ (keptRefs (st.get_relation p)).length
  ids : st.relations_buffer.Pairwise (fun a b => a.id ≠ b.id)
  flags : ∀ k : ItemKind, ∀ m ∈ st.member_meta k, m.removed = false
  valid : ∀ k : ItemKind, ∀ m ∈ st.member_meta k, m.relation_pos < st.m_relations.length
  bij : ∀ (k : ItemKind) (p : Nat) (id : Int),
    (st.member_meta k).countP (fun m => m.relation_pos == p && m.member_id == id)
      = (keptRefs (st.get_relation p)).countP (fun mem => mem.kind == k && mem.ref == id)

theorem get_relation_append (st : CollectorState) (x : Obj) (p : Nat) :
    (st.relations_buffer ++ [x]).getD p defaultObj
      = if p = st.relations_buffer.length then x else st.get_relation p := by
  by_cases hp : p = st.relations_buffer.length
  · rw [if_pos hp, hp, List.getD_eq_getElem?_getD, List.getElem?_concat_length]
    rfl
  · rw [if_neg hp]
    unfold CollectorState.get_relation
    rw [List.getD_eq_getElem?_getD, List.getD_eq_getElem?_getD, List.getElem?_append]
    by_cases hlt : p < st.relations_buffer.length
    · rw [if_pos hlt]
    · rw [if_neg hlt]
      have h1 : st.relations_buffer.length ≤ p := Nat.le_of_not_lt hlt
      have h2 : ([x] : List Obj)[p - st.relations_buffer.length]? = none := by
        apply List.getElem?_eq_none
        simp only [List.length_singleton]
        omega
      have h3 : st.relations_buffer[p]? = none := List.getElem?_eq_none h1
      rw [h2, h3]

theorem add_relation_pass1 (h : Hooks) (st : CollectorState) (r : Obj)
    (hP : Pass1Mid st)
    (hrefs : ∀ mem ∈ r.members, mem.ref ≠ 0)
    (hid : ∀ o ∈ st.relations_buffer, o.id ≠ r.id) :
    Pass1Mid (add_relation h st r) := by
  have hchar := addRelStep_char h st.relations_buffer.length st.m_relations.length
    r.members (0, [], [], 0) hrefs (by rfl) (by intro km hkm; cases hkm)
    (by intro k id; rfl)
  simp only [add_relation]
  split
  · exact hP
  · rename_i hnz
    set res := r.members.foldl
      (addRelStep h st.relations_buffer.length st.m_relations.length) (0, [], [], 0) with hres
    obtain ⟨hc1, hc2, hc3⟩ := hchar
    have hne0 : res.1 ≠ 0 := by
      intro hc
      exact hnz (by rw [hc]; rfl)
    have hcount0 : res.2.1.countP (fun mem => mem.ref != 0) ≠ 0 := by
      intro hc
      apply hne0
      rw [hc1, hc]
      rfl
    set storedRel : Obj := { r with members := res.2.1 } with hstored
    set st1 : CollectorState :=
      { st with relations_buffer := st.relations_buffer ++ [storedRel] } with hst1
    set st2 : CollectorState := res.2.2.1.foldl
      (fun s km => s.setMM km.1 (s.member_meta km.1 ++ [km.2])) st1 with hst2
    have hm2 : st2.m_relations = st.m_relations := by
      rw [hst2, setMMFold_m_relations]
    have hb2 : st2.relations_buffer = st.relations_buffer ++ [storedRel] := by
      rw [hst2, setMMFold_relations_buffer]
    have hmm1 : ∀ k : ItemKind, st1.member_meta k = st.member_meta k := by
      intro k
      rw [hst1]
      exact member_meta_rbuf_update st _ k
    have hGrel : ∀ p : Nat,
        ({ st2 with m_relations := st2.m_relations ++ [⟨st.relations_buffer.length, res.1⟩] }
            : CollectorState).get_relation p
          = if p = st.relations_buffer.length then storedRel else st.get_relation p := by
      intro p
      show (st2.relations_buffer).getD p defaultObj = _
      rw [hb2]
      exact get_relation_append st storedRel p
    have hkept : keptRefs storedRel = res.2.1.filter (fun mem => mem.ref != 0) := rfl
    have hkeptlen : (keptRefs storedRel).length
        = res.2.1.countP (fun mem => mem.ref != 0) := by
      rw [hkept, ← List.countP_eq_length_filter]
    refine ⟨?_, ?_, ?_, ?_, ?_, ?_⟩
    · show (st2.m_relations ++ _).length = (st2.relations_buffer).length
      rw [hm2, hb2, List.length_append, List.length_append, List.length_singleton,
        List.length_singleton, hP.rlen]
    · intro p rm hprm
      rw [show ({ st2 with m_relations := st2.m_relations
            ++ [⟨st.relations_buffer.length, res.1⟩] } : CollectorState).m_relations
          = st.m_relations ++ [⟨st.relations_buffer.length, res.1⟩] from by rw [hm2],
        List.getElem?_append] at hprm
      by_cases hp : p < st.m_relations.length
      · rw [if_pos hp] at hprm
        have hold := hP.entry p rm hprm
        have hpne : p ≠ st.relations_buffer.length := by
          rw [← hP.rlen]
          omega
        rw [hGrel p, if_neg hpne]
        exact hold
      · rw [if_neg hp] at hprm
        have hple : st.m_relations.length ≤ p := Nat.le_of_not_lt hp
        have hpz : p - st.m_relations.length = 0 := by
          by_contra hcz
          have : 1 ≤ p - st.m_relations.length := by omega
          have : ([(⟨st.relations_buffer.length, res.1⟩ : RelationMeta)])[p
              - st.m_relations.length]? = none := by
            apply List.getElem?_eq_none
            simp only [List.length_singleton]
            omega
          rw [this] at hprm
          cases hprm
        rw [hpz] at hprm
        have hrm : rm = ⟨st.relations_buffer.length, res.1⟩ := by
          have : ([(⟨st.relations_buffer.length, res.1⟩ : RelationMeta)])[0]?
              = some ⟨st.relations_buffer.length, res.1⟩ := rfl
          rw [this] at hprm
          cases hprm
          rfl
        have hpeq : p = st.relations_buffer.length := by
          rw [← hP.rlen]
          omega
        rw [hGrel p, if_pos hpeq, hrm]
        refine ⟨hpeq.symm, ?_, ?_⟩
        · show res.1 = ((keptRefs storedRel).length : Int)
          rw [hkeptlen, hc1]
        · rw [hkeptlen]
          omega
    · show (st2.relations_buffer).Pairwise _
      rw [hb2, List.pairwise_append]
      refine ⟨hP.ids, List.pairwise_singleton _ _, ?_⟩
      intro a ha b hb
      rw [List.mem_singleton] at hb
      rw [hb]
      exact hid a ha
    · intro k m hm
      rw [show ({ st2 with m_relations := st2.m_relations
            ++ [⟨st.relations_buffer.length, res.1⟩] } : CollectorState).member_meta k
          = st2.member_meta k from member_meta_rels_update st2 _ k] at hm
      rcases setMMFold_mem _ _ k m (by rw [← hst2]; exact hm) with hm2 | hm2
      · rw [hmm1 k] at hm2
        exact hP.flags k m hm2
      · obtain ⟨km, hkm, he⟩ := hm2
        rw [← he]
        exact (hc2 km hkm).2
    · intro k m hm
      rw [show ({ st2 with m_relations := st2.m_relations
            ++ [⟨st.relations_buffer.length, res.1⟩] } : CollectorState).member_meta k
          = st2.member_meta k from member_meta_rels_update st2 _ k] at hm
      have hlen : ({ st2 with m_relations := st2.m_relations
            ++ [⟨st.relations_buffer.length, res.1⟩] } : CollectorState).m_relations.length
          = st.m_relations.length + 1 := by
        show (st2.m_relations ++ _).length = _
        rw [hm2, List.length_append, List.length_singleton]
      rw [hlen]
      rcases setMMFold_mem _ _ k m (by rw [← hst2]; exact hm) with hm2 | hm2
      · rw [hmm1 k] at hm2
        exact Nat.lt_succ_of_lt (hP.valid k m hm2)
      · obtain ⟨km, hkm, he⟩ := hm2
        rw [← he, (hc2 km hkm).1]
        exact Nat.lt_succ_self _
    · intro k p id
      rw [show ({ st2 with m_relations := st2.m_relations
            ++ [⟨st.relations_buffer.length, res.1⟩] } : CollectorState).member_meta k
          = st2.member_meta k from member_meta_rels_update st2 _ k]
      rw [hst2, setMMFold_countP, ← hst2, hmm1 k, hGrel p]
      by_cases hp : p = st.relations_buffer.length
      · rw [if_pos hp]
        have hold : (st.member_meta k).countP
            (fun m => m.relation_pos == p && m.member_id == id) = 0 := by
          rw [hP.bij k p id]
          have : st.get_relation p = defaultObj := by
            unfold CollectorState.get_relation
            rw [List.getD_eq_getElem?_getD, List.getElem?_eq_none (by omega)]
            rfl
          rw [this]
          rfl
        rw [hold, Nat.zero_add]
        have hmet : res.2.2.1.countP (fun km => km.1 == k
              && ((Prod.snd km).relation_pos == p && (Prod.snd km).member_id == id))
            = res.2.2.1.countP (fun km => km.1 == k && (Prod.snd km).member_id == id) := by
          apply List.countP_congr
          intro km hkm
          have hrp : (Prod.snd km).relation_pos = st.m_relations.length := (hc2 km hkm).1
          have : ((Prod.snd km).relation_pos == p) = true := by
            rw [beq_iff_eq, hrp, hP.rlen, hp]
          rw [this, Bool.true_and]
        rw [hmet, hc3 k id, hkept, List.countP_filter]
        apply List.countP_congr
        intro mem _
        cases h1 : (mem.ref != 0) <;> cases h2 : (mem.kind == k) <;>
          cases h3 : (mem.ref == id) <;> simp [h1, h2, h3]
      · rw [if_neg hp]
        have hmet : res.2.2.1.countP (fun km => km.1 == k
              && ((Prod.snd km).relation_pos == p && (Prod.snd km).member_id == id)) = 0 := by
          rw [List.countP_eq_zero]
          intro km hkm
          have hrp : (Prod.snd km).relation_pos = st.m_relations.length := (hc2 km hkm).1
          have hne : ((Prod.snd km).relation_pos == p) = false := by
            rw [beq_eq_false_iff_ne, hrp, hP.rlen]
            exact fun hc => hp hc.symm
          rw [hne, Bool.false_and, Bool.and_false]
          exact Bool.false_ne_true
        rw [hmet, Nat.add_zero]
        exact hP.bij k p id

theorem add_relation_rbuf_mem (h : Hooks) (st : CollectorState) (r : Obj) :
    ∀ o ∈ (add_relation h st r).relations_buffer,
      o ∈ st.relations_buffer ∨ o.id = r.id := by
  simp only [add_relation]
  split
  · intro o ho
    exact Or.inl ho
  · set res := r.members.foldl
      (addRelStep h st.relations_buffer.length st.m_relations.length) (0, [], [], 0) with hres
    set storedRel : Obj := { r with members := res.2.1 } with hstored
    set st1 : CollectorState :=
      { st with relations_buffer := st.relations_buffer ++ [storedRel] } with hst1
    set st2 : CollectorState := res.2.2.1.foldl
      (fun s km => s.setMM km.1 (s.member_meta km.1 ++ [km.2])) st1 with hst2
    intro o ho
    have hb2 : st2.relations_buffer = st.relations_buffer ++ [storedRel] := by
      rw [hst2, setMMFold_relations_buffer]
    have ho2 : o ∈ st2.relations_buffer := ho
    rw [hb2] at ho2
    rcases List.mem_append.mp ho2 with h1 | h1
    · exact Or.inl h1
    · rw [List.mem_singleton] at h1
      rw [h1, hstored]
      exact Or.inr rfl

theorem handle_pass1_rbuf_mem (h : Hooks) (st : CollectorState) (obj : Obj) :
    ∀ o ∈ (handle_pass1 h st obj).relations_buffer,
      o ∈ st.relations_buffer ∨ (obj.kind = ItemKind.relation ∧ o.id = obj.id) := by
  unfold handle_pass1
  split
  · rename_i hcond
    intro o ho
    rcases add_relation_rbuf_mem h st obj o ho with h1 | h1
    · exact Or.inl h1
    · refine Or.inr ⟨?_, h1⟩
      have := (Bool.and_eq_true _ _).mp hcond
      exact beq_iff_eq.mp this.1
  · intro o ho
    exact Or.inl ho

theorem handle_pass1_mid (h : Hooks) (st : CollectorState) (obj : Obj)
    (hP : Pass1Mid st)
    (hrefs : obj.kind = ItemKind.relation → ∀ mem ∈ obj.members, mem.ref ≠ 0)
    (hid : obj.kind = ItemKind.relation → ∀ o ∈ st.relations_buffer, o.id ≠ obj.id) :
    Pass1Mid (handle_pass1 h st obj) := by
  unfold handle_pass1
  split
  · rename_i hcond
    have hkind : obj.kind = ItemKind.relation :=
      beq_iff_eq.mp ((Bool.and_eq_true _ _).mp hcond).1
    exact add_relation_pass1 h st obj hP (hrefs hkind) (hid hkind)
  · exact hP

theorem pass1_fold_mid (h : Hooks) :
    ∀ (rest : List Obj) (st : CollectorState),
      Pass1Mid st →
      rest.Pairwise (fun a b => a.kind = ItemKind.relation → b.kind = ItemKind.relation →
        a.id ≠ b.id) →
      (∀ r ∈ rest, r.kind = ItemKind.relation → ∀ mem ∈ r.members, mem.ref ≠ 0) →
      (∀ o ∈ st.relations_buffer, ∀ r ∈ rest, r.kind = ItemKind.relation → o.id ≠ r.id) →
      Pass1Mid (rest.foldl (handle_pass1 h) st) := by
  intro rest
  induction rest with
  | nil => intro st hP _ _ _; exact hP
  | cons r rest ih =>
    intro st hP hpw hrefs hdisj
    rw [List.foldl_cons]
    rw [List.pairwise_cons] at hpw
    refine ih _ (handle_pass1_mid h st r hP (hrefs r (List.mem_cons_self r rest))
      (fun hkr o ho => hdisj o ho r (List.mem_cons_self r rest) hkr)) hpw.2
      (fun r' hr' => hrefs r' (List.mem_cons_of_mem r hr')) ?_
    intro o ho r' hr' hk'
    rcases handle_pass1_rbuf_mem h st r o ho with hor | hor
    · exact hdisj o hor r' (List.mem_cons_of_mem r hr') hk'
    · rw [hor.2]
      exact hpw.1 r' hr' hor.1 hk'

theorem read_relations_good (h : Hooks) (pass1 : List Obj)
    (H2 : pass1.Pairwise (fun a b => a.kind = ItemKind.relation →
      b.kind = ItemKind.relation → a.id ≠ b.id))
    (H3 : ∀ r ∈ pass1, r.kind = ItemKind.relation → ∀ mem ∈ r.members, mem.ref ≠ 0) :
    Pass1Good (read_relations h pass1 {}) := by
  have hInit : Pass1Mid {} := by
    refine ⟨rfl, ?_, List.Pairwise.nil, ?_, ?_, ?_⟩
    · intro p rm hprm
      cases hprm
    · intro k m hm
      cases k <;> cases hm
    · intro k m hm
      cases k <;> cases hm
    · intro k p id
      cases k <;> rfl
  have hMid : Pass1Mid (pass1.foldl (handle_pass1 h) {}) :=
    pass1_fold_mid h pass1 {} hInit H2 H3 (by intro o ho; cases ho)
  have hmmS : ∀ k : ItemKind, (read_relations h pass1 {}).member_meta k
      = mmSort ((pass1.foldl (handle_pass1 h) {}).member_meta k) := by
    intro k
    cases k <;> rfl
  have hrelS : (read_relations h pass1 {}).m_relations
      = (pass1.foldl (handle_pass1 h) {}).m_relations := rfl
  have hbufS : (read_relations h pass1 {}).relations_buffer
      = (pass1.foldl (handle_pass1 h) {}).relations_buffer := rfl
  have hgrelS : ∀ p : Nat, (read_relations h pass1 {}).get_relation p
      = (pass1.foldl (handle_pass1 h) {}).get_relation p := fun _ => rfl
  refine ⟨?_, ?_, ?_, ?_, ?_, ?_, ?_⟩
  · rw [hrelS, hbufS]
    exact hMid.rlen
  · intro p rm hprm
    rw [hrelS] at hprm
    rw [hgrelS p]
    exact hMid.entry p rm hprm
  · rw [hbufS]
    exact hMid.ids
  · intro k
    rw [hmmS k]
    exact mmSort_sorted _
  · intro k m hm
    rw [hmmS k] at hm
    exact hMid.flags k m ((mmSort_perm _).mem_iff.mp hm)
  · intro k m hm
    rw [hmmS k] at hm
    rw [hrelS]
    exact hMid.valid k m ((mmSort_perm _).mem_iff.mp hm)
  · intro k p id
    rw [hmmS k, hgrelS p, (mmSort_perm _).countP_eq]
    exact hMid.bij k p id

/-- Pointwise state of the per-kind vectors against the pass-1 snapshot
`st0`: keys are unchanged and the tombstone flag of each meta is the
predicate `Fl` of its pass-1 original. -/
def PointGood (st0 : CollectorState) (Fl : MemberMeta → Bool) (s : CollectorState) : Prop :=
  (∀ j : ItemKind, (s.member_meta j).length = (st0.member_meta j).length)
  ∧ ∀ (j : ItemKind) (i : Nat) (m0 m : MemberMeta),
      (st0.member_meta j)[i]? = some m0 → (s.member_meta j)[i]? = some m →
      keyOf m = keyOf m0 ∧ m.removed = Fl m0

theorem pointGood_keysStable {st0 : CollectorState} {Fl : MemberMeta → Bool}
    {s : CollectorState} (h : PointGood st0 Fl s) (j : ItemKind) :
    keysStable (st0.member_meta j) (s.member_meta j) :=
  ⟨h.1 j, fun i m0 m h0 h1 => (h.2 j i m0 m h0 h1).1⟩

theorem pointGood_sorted {st0 : CollectorState} {Fl : MemberMeta → Bool}
    {s : CollectorState} (h : PointGood st0 Fl s)
    (hs0 : ∀ j : ItemKind, mmSorted (st0.member_meta j)) (j : ItemKind) :
    mmSorted (s.member_meta j) :=
  mmSorted_of_keysStable (pointGood_keysStable h j) (hs0 j)

theorem pointGood_findRange {st0 : CollectorState} {Fl : MemberMeta → Bool}
    {s : CollectorState} (h : PointGood st0 Fl s) (j : ItemKind) (id : Int) :
    findRange (s.member_meta j) id = findRange (st0.member_meta j) id :=
  findRange_eq_of_keys (st0.member_meta j) (s.member_meta j) (h.1 j)
    (fun i m0 m h0 h1 => (h.2 j i m0 m h0 h1).1) id

theorem pointGood_moving {st0 : CollectorState} {Fl : MemberMeta → Bool}
    (hs0 : ∀ j : ItemKind, mmSorted (st0.member_meta j)) :
    ∀ (s : CollectorState) (o n : Nat), PointGood st0 Fl s →
      PointGood st0 Fl (moving_in_buffer s o n) := by
  intro s o n h
  unfold moving_in_buffer
  have hk := pointGood_sorted h hs0
    ((s.members_buffer.getD o (defaultObj, true)).1).kind
  have hupd := updateRange_sorted ((s.members_buffer.getD o (defaultObj, true)).1).id
    (fun m => { m with buffer_offset := some n }) _ hk
  refine ⟨?_, ?_⟩
  · intro j
    rw [member_meta_setMM]
    by_cases hj : j = ((s.members_buffer.getD o (defaultObj, true)).1).kind
    · rw [if_pos hj, hupd, List.length_map]
      rw [hj]
      exact h.1 _
    · rw [if_neg hj]
      exact h.1 j
  · intro j i m0 m h0 h1
    rw [member_meta_setMM] at h1
    by_cases hj : j = ((s.members_buffer.getD o (defaultObj, true)).1).kind
    · rw [if_pos hj, hupd, List.getElem?_map] at h1
      cases h2 : (s.member_meta ((s.members_buffer.getD o (defaultObj, true)).1).kind)[i]? with
      | none => rw [h2] at h1; cases h1
      | some mx =>
        rw [h2] at h1
        have hbase := h.2 j i m0 mx h0 (by rw [hj]; exact h2)
        cases h1
        by_cases hxid : mx.member_id = ((s.members_buffer.getD o (defaultObj, true)).1).id
        · simp only [if_pos hxid]
          exact ⟨hbase.1, hbase.2⟩
        · simp only [if_neg hxid]
          exact hbase
    · rw [if_neg hj] at h1
      exact h.2 j i m0 m h0 h1

theorem movesFold_rbuf (l : List (Nat × Nat)) :
    ∀ s : CollectorState,
      (l.foldl (fun s p => moving_in_buffer s p.1 p.2) s).relations_buffer
        = s.relations_buffer := by
  induction l with
  | nil => intro s; rfl
  | cons p l ih =>
    intro s
    rw [List.foldl_cons, ih]
    unfold moving_in_buffer
    exact setMM_relations_buffer _ _ _

theorem pointGood_movesFold {st0 : CollectorState} {Fl : MemberMeta → Bool}
    (hs0 : ∀ j : ItemKind, mmSorted (st0.member_meta j)) (l : List (Nat × Nat)) :
    ∀ s : CollectorState, PointGood st0 Fl s →
      PointGood st0 Fl (l.foldl (fun s p => moving_in_buffer s p.1 p.2) s) := by
  induction l with
  | nil => intro s h; exact h
  | cons p l ih =>
    intro s h
    rw [List.foldl_cons]
    exact ih _ (pointGood_moving hs0 s p.1 p.2 h)

theorem pointGood_membuf_update {st0 : CollectorState} {Fl : MemberMeta → Bool}
    {s : CollectorState} (h : PointGood st0 Fl s) (b : List (Obj × Bool)) :
    PointGood st0 Fl { s with members_buffer := b } := by
  refine ⟨fun j => ?_, fun j i m0 m h0 h1 => ?_⟩
  · rw [member_meta_membuf]
    exact h.1 j
  · rw [member_meta_membuf] at h1
    exact h.2 j i m0 m h0 h1

theorem pointGood_possibly_purge {st0 : CollectorState} {Fl : MemberMeta → Bool}
    (hs0 : ∀ j : ItemKind, mmSorted (st0.member_meta j))
    (s : CollectorState) (h : PointGood st0 Fl s) :
    PointGood st0 Fl (possibly_purge_removed_members s)
    ∧ (possibly_purge_removed_members s).relations_buffer = s.relations_buffer := by
  simp only [possibly_purge_removed_members]
  split
  · unfold purge_removed
    have h1 : PointGood st0 Fl { s with
        m_count_complete := s.m_count_complete + 1 } := by
      refine ⟨fun j => ?_, fun j i m0 m h0 hx => ?_⟩
      · show (s.member_meta j).length = _
        exact h.1 j
      · exact h.2 j i m0 m h0 hx
    have h2 := pointGood_movesFold hs0 (movesOf s.members_buffer) _ h1
    constructor
    · refine ⟨fun j => ?_, fun j i m0 m h0 hx => ?_⟩
      · show (((movesOf s.members_buffer).foldl (fun s p => moving_in_buffer s p.1 p.2)
            { s with m_count_complete := s.m_count_complete + 1 }).member_meta j).length = _
        exact h2.1 j
      · exact h2.2 j i m0 m h0 hx
    · show ((movesOf s.members_buffer).foldl (fun s p => moving_in_buffer s p.1 p.2)
          { s with m_count_complete := s.m_count_complete + 1 }).relations_buffer = _
      rw [movesFold_rbuf]
  · constructor
    · refine ⟨fun j => ?_, fun j i m0 m h0 hx => ?_⟩
      · show (s.member_meta j).length = _
        exact h.1 j
      · exact h.2 j i m0 m h0 hx
    · rfl

/-- Full disjunctive specification of `removeFirstIn`: either nothing in
the window matches and the vector is returned unchanged, or the first
matching live meta is tombstoned. -/
theorem removeFirstIn_spec (stC : CollectorState) (relId : Int) (v : List MemberMeta) :
    ∀ (fuel k : Nat),
      (removeFirstIn stC relId v fuel k = v
        ∧ ∀ (i : Nat) (m : MemberMeta), k ≤ i → i < k + fuel → v[i]? = some m →
          (!m.removed && relId == (stC.relationOfMeta m).id) = false)
      ∨ (∃ (j : Nat) (mj : MemberMeta), k ≤ j ∧ j < k + fuel ∧ v[j]? = some mj
          ∧ (!mj.removed && relId == (stC.relationOfMeta mj).id) = true
          ∧ removeFirstIn stC relId v fuel k = v.set j { mj with removed := true }
          ∧ ∀ (i : Nat) (m : MemberMeta), k ≤ i → i < j → v[i]? = some m →
            (!m.removed && relId == (stC.relationOfMeta m).id) = false) := by
  intro fuel
  induction fuel with
  | zero =>
    intro k
    refine Or.inl ⟨rfl, ?_⟩
    intro i m h1 h2 _
    omega
  | succ fuel ih =>
    intro k
    cases hvk : v[k]? with
    | none =>
      have hred : removeFirstIn stC relId v (fuel + 1) k = v := by
        unfold removeFirstIn
        rw [hvk]
      refine Or.inl ⟨hred, ?_⟩
      intro i m hki _ hvi
      have hlen : v.length ≤ k := by
        by_contra hc
        rw [List.getElem?_eq_getElem (Nat.lt_of_not_le hc)] at hvk
        cases hvk
      have : i < v.length := (List.getElem?_eq_some_iff.mp hvi).1
      omega
    | some m =>
      by_cases hcond : (!m.removed && relId == (stC.relationOfMeta m).id) = true
      · have hred : removeFirstIn stC relId v (fuel + 1) k
            = v.set k { m with removed := true } := by
          unfold removeFirstIn
          rw [hvk]
          show (if (!m.removed && relId == (stC.relationOfMeta m).id) = true then
              v.set k { m with removed := true }
            else removeFirstIn stC relId v fuel (k + 1)) = _
          rw [if_pos hcond]
        refine Or.inr ⟨k, m, le_refl k, by omega, hvk, hcond, hred, ?_⟩
        intro i mi h1 h2 _
        omega
      · have hcf : (!m.removed && relId == (stC.relationOfMeta m).id) = false :=
          Bool.eq_false_iff.mpr hcond
        have hred : removeFirstIn stC relId v (fuel + 1) k
            = removeFirstIn stC relId v fuel (k + 1) := by
          conv_lhs => unfold removeFirstIn
          rw [hvk]
          show (if (!m.removed && relId == (stC.relationOfMeta m).id) = true then
              v.set k { m with removed := true }
            else removeFirstIn stC relId v fuel (k + 1)) = _
          rw [if_neg hcond]
        rw [hred]
        rcases ih (k + 1) with ⟨hres, hwin⟩ | ⟨j, mj, hj1, hj2, hj3, hj4, hj5, hj6⟩
        · refine Or.inl ⟨hres, ?_⟩
          intro i mi hki hilt hvi
          by_cases hik : i = k
          · subst hik
            rw [hvi] at hvk
            cases hvk
            exact hcf
          · exact hwin i mi (by omega) (by omega) hvi
        · refine Or.inr ⟨j, mj, by omega, by omega, hj3, hj4, hj5, ?_⟩
          intro i mi hki hilt hvi
          by_cases hik : i = k
          · subst hik
            rw [hvi] at hvk
            cases hvk
            exact hcf
          · exact hj6 i mi (by omega) hilt hvi

theorem relationOfMeta_congr (a b : CollectorState) (hm : a.m_relations = b.m_relations)
    (hb : a.relations_buffer = b.relations_buffer) (m : MemberMeta) :
    a.relationOfMeta m = b.relationOfMeta m := by
  unfold CollectorState.relationOfMeta CollectorState.get_relation
  rw [hm, hb]

/-- The shape of one `clear_member_metas` iteration: zero-ref members
are skipped; otherwise the member's kind vector goes through
`removeFirstIn` (over a state differing from `s` at most in the members
arena) and everything else is untouched. -/
theorem clear_one_shape (rel : Obj) (s : CollectorState) (mem : Member) :
    ((mem.ref == 0) = true → clear_one rel s mem = s)
    ∧ ((mem.ref == 0) = false → ∃ stX : CollectorState,
        stX.m_relations = s.m_relations
        ∧ stX.relations_buffer = s.relations_buffer
        ∧ (∀ j : ItemKind, stX.member_meta j = s.member_meta j)
        ∧ ∀ j : ItemKind, (clear_one rel s mem).member_meta j
            = if j = mem.kind then
                removeFirstIn stX rel.id (s.member_meta mem.kind)
                  ((findRange (s.member_meta mem.kind) mem.ref).2
                    - (findRange (s.member_meta mem.kind) mem.ref).1)
                  (findRange (s.member_meta mem.kind) mem.ref).1
              else s.member_meta j) := by
  constructor
  · intro h0
    simp only [clear_one]
    rw [if_pos h0]
  · intro h0
    simp only [clear_one]
    rw [if_neg (by rw [h0]; exact Bool.false_ne_true)]
    split
    · split
      · rename_i off hoff
        refine ⟨{ s with members_buffer := markRemoved s.members_buffer off }, rfl, rfl,
          fun j => member_meta_membuf s _ j, fun j => ?_⟩
        rw [member_meta_setMM]
        by_cases hj : j = mem.kind
        · rw [if_pos hj, if_pos hj]
        · rw [if_neg hj, if_neg hj, member_meta_membuf]
      · refine ⟨s, rfl, rfl, fun j => rfl, fun j => ?_⟩
        rw [member_meta_setMM]
    · refine ⟨s, rfl, rfl, fun j => rfl, fun j => ?_⟩
      rw [member_meta_setMM]

/-- The effect of `clear_member_metas` for relation position `p` (ids
of distinct positions differ by `hSafe`): keys are preserved, metas of
other relations keep their flags, and afterwards no live meta of `p`
remains in any group. -/
theorem clear_fold_char
    (st0 : CollectorState) (hsort0 : ∀ j : ItemKind, mmSorted (st0.member_meta j))
    (p : Nat) (Fl : MemberMeta → Bool)
    (M1 : List RelationMeta)
    (hpOff : (M1.getD p {}).relation_offset = p)
    (hSafe : ∀ (j : ItemKind) (m0 : MemberMeta), m0 ∈ st0.member_meta j →
      m0.relation_pos ≠ p → Fl m0 = false →
      (st0.relations_buffer.getD ((M1.getD m0.relation_pos {}).relation_offset)
        defaultObj).id ≠ (st0.get_relation p).id) :
    ∀ (mems : List Member) (s : CollectorState),
      s.relations_buffer = st0.relations_buffer →
      s.m_relations = M1 →
      (∀ j : ItemKind, (s.member_meta j).length = (st0.member_meta j).length) →
      (∀ (j : ItemKind) (i : Nat) (m0 m : MemberMeta),
        (st0.member_meta j)[i]? = some m0 → (s.member_meta j)[i]? = some m →
        keyOf m = keyOf m0 ∧ (m0.relation_pos ≠ p → m.removed = Fl m0)) →
      (∀ (j : ItemKind) (id : Int),
        (s.member_meta j).countP
            (fun m => !m.removed && m.relation_pos == p && m.member_id == id)
          = mems.countP (fun mem => mem.ref != 0 && mem.kind == j && mem.ref == id)) →
      (mems.foldl (clear_one (st0.get_relation p)) s).relations_buffer = st0.relations_buffer
      ∧ (mems.foldl (clear_one (st0.get_relation p)) s).m_relations = M1
      ∧ (∀ j : ItemKind,
          ((mems.foldl (clear_one (st0.get_relation p)) s).member_meta j).length
            = (st0.member_meta j).length)
      ∧ (∀ (j : ItemKind) (i : Nat) (m0 m : MemberMeta),
          (st0.member_meta j)[i]? = some m0 →
          ((mems.foldl (clear_one (st0.get_relation p)) s).member_meta j)[i]? = some m →
          keyOf m = keyOf m0 ∧ (m0.relation_pos ≠ p → m.removed = Fl m0))
      ∧ (∀ (j : ItemKind) (id : Int),
          ((mems.foldl (clear_one (st0.get_relation p)) s).member_meta j).countP
            (fun m => !m.removed && m.relation_pos == p && m.member_id == id) = 0) := by
  intro mems
  induction mems with
  | nil =>
    intro s hb hm hlen hkey hcnt
    simp only [List.foldl_nil]
    refine ⟨hb, hm, hlen, hkey, ?_⟩
    intro j id
    rw [hcnt j id, List.countP_nil]
  | cons mem mems ih =>
    intro s hb hm hlen hkey hcnt
    rw [List.foldl_cons]
    obtain ⟨hz, hnz⟩ := clear_one_shape (st0.get_relation p) s mem
    by_cases h0 : (mem.ref == 0) = true
    · rw [hz h0]
      refine ih s hb hm hlen hkey ?_
      intro j id
      rw [hcnt j id, List.countP_cons]
      have hpz : ((mem.ref != 0 && mem.kind == j && mem.ref == id) : Bool) = false := by
        have : (mem.ref != 0) = false := by
          show (!(mem.ref == 0)) = false
          rw [h0]
          rfl
        rw [this]
        rfl
      rw [hpz]
      rfl
    · have h0f : (mem.ref == 0) = false := Bool.eq_false_iff.mpr h0
      obtain ⟨stX, hXm, hXb, hXmm, hXeq⟩ := hnz h0f
      have hbnet : (mem.ref != 0) = true := by
        show (!(mem.ref == 0)) = true
        rw [h0f]
        rfl
      set v := s.member_meta mem.kind with hv
      set r := findRange v mem.ref with hr
      have hlenv : v.length = (st0.member_meta mem.kind).length := hlen mem.kind
      have hsortv : mmSorted v :=
        mmSorted_of_keysStable
          ⟨hlen mem.kind, fun i a b ha hbx => (hkey mem.kind i a b ha hbx).1⟩
          (hsort0 mem.kind)
      have hrle := findRange_le v mem.ref
      rw [← hr] at hrle
      -- the match predicate characterization inside removeFirstIn
      have hrom : ∀ m : MemberMeta, stX.relationOfMeta m
          = st0.relations_buffer.getD ((M1.getD m.relation_pos {}).relation_offset)
            defaultObj := by
        intro m
        unfold CollectorState.relationOfMeta CollectorState.get_relation
        rw [hXm, hm, hXb, hb]
      have hmatch : ∀ (i : Nat) (m : MemberMeta), i < v.length → v[i]? = some m →
          ((!m.removed && (st0.get_relation p).id == (stX.relationOfMeta m).id) : Bool)
            = (!m.removed && m.relation_pos == p) := by
        intro i m hilt hvi
        have hi0 : (st0.member_meta mem.kind)[i]? = some (st0.member_meta mem.kind)[i] :=
          List.getElem?_eq_getElem (by omega)
        obtain ⟨hkeyi, hflagi⟩ := hkey mem.kind i _ m hi0 hvi
        have hrp : m.relation_pos = ((st0.member_meta mem.kind)[i]).relation_pos :=
          congrArg (fun q => q.2.1) hkeyi
        cases hrem : m.removed with
        | true => rfl
        | false =>
          simp only [Bool.not_false, Bool.true_and]
          by_cases hrpp : m.relation_pos = p
          · have hL : ((st0.get_relation p).id == (stX.relationOfMeta m).id) = true := by
              rw [hrom m, hrpp, hpOff, beq_iff_eq]
              rfl
            have hR : (m.relation_pos == p) = true := by
              rw [beq_iff_eq]
              exact hrpp
            rw [hL, hR]
          · have hi0lt : i < (st0.member_meta mem.kind).length := by omega
            have hmem0 : (st0.member_meta mem.kind)[i] ∈ st0.member_meta mem.kind :=
              List.getElem_mem hi0lt
            have hne := hSafe mem.kind _ hmem0
              (by rw [← hrp]; exact hrpp)
              (by rw [← hflagi (by rw [← hrp]; exact hrpp)]; exact hrem)
            have h1 : ((st0.get_relation p).id == (stX.relationOfMeta m).id) = false := by
              rw [hrom m, beq_eq_false_iff_ne, hrp]
              exact fun hc => hne hc.symm
            have h2 : (m.relation_pos == p) = false := by
              rw [beq_eq_false_iff_ne]
              exact hrpp
            rw [h1, h2]
      -- the group count at this member is positive, so the window has a hit
      have hgrp := hcnt mem.kind mem.ref
      have hselfP : ((mem.ref != 0 && mem.kind == mem.kind && mem.ref == mem.ref) : Bool)
          = true := by
        rw [hbnet, beq_self_eq_true, beq_self_eq_true]
        rfl
      have hpos : 0 < v.countP
          (fun m => !m.removed && m.relation_pos == p && m.member_id == mem.ref) := by
        rw [hgrp, List.countP_cons, hselfP]
        simp
      obtain ⟨mL, hmL, hmLP⟩ := List.countP_pos_iff.mp hpos
      obtain ⟨iL, hiL⟩ := List.mem_iff_getElem?.mp hmL
      have hiLlt : iL < v.length := (List.getElem?_eq_some_iff.mp hiL).1
      have hmLrem : mL.removed = false := by
        have := (Bool.and_eq_true _ _).mp ((Bool.and_eq_true _ _).mp hmLP).1
        cases hx : mL.removed
        · rfl
        · rw [hx] at this
          cases this.1
      have hmLrp : mL.relation_pos = p :=
        beq_iff_eq.mp ((Bool.and_eq_true _ _).mp ((Bool.and_eq_true _ _).mp hmLP).1).2
      have hmLid : mL.member_id = mem.ref :=
        beq_iff_eq.mp ((Bool.and_eq_true _ _).mp hmLP).2
      have hvL : v[iL] = mL := by
        rw [List.getElem?_eq_getElem hiLlt] at hiL
        cases hiL
        rfl
      have hwinL : r.1 ≤ iL ∧ iL < r.2 := by
        refine (range_index_iff v mem.ref hsortv iL hiLlt).mpr ?_
        rw [hvL]
        exact hmLid
      rcases removeFirstIn_spec stX (st0.get_relation p).id v (r.2 - r.1) r.1
        with ⟨_, hwin⟩ | ⟨jx, mjx, hjx1, hjx2, hjxv, hjxc, hjxres, _⟩
      · exfalso
        have := hwin iL mL hwinL.1 (by omega) hiL
        rw [hmatch iL mL hiLlt hiL] at this
        rw [hmLrem, hmLrp] at this
        simp at this
      · have hjxlt : jx < v.length := by omega
        have hjx0 : (st0.member_meta mem.kind)[jx]? = some (st0.member_meta mem.kind)[jx] :=
          List.getElem?_eq_getElem (by omega)
        obtain ⟨hkeyjx, hflagjx⟩ := hkey mem.kind jx _ mjx hjx0 hjxv
        have hcond2 := hjxc
        rw [hmatch jx mjx hjxlt hjxv] at hcond2
        have hjxrem : mjx.removed = false := by
          cases hx : mjx.removed
          · rfl
          · rw [hx] at hcond2
            cases hcond2
        have hjxrp : mjx.relation_pos = p := by
          rw [hjxrem] at hcond2
          simp only [Bool.not_false, Bool.true_and] at hcond2
          exact beq_iff_eq.mp hcond2
        have hjxid : mjx.member_id = mem.ref := by
          have hvjx : v[jx] = mjx := by
            rw [List.getElem?_eq_getElem hjxlt] at hjxv
            cases hjxv
            rfl
          have := (range_index_iff v mem.ref hsortv jx hjxlt).mp
            ⟨by rw [← hr]; exact hjx1, by rw [← hr]; omega⟩
          rw [hvjx] at this
          exact this
        have hvjxe : v[jx] = mjx := by
          rw [List.getElem?_eq_getElem hjxlt] at hjxv
          cases hjxv
          rfl
        -- the state after this clear_one call
        have hmm' : ∀ j : ItemKind, (clear_one (st0.get_relation p) s mem).member_meta j
            = if j = mem.kind then v.set jx { mjx with removed := true }
              else s.member_meta j := by
          intro j
          rw [hXeq j]
          by_cases hj : j = mem.kind
          · rw [if_pos hj, if_pos hj, hjxres]
          · rw [if_neg hj, if_neg hj]
        have hframe := clear_one_frame (st0.get_relation p) s mem
        refine ih (clear_one (st0.get_relation p) s mem) ?_ ?_ ?_ ?_ ?_
        · rw [hframe.2.2.2.1, hb]
        · rw [hframe.2.2.1, hm]
        · intro j
          rw [hmm' j]
          by_cases hj : j = mem.kind
          · rw [if_pos hj, List.length_set, hj]
            exact hlen mem.kind
          · rw [if_neg hj]
            exact hlen j
        · intro j i m0 m h0i h1i
          rw [hmm' j] at h1i
          by_cases hj : j = mem.kind
          · rw [if_pos hj] at h1i
            by_cases hij : jx = i
            · subst hij
              rw [List.getElem?_set, if_pos rfl, if_pos hjxlt] at h1i
              cases h1i
              subst hj
              rw [hjx0] at h0i
              cases h0i
              constructor
              · exact hkeyjx
              · intro hrpne
                exfalso
                apply hrpne
                have : mjx.relation_pos = ((st0.member_meta mem.kind)[jx]).relation_pos :=
                  congrArg (fun q => q.2.1) hkeyjx
                rw [← this]
                exact hjxrp
            · rw [List.getElem?_set, if_neg hij] at h1i
              subst hj
              exact hkey mem.kind i m0 m h0i h1i
          · rw [if_neg hj] at h1i
            exact hkey j i m0 m h0i h1i
        · intro j id
          rw [hmm' j]
          by_cases hj : j = mem.kind
          · subst hj
            rw [if_pos rfl]
            have hbase := hcnt mem.kind id
            rw [List.countP_cons] at hbase
            have hPm : ((mem.ref != 0 && mem.kind == mem.kind && mem.ref == id) : Bool)
                = (mem.ref == id) := by
              rw [hbnet, beq_self_eq_true]
              rfl
            rw [hPm] at hbase
            have hPold : ((!mjx.removed && mjx.relation_pos == p && mjx.member_id == id) :
                Bool) = (mem.ref == id) := by
              rw [hjxrem, hjxrp, hjxid, beq_self_eq_true]
              rfl
            have hPnew : ((!({ mjx with removed := true } : MemberMeta).removed
                && ({ mjx with removed := true } : MemberMeta).relation_pos == p
                && ({ mjx with removed := true } : MemberMeta).member_id == id) :
                Bool) = false := rfl
            rw [List.countP_set _ _ _ _ hjxlt]
            simp only [hvjxe, hPold, hPnew]
            rw [hbase]
            cases hcc : (mem.ref == id : Bool) <;> simp [hcc]
          · rw [if_neg hj, hcnt j id, List.countP_cons]
            have hPz : ((mem.ref != 0 && mem.kind == j && mem.ref == id) : Bool) = false := by
              have : (mem.kind == j) = false := by
                rw [beq_eq_false_iff_ne]
                exact fun hc => hj hc.symm
              rw [this, hbnet]
              rfl
            rw [hPz]
            rfl

/-- Pending decrements for relation `p` in the rest of the walk: metas
owned by `p` among the vector positions `[k, hi)`. -/
def cRem (v0 : List MemberMeta) (k hi p : Nat) : Nat :=
  (sliceOf v0 k hi).countP (fun m => m.relation_pos == p)

/-- The mid-walk `need_members` accounting: kept members still missing
from the stream plus pending decrements of the current walk. -/
def midNeed (tn tw tr : Bool) (st0 : CollectorState) (d2 : List Obj)
    (v0 : List MemberMeta) (k hi p : Nat) : Nat :=
  missingCount tn tw tr d2 (st0.get_relation p) + cRem v0 k hi p

theorem cRem_succ (v0 : List MemberMeta) (k hi p : Nat) (hk : k < hi)
    (hhi : hi ≤ v0.length) :
    cRem v0 k hi p = cRem v0 (k + 1) hi p
      + (if (v0.getD k mmDefault).relation_pos == p then 1 else 0) := by
  unfold cRem
  rw [sliceOf_eq_cons v0 k hi hk hhi, List.countP_cons]

theorem cRem_hi (v0 : List MemberMeta) (hi p : Nat) : cRem v0 hi hi p = 0 := by
  unfold cRem sliceOf
  rw [Nat.sub_self]
  rfl

/-- The walk invariant for `find_and_add_object`'s decrement loop. -/
structure MidInv (tn tw tr : Bool) (st0 : CollectorState) (d2 : List Obj)
    (kX : ItemKind) (hi : Nat) (k : Nat) (s : CollectorState) : Prop where
  rbuf : s.relations_buffer = st0.relations_buffer
  rlen : s.m_relations.length = st0.m_relations.length
  entry : ∀ p : Nat, p < st0.m_relations.length →
    s.m_relations[p]? = some (
      if midNeed tn tw tr st0 d2 (st0.member_meta kX) k hi p = 0 then {}
      else ⟨p, (midNeed tn tw tr st0 d2 (st0.member_meta kX) k hi p : Int)⟩)
  mlen : ∀ j : ItemKind, (s.member_meta j).length = (st0.member_meta j).length
  mkey : ∀ (j : ItemKind) (i : Nat) (m0 m : MemberMeta),
    (st0.member_meta j)[i]? = some m0 → (s.member_meta j)[i]? = some m →
    keyOf m = keyOf m0
    ∧ m.removed = decide (midNeed tn tw tr st0 d2 (st0.member_meta kX) k hi
        m0.relation_pos = 0)

theorem mem_of_getElem_some {α : Type} {l : List α} {i : Nat} {a : α}
    (h : l[i]? = some a) : a ∈ l := by
  obtain ⟨hlt, heq⟩ := List.getElem?_eq_some_iff.mp h
  rw [← heq]
  exact List.getElem_mem hlt

/-- The completion step of the walk: after the decrement at `k` zeroes
relation `p`'s counter, `doComplete` tombstones exactly `p`'s metas,
resets its entry, and possibly compacts — re-establishing the walk
invariant at `k + 1`. -/
theorem doComplete_c6 (tn tw tr : Bool) (st0 : CollectorState) (hg : Pass1Good st0)
    (d2 : List Obj) (kX : ItemKind) (hi : Nat)
    (k p : Nat) (hp : p < st0.m_relations.length)
    (s1 : CollectorState)
    (hfire : midNeed tn tw tr st0 d2 (st0.member_meta kX) (k + 1) hi p = 0)
    (hkpos : midNeed tn tw tr st0 d2 (st0.member_meta kX) k hi p ≠ 0)
    (hstep : ∀ q : Nat, q ≠ p →
      midNeed tn tw tr st0 d2 (st0.member_meta kX) k hi q
        = midNeed tn tw tr st0 d2 (st0.member_meta kX) (k + 1) hi q)
    (hrb : s1.relations_buffer = st0.relations_buffer)
    (hrlen : s1.m_relations.length = st0.m_relations.length)
    (hentry : ∀ q : Nat, q < st0.m_relations.length →
      s1.m_relations[q]? = some (
        if q = p then RelationMeta.mk p 0
        else if midNeed tn tw tr st0 d2 (st0.member_meta kX) (k + 1) hi q = 0 then {}
        else ⟨q, (midNeed tn tw tr st0 d2 (st0.member_meta kX) (k + 1) hi q : Int)⟩))
    (hmlen : ∀ j : ItemKind, (s1.member_meta j).length = (st0.member_meta j).length)
    (hmkey : ∀ (j : ItemKind) (i : Nat) (m0 m : MemberMeta),
      (st0.member_meta j)[i]? = some m0 → (s1.member_meta j)[i]? = some m →
      keyOf m = keyOf m0
      ∧ m.removed = decide (midNeed tn tw tr st0 d2 (st0.member_meta kX) k hi
          m0.relation_pos = 0)) :
    MidInv tn tw tr st0 d2 kX hi (k + 1) (doComplete s1 k p) := by
  have hrm : s1.m_relations.getD p {} = ⟨p, 0⟩ := by
    rw [List.getD_eq_getElem?_getD, hentry p hp, if_pos rfl]
    rfl
  set ev : Event := Event.complete k p
    ((s1.get_relation (s1.m_relations.getD p {}).relation_offset).id) with hev
  set st1 : CollectorState := { s1 with trace := s1.trace ++ [ev] } with hst1
  set st2 := clear_member_metas st1 (s1.m_relations.getD p {}) with hst2
  set st3 : CollectorState := { st2 with m_relations := st2.m_relations.set p {} } with hst3
  have hDC : doComplete s1 k p = possibly_purge_removed_members st3 := rfl
  rw [hDC]
  have h1b : st1.relations_buffer = st0.relations_buffer := hrb
  have h1m : st1.m_relations = s1.m_relations := rfl
  have h1mm : ∀ j : ItemKind, st1.member_meta j = s1.member_meta j :=
    fun j => member_meta_trace_update s1 _ j
  have hrel : st1.get_relation ((s1.m_relations.getD p {}).relation_offset)
      = st0.get_relation p := by
    rw [hrm]
    show st1.relations_buffer.getD p defaultObj = _
    rw [h1b]
    rfl
  have hclear : st2 = (st0.get_relation p).members.foldl
      (clear_one (st0.get_relation p)) st1 := by
    rw [hst2]
    simp only [clear_member_metas]
    rw [hrel]
  have hpOff : ((s1.m_relations).getD p {}).relation_offset = p := by
    rw [hrm]
  have hSafe : ∀ (j : ItemKind) (m0 : MemberMeta), m0 ∈ st0.member_meta j →
      m0.relation_pos ≠ p →
      (fun m0 : MemberMeta => decide (midNeed tn tw tr st0 d2 (st0.member_meta kX)
        (k + 1) hi m0.relation_pos = 0)) m0 = false →
      (st0.relations_buffer.getD ((s1.m_relations.getD m0.relation_pos {}).relation_offset)
        defaultObj).id ≠ (st0.get_relation p).id := by
    intro j m0 hm0 hne hfl
    have hq : m0.relation_pos < st0.m_relations.length := hg.valid j m0 hm0
    have hmid : midNeed tn tw tr st0 d2 (st0.member_meta kX) (k + 1) hi
        m0.relation_pos ≠ 0 := decide_eq_false_iff_not.mp hfl
    have hqm1 := hentry m0.relation_pos hq
    rw [if_neg hne, if_neg hmid] at hqm1
    have hoff : (s1.m_relations.getD m0.relation_pos {}).relation_offset
        = m0.relation_pos := by
      rw [List.getD_eq_getElem?_getD, hqm1]
      rfl
    rw [hoff]
    have hplen : p < st0.relations_buffer.length := by rw [← hg.rlen]; exact hp
    have hqlen : m0.relation_pos < st0.relations_buffer.length := by
      rw [← hg.rlen]
      exact hq
    have hids := List.pairwise_iff_getElem.mp hg.ids
    have e1 : st0.relations_buffer.getD m0.relation_pos defaultObj
        = st0.relations_buffer[m0.relation_pos] := List.getD_eq_getElem _ _ hqlen
    have e2 : st0.get_relation p = st0.relations_buffer[p] := by
      unfold CollectorState.get_relation
      exact List.getD_eq_getElem _ _ hplen
    rw [e1, e2]
    rcases Nat.lt_or_ge m0.relation_pos p with hlt | hge
    · exact hids m0.relation_pos p hqlen hplen hlt
    · have hgt : p < m0.relation_pos := by omega
      exact fun hc => (hids p m0.relation_pos hplen hqlen hgt) hc.symm
  have hflagp : decide (midNeed tn tw tr st0 d2 (st0.member_meta kX) k hi p = 0)
      = false := decide_eq_false_iff_not.mpr hkpos
  have hkey1 : ∀ (j : ItemKind) (i : Nat) (m0 m : MemberMeta),
      (st0.member_meta j)[i]? = some m0 → (st1.member_meta j)[i]? = some m →
      keyOf m = keyOf m0 ∧ (m0.relation_pos ≠ p →
        m.removed = (fun m0 : MemberMeta => decide (midNeed tn tw tr st0 d2
          (st0.member_meta kX) (k + 1) hi m0.relation_pos = 0)) m0) := by
    intro j i m0 m h0i h1i
    rw [h1mm j] at h1i
    obtain ⟨hk1, hk2⟩ := hmkey j i m0 m h0i h1i
    refine ⟨hk1, fun hne => ?_⟩
    rw [hk2, hstep m0.relation_pos hne]
  have hcnt1 : ∀ (j : ItemKind) (id : Int),
      (st1.member_meta j).countP
          (fun m => !m.removed && m.relation_pos == p && m.member_id == id)
        = (st0.get_relation p).members.countP
          (fun mem => mem.ref != 0 && mem.kind == j && mem.ref == id) := by
    intro j id
    have hpt : (st0.member_meta j).countP
          (fun m0 => m0.relation_pos == p && m0.member_id == id)
        = (st1.member_meta j).countP
          (fun m => !m.removed && m.relation_pos == p && m.member_id == id) := by
      refine countP_pointwise _ _ (st0.member_meta j) (st1.member_meta j)
        (by rw [h1mm j]; exact hmlen j) ?_
      intro i m0 m h0i h1i
      rw [h1mm j] at h1i
      obtain ⟨hk1, hk2⟩ := hmkey j i m0 m h0i h1i
      have hrp : m.relation_pos = m0.relation_pos := congrArg (fun q => q.2.1) hk1
      have hidm : m.member_id = m0.member_id := congrArg (fun q => q.1) hk1
      by_cases hrpp : m0.relation_pos = p
      · rw [hk2, hrpp, hflagp]
        rw [hrp, hidm, hrpp]
        rfl
      · have hbp : (m0.relation_pos == p) = false := by
          rw [beq_eq_false_iff_ne]
          exact hrpp
        rw [hrp]
        rw [hbp]
        simp
    rw [← hpt, hg.bij j p id]
    rw [keptRefs, List.countP_filter]
    apply List.countP_congr
    intro mem _
    cases h1 : (mem.ref != 0) <;> cases h2 : (mem.kind == j) <;>
      cases h3 : (mem.ref == id) <;> simp [h1, h2, h3]
  have hc := clear_fold_char st0 hg.sorted p
    (fun m0 : MemberMeta => decide (midNeed tn tw tr st0 d2 (st0.member_meta kX)
      (k + 1) hi m0.relation_pos = 0))
    s1.m_relations hpOff hSafe (st0.get_relation p).members st1 h1b rfl
    (fun j => by rw [h1mm j]; exact hmlen j) hkey1 hcnt1
  rw [← hclear] at hc
  obtain ⟨hc1, hc2, hc3, hc4, hc5⟩ := hc
  have h3mm : ∀ j : ItemKind, st3.member_meta j = st2.member_meta j :=
    fun j => member_meta_rels_update st2 _ j
  have h3flag : ∀ (j : ItemKind) (i : Nat) (m0 m : MemberMeta),
      (st0.member_meta j)[i]? = some m0 → (st3.member_meta j)[i]? = some m →
      keyOf m = keyOf m0
      ∧ m.removed = decide (midNeed tn tw tr st0 d2 (st0.member_meta kX) (k + 1) hi
          m0.relation_pos = 0) := by
    intro j i m0 m h0i h1i
    rw [h3mm j] at h1i
    obtain ⟨hk1, hk2⟩ := hc4 j i m0 m h0i h1i
    refine ⟨hk1, ?_⟩
    by_cases hrpp : m0.relation_pos = p
    · rw [hrpp, hfire]
      have hrp : m.relation_pos = m0.relation_pos := congrArg (fun q => q.2.1) hk1
      cases hrem : m.removed with
      | true => rfl
      | false =>
        exfalso
        have hpos2 : 0 < (st2.member_meta j).countP
            (fun mx => !mx.removed && mx.relation_pos == p && mx.member_id == m.member_id) := by
          rw [List.countP_pos_iff]
          refine ⟨m, mem_of_getElem_some h1i, ?_⟩
          rw [hrem, hrp, hrpp]
          simp
        rw [hc5 j m.member_id] at hpos2
        omega
    · rw [hk2 hrpp]
  have hPG : PointGood st0
      (fun m0 : MemberMeta => decide (midNeed tn tw tr st0 d2 (st0.member_meta kX)
        (k + 1) hi m0.relation_pos = 0)) st3 := by
    refine ⟨fun j => ?_, h3flag⟩
    rw [h3mm j]
    exact hc3 j
  have hpp := pointGood_possibly_purge hg.sorted st3 hPG
  have hframe := possibly_purge_frame st3
  have h3rels : st3.m_relations = s1.m_relations.set p {} := by
    rw [hst3]
    show st2.m_relations.set p {} = _
    rw [hc2]
  refine ⟨?_, ?_, ?_, ?_, ?_⟩
  · rw [hpp.2]
    show st2.relations_buffer = _
    exact hc1
  · rw [hframe.1, h3rels, List.length_set, hrlen]
  · intro q hq
    rw [hframe.1, h3rels, List.getElem?_set]
    by_cases hqp : p = q
    · subst hqp
      rw [if_pos rfl, if_pos (by rw [hrlen]; exact hp)]
      rw [if_pos (by rw [hfire])]
    · rw [if_neg hqp]
      rw [hentry q hq, if_neg (fun hc => hqp hc.symm)]
  · exact hpp.1.1
  · exact hpp.1.2

/-- The decrement walk preserves the walk invariant to the end of the
range: every visited meta is live (no `break` fires on clean input),
each visit decrements its owner, and completions are handled by
`doComplete_c6`. -/
theorem processLoop_c6 (tn tw tr : Bool) (st0 : CollectorState) (hg : Pass1Good st0)
    (d2 : List Obj) (kX : ItemKind) (hi : Nat)
    (hhi : hi ≤ (st0.member_meta kX).length) :
    ∀ (fuel k : Nat) (s : CollectorState), k + fuel = hi →
      MidInv tn tw tr st0 d2 kX hi k s →
      MidInv tn tw tr st0 d2 kX hi hi (processLoop kX hi fuel k s) := by
  intro fuel
  induction fuel with
  | zero =>
    intro k s hk hInv
    have hkhi : k = hi := by omega
    subst hkhi
    exact hInv
  | succ fuel ih =>
    intro k s hk hInv
    have hklt : k < hi := by omega
    have hklen0 : k < (st0.member_meta kX).length := by omega
    have hklen : k < (s.member_meta kX).length := by rw [hInv.mlen kX]; omega
    have h0k : (st0.member_meta kX)[k]? = some ((st0.member_meta kX)[k]) :=
      List.getElem?_eq_getElem hklen0
    have hmk : (s.member_meta kX)[k]? = some ((s.member_meta kX)[k]) :=
      List.getElem?_eq_getElem hklen
    obtain ⟨hkey, hflag⟩ := hInv.mkey kX k _ _ h0k hmk
    have hrp : ((s.member_meta kX)[k]).relation_pos
        = ((st0.member_meta kX)[k]).relation_pos := congrArg (fun q => q.2.1) hkey
    have hpN : ((st0.member_meta kX)[k]).relation_pos < st0.m_relations.length :=
      hg.valid kX _ (mem_of_getElem_some h0k)
    have hgetD : (st0.member_meta kX).getD k mmDefault = (st0.member_meta kX)[k] :=
      List.getD_eq_getElem _ _ hklen0
    have hcr : cRem (st0.member_meta kX) k hi ((st0.member_meta kX)[k]).relation_pos
        = cRem (st0.member_meta kX) (k + 1) hi
            ((st0.member_meta kX)[k]).relation_pos + 1 := by
      rw [cRem_succ _ k hi _ hklt hhi, hgetD, beq_self_eq_true, if_pos rfl]
    have hcrq : ∀ q : Nat, q ≠ ((st0.member_meta kX)[k]).relation_pos →
        midNeed tn tw tr st0 d2 (st0.member_meta kX) k hi q
          = midNeed tn tw tr st0 d2 (st0.member_meta kX) (k + 1) hi q := by
      intro q hq
      unfold midNeed
      congr 1
      rw [cRem_succ _ k hi q hklt hhi, hgetD]
      rw [show (((st0.member_meta kX)[k]).relation_pos == q) = false from by
        rw [beq_eq_false_iff_ne]
        exact fun hc => hq hc.symm]
      simp
    have hmidpos : midNeed tn tw tr st0 d2 (st0.member_meta kX) k hi
        ((st0.member_meta kX)[k]).relation_pos ≠ 0 := by
      unfold midNeed at *
      omega
    have hmrem : ((s.member_meta kX)[k]).removed = false :=
      hflag.trans (decide_eq_false_iff_not.mpr hmidpos)
    rw [processLoop_succ_notRemoved kX hi fuel k s _ hmk hmrem, hrp]
    have hentryP := hInv.entry _ hpN
    rw [if_neg hmidpos] at hentryP
    have hgetDp : s.m_relations.getD ((st0.member_meta kX)[k]).relation_pos {}
        = ⟨((st0.member_meta kX)[k]).relation_pos,
            (midNeed tn tw tr st0 d2 (st0.member_meta kX) k hi
              ((st0.member_meta kX)[k]).relation_pos : Int)⟩ := by
      rw [List.getD_eq_getElem?_getD, hentryP]
      rfl
    have hneedeq : ((midNeed tn tw tr st0 d2 (st0.member_meta kX) k hi
          ((st0.member_meta kX)[k]).relation_pos : Int) - 1)
        = (midNeed tn tw tr st0 d2 (st0.member_meta kX) (k + 1) hi
            ((st0.member_meta kX)[k]).relation_pos : Int) := by
      have h1 : midNeed tn tw tr st0 d2 (st0.member_meta kX) k hi
            ((st0.member_meta kX)[k]).relation_pos
          = midNeed tn tw tr st0 d2 (st0.member_meta kX) (k + 1) hi
              ((st0.member_meta kX)[k]).relation_pos + 1 := by
        unfold midNeed at *
        omega
      rw [h1]
      push_cast
      ring
    have hdecM : ∀ j : ItemKind,
        (decrementAt s ((st0.member_meta kX)[k]).relation_pos).member_meta j
          = s.member_meta j :=
      fun j => decrementAt_member_meta s _ j
    have hdecEntry : ∀ q : Nat, q < st0.m_relations.length →
        (decrementAt s ((st0.member_meta kX)[k]).relation_pos).m_relations[q]? = some (
          if q = ((st0.member_meta kX)[k]).relation_pos then
            RelationMeta.mk ((st0.member_meta kX)[k]).relation_pos
              (midNeed tn tw tr st0 d2 (st0.member_meta kX) (k + 1) hi
                ((st0.member_meta kX)[k]).relation_pos : Int)
          else if midNeed tn tw tr st0 d2 (st0.member_meta kX) k hi q = 0 then {}
          else ⟨q, (midNeed tn tw tr st0 d2 (st0.member_meta kX) k hi q : Int)⟩) := by
      intro q hq
      show (s.m_relations.set ((st0.member_meta kX)[k]).relation_pos _)[q]? = _
      rw [List.getElem?_set]
      by_cases hqp : ((st0.member_meta kX)[k]).relation_pos = q
      · rw [if_pos hqp, if_pos (by rw [hInv.rlen]; exact hpN),
          if_pos hqp.symm]
        rw [hgetDp]
        rw [show ((⟨((st0.member_meta kX)[k]).relation_pos,
            (midNeed tn tw tr st0 d2 (st0.member_meta kX) k hi
              ((st0.member_meta kX)[k]).relation_pos : Int)⟩ : RelationMeta).need_members - 1)
          = (midNeed tn tw tr st0 d2 (st0.member_meta kX) (k + 1) hi
              ((st0.member_meta kX)[k]).relation_pos : Int) from hneedeq]
      · rw [if_neg hqp, if_neg (fun hc => hqp hc.symm)]
        exact hInv.entry q hq
    have hdecFlags : ∀ (j : ItemKind) (i : Nat) (m0 m : MemberMeta),
        (st0.member_meta j)[i]? = some m0 →
        ((decrementAt s ((st0.member_meta kX)[k]).relation_pos).member_meta j)[i]?
          = some m →
        keyOf m = keyOf m0
        ∧ m.removed = decide (midNeed tn tw tr st0 d2 (st0.member_meta kX) k hi
            m0.relation_pos = 0) := by
      intro j i m0 m h0i h1i
      rw [hdecM j] at h1i
      exact hInv.mkey j i m0 m h0i h1i
    by_cases hfire : midNeed tn tw tr st0 d2 (st0.member_meta kX) (k + 1) hi
        ((st0.member_meta kX)[k]).relation_pos = 0
    · have hcond : ((({ s.m_relations.getD ((st0.member_meta kX)[k]).relation_pos {} with
          need_members := (s.m_relations.getD
            ((st0.member_meta kX)[k]).relation_pos {}).need_members - 1 } :
          RelationMeta).has_all_members) : Bool) = true := by
        rw [RelationMeta.has_all_members]
        show (((s.m_relations.getD ((st0.member_meta kX)[k]).relation_pos {}).need_members
          - 1) == 0) = true
        rw [hgetDp]
        show ((midNeed tn tw tr st0 d2 (st0.member_meta kX) k hi
            ((st0.member_meta kX)[k]).relation_pos : Int) - 1 == 0) = true
        rw [hneedeq, hfire]
        rfl
      have hbody : loopBody s k ((st0.member_meta kX)[k]).relation_pos
          = doComplete (decrementAt s ((st0.member_meta kX)[k]).relation_pos) k
              ((st0.member_meta kX)[k]).relation_pos := by
        simp only [loopBody]
        rw [if_pos hcond]
      rw [hbody]
      refine ih (k + 1) _ (by omega) ?_
      refine doComplete_c6 tn tw tr st0 hg d2 kX hi k
        ((st0.member_meta kX)[k]).relation_pos hpN _ hfire hmidpos hcrq
        hInv.rbuf (by rw [show (decrementAt s ((st0.member_meta kX)[k]).relation_pos).m_relations
          = s.m_relations.set ((st0.member_meta kX)[k]).relation_pos _ from rfl,
          List.length_set]; exact hInv.rlen) ?_ ?_ hdecFlags
      · intro q hq
        rw [hdecEntry q hq]
        by_cases hqp : q = ((st0.member_meta kX)[k]).relation_pos
        · rw [if_pos hqp, if_pos hqp]
          subst hqp
          rw [hfire]
          rfl
        · rw [if_neg hqp, if_neg hqp, hcrq q hqp]
      · intro j
        rw [hdecM j]
        exact hInv.mlen j
    · have hcond : ((((s.m_relations.getD ((st0.member_meta kX)[k]).relation_pos
          {}).need_members - 1) == 0) : Bool) = false := by
        rw [hgetDp]
        show ((midNeed tn tw tr st0 d2 (st0.member_meta kX) k hi
            ((st0.member_meta kX)[k]).relation_pos : Int) - 1 == 0) = false
        rw [hneedeq, beq_eq_false_iff_ne]
        exact Int.natCast_ne_zero.mpr hfire
      rw [loopBody_noFire s k ((st0.member_meta kX)[k]).relation_pos hcond]
      refine ih (k + 1) _ (by omega) ?_
      refine ⟨hInv.rbuf, ?_, ?_, ?_, ?_⟩
      · rw [show (decrementAt s ((st0.member_meta kX)[k]).relation_pos).m_relations
          = s.m_relations.set ((st0.member_meta kX)[k]).relation_pos _ from rfl,
          List.length_set]
        exact hInv.rlen
      · intro q hq
        rw [hdecEntry q hq]
        by_cases hqp : q = ((st0.member_meta kX)[k]).relation_pos
        · rw [if_pos hqp, if_neg (by rw [hqp]; exact hfire)]
          subst hqp
          rfl
        · rw [if_neg hqp, hcrq q hqp]
      · intro j
        rw [hdecM j]
        exact hInv.mlen j
      · intro j i m0 m h0i h1i
        obtain ⟨hk1, hk2⟩ := hdecFlags j i m0 m h0i h1i
        refine ⟨hk1, ?_⟩
        by_cases hrpp : m0.relation_pos = ((st0.member_meta kX)[k]).relation_pos
        · rw [hk2, hrpp, decide_eq_false_iff_not.mpr hmidpos,
            decide_eq_false_iff_not.mpr hfire]
        · rw [hk2, hcrq m0.relation_pos hrpp]

theorem arrived_append (tn tw tr : Bool) (done : List Obj) (X : Obj) (k : ItemKind)
    (id : Int) :
    arrived tn tw tr (done ++ [X]) k id
      = (arrived tn tw tr done k id
          || (kindEnabled tn tw tr X.kind && X.kind == k && X.id == id)) := by
  unfold arrived
  rw [List.any_append]
  congr 1
  simp [List.any_cons]

theorem missing_ext_disabled (tn tw tr : Bool) (done : List Obj) (X : Obj)
    (henb : kindEnabled tn tw tr X.kind = false) (rel : Obj) :
    missingCount tn tw tr (done ++ [X]) rel = missingCount tn tw tr done rel := by
  unfold missingCount
  apply List.countP_congr
  intro mem _
  rw [arrived_append, henb]
  simp

theorem missing_split (tn tw tr : Bool) (done : List Obj) (X : Obj) (rel : Obj)
    (henb : kindEnabled tn tw tr X.kind = true)
    (hfresh : arrived tn tw tr done X.kind X.id = false) :
    missingCount tn tw tr done rel
      = missingCount tn tw tr (done ++ [X]) rel
        + (keptRefs rel).countP (fun mem => mem.kind == X.kind && mem.ref == X.id) := by
  unfold missingCount
  have etrue : (if (!(true : Bool)) = true then (1 : Nat) else 0) = 0 := rfl
  have efalse : (if (!(false : Bool)) = true then (1 : Nat) else 0) = 1 := rfl
  have eone : (if (true : Bool) = true then (1 : Nat) else 0) = 1 := rfl
  have ezero : (if (false : Bool) = true then (1 : Nat) else 0) = 0 := rfl
  induction keptRefs rel with
  | nil => rfl
  | cons mem l ih =>
    rw [List.countP_cons, List.countP_cons, List.countP_cons, ih]
    by_cases hmatch : (mem.kind == X.kind && mem.ref == X.id) = true
    · have hk := beq_iff_eq.mp ((Bool.and_eq_true _ _).mp hmatch).1
      have hr := beq_iff_eq.mp ((Bool.and_eq_true _ _).mp hmatch).2
      have h1 : arrived tn tw tr done mem.kind mem.ref = false := by
        rw [hk, hr]
        exact hfresh
      have h2 : arrived tn tw tr (done ++ [X]) mem.kind mem.ref = true := by
        rw [arrived_append, hk, hr, henb]
        simp
      rw [h1, h2, hmatch, etrue, efalse, eone]
      omega
    · have hmf : (mem.kind == X.kind && mem.ref == X.id) = false :=
        Bool.eq_false_iff.mpr hmatch
      have h2 : arrived tn tw tr (done ++ [X]) mem.kind mem.ref
          = arrived tn tw tr done mem.kind mem.ref := by
        rw [arrived_append]
        have hd : (kindEnabled tn tw tr X.kind && X.kind == mem.kind
            && X.id == mem.ref) = false := by
          cases hkk : (X.kind == mem.kind) with
          | false =>
            rw [henb]
            rfl
          | true =>
            cases hii : (X.id == mem.ref) with
            | false =>
              rw [henb]
              rfl
            | true =>
              exfalso
              have h3 : (mem.kind == X.kind) = true := by
                rw [beq_iff_eq]
                exact (beq_iff_eq.mp hkk).symm
              have h4 : (mem.ref == X.id) = true := by
                rw [beq_iff_eq]
                exact (beq_iff_eq.mp hii).symm
              rw [h3, h4] at hmf
              cases hmf
        rw [hd]
        simp
      rw [h2, hmf, ezero]
      omega

/-- The metas matching `(X.kind, X.id)` and owned by `p` are exactly the
pending decrements of the whole equal-range. -/
theorem cRem_range (st0 : CollectorState) (hg : Pass1Good st0) (X : Obj) (p : Nat) :
    cRem (st0.member_meta X.kind) (findRange (st0.member_meta X.kind) X.id).1
      (findRange (st0.member_meta X.kind) X.id).2 p
      = (keptRefs (st0.get_relation p)).countP
          (fun mem => mem.kind == X.kind && mem.ref == X.id) := by
  unfold cRem
  rw [sliceOf_sorted X.id (st0.member_meta X.kind) (hg.sorted X.kind), List.countP_filter]
  rw [← hg.bij X.kind p X.id]

theorem missing_to_midNeed (tn tw tr : Bool) (st0 : CollectorState) (hg : Pass1Good st0)
    (done : List Obj) (X : Obj)
    (henb : kindEnabled tn tw tr X.kind = true)
    (hfresh : arrived tn tw tr done X.kind X.id = false) (p : Nat) :
    missingCount tn tw tr done (st0.get_relation p)
      = midNeed tn tw tr st0 (done ++ [X]) (st0.member_meta X.kind)
          (findRange (st0.member_meta X.kind) X.id).1
          (findRange (st0.member_meta X.kind) X.id).2 p := by
  unfold midNeed
  rw [cRem_range st0 hg X p]
  exact missing_split tn tw tr done X (st0.get_relation p) henb hfresh

theorem handle_pass2_eq (tn tw tr : Bool) (st : CollectorState) (obj : Obj) :
    handle_pass2 tn tw tr st obj
      = if kindEnabled tn tw tr obj.kind = true then
          (if (find_and_add_object st obj).2 = true then (find_and_add_object st obj).1
           else { (find_and_add_object st obj).1 with
             trace := (find_and_add_object st obj).1.trace
               ++ [Event.notInAny obj.kind obj.id] })
        else st := rfl

/-- One fresh enabled delivery preserves the pass-2 invariant. -/
theorem handle_pass2_c6 (tn tw tr : Bool) (st0 : CollectorState) (hg : Pass1Good st0)
    (done : List Obj) (st : CollectorState) (hInv : C6Inv tn tw tr st0 done st)
    (X : Obj) (hfresh : arrived tn tw tr done X.kind X.id = false) :
    C6Inv tn tw tr st0 (done ++ [X]) (handle_pass2 tn tw tr st X) := by
  by_cases henb : kindEnabled tn tw tr X.kind = true
  case neg =>
    have henbf : kindEnabled tn tw tr X.kind = false := Bool.eq_false_iff.mpr henb
    rw [handle_pass2_eq, if_neg henb]
    refine ⟨hInv.rbuf, hInv.rlen, ?_, hInv.mlen, ?_⟩
    · intro p hp
      rw [missing_ext_disabled tn tw tr done X henbf]
      exact hInv.entry p hp
    · intro j i m0 m h0 h1
      obtain ⟨k1, k2⟩ := hInv.mkey j i m0 m h0 h1
      refine ⟨k1, ?_⟩
      rw [missing_ext_disabled tn tw tr done X henbf]
      exact k2
  case pos =>
    have hmlenX : (st.member_meta X.kind).length = (st0.member_meta X.kind).length :=
      hInv.mlen X.kind
    have hkeysX : ∀ (i : Nat) (m0 m : MemberMeta),
        (st0.member_meta X.kind)[i]? = some m0 →
        (st.member_meta X.kind)[i]? = some m → keyOf m = keyOf m0 :=
      fun i m0 m h0 h1 => (hInv.mkey X.kind i m0 m h0 h1).1
    have hrangeEq : findRange (st.member_meta X.kind) X.id
        = findRange (st0.member_meta X.kind) X.id :=
      findRange_eq_of_keys (st0.member_meta X.kind) (st.member_meta X.kind) hmlenX
        hkeysX X.id
    have hrle0 := findRange_le (st0.member_meta X.kind) X.id
    -- any relation with a kept member matching X is not yet complete
    have hmiss_pos : ∀ p : Nat,
        0 < (keptRefs (st0.get_relation p)).countP
            (fun mem => mem.kind == X.kind && mem.ref == X.id) →
        missingCount tn tw tr done (st0.get_relation p) ≠ 0 := by
      intro p hpos hc
      unfold missingCount at hc
      rw [List.countP_eq_zero] at hc
      obtain ⟨kmem, hkm, hkP⟩ := List.countP_pos_iff.mp hpos
      have hkk := beq_iff_eq.mp ((Bool.and_eq_true _ _).mp hkP).1
      have hkr := beq_iff_eq.mp ((Bool.and_eq_true _ _).mp hkP).2
      apply hc kmem hkm
      rw [hkk, hkr, hfresh]
      rfl
    -- every meta in the equal-range is live
    have hlive : ∀ (i : Nat) (m : MemberMeta),
        (findRange (st0.member_meta X.kind) X.id).1 ≤ i →
        i < (findRange (st0.member_meta X.kind) X.id).2 →
        (st.member_meta X.kind)[i]? = some m → m.removed = false := by
      intro i m h1 h2 hv
      have hilt : i < (st0.member_meta X.kind).length := by omega
      have h0i : (st0.member_meta X.kind)[i]? = some ((st0.member_meta X.kind)[i]) :=
        List.getElem?_eq_getElem hilt
      obtain ⟨k1, k2⟩ := hInv.mkey X.kind i _ m h0i hv
      have hm0id : ((st0.member_meta X.kind)[i]).member_id = X.id :=
        (range_index_iff (st0.member_meta X.kind) X.id (hg.sorted X.kind) i hilt).mp
          ⟨h1, h2⟩
      have hposm : 0 < (st0.member_meta X.kind).countP
          (fun mm => mm.relation_pos == ((st0.member_meta X.kind)[i]).relation_pos
            && mm.member_id == X.id) := by
        rw [List.countP_pos_iff]
        refine ⟨(st0.member_meta X.kind)[i], List.getElem_mem hilt, ?_⟩
        rw [beq_self_eq_true, Bool.true_and, beq_iff_eq]
        exact hm0id
      rw [hg.bij X.kind _ X.id] at hposm
      have := hmiss_pos _ hposm
      rw [k2, decide_eq_false_iff_not.mpr this]
    by_cases hner : (findRange (st0.member_meta X.kind) X.id).1
        < (findRange (st0.member_meta X.kind) X.id).2
    case neg =>
      -- empty range: the object matches nothing and is rejected
      have hcnt0 : count_not_removed (st.member_meta X.kind)
          (findRange (st.member_meta X.kind) X.id).1
          (findRange (st.member_meta X.kind) X.id).2 = 0 := by
        rw [hrangeEq]
        unfold count_not_removed sliceOf
        rw [show (findRange (st0.member_meta X.kind) X.id).2
            - (findRange (st0.member_meta X.kind) X.id).1 = 0 from by omega]
        rfl
      have hfa : find_and_add_object st X = (st, false) := by
        simp only [find_and_add_object]
        rw [if_pos (by rw [hcnt0]; rfl)]
      rw [handle_pass2_eq, if_pos henb, hfa,
        if_neg (fun hc : ((st, false) : CollectorState × Bool).2 = true =>
          Bool.false_ne_true hc)]
      have hXK0 : ∀ p : Nat, (keptRefs (st0.get_relation p)).countP
          (fun mem => mem.kind == X.kind && mem.ref == X.id) = 0 := by
        intro p
        by_contra hc
        have hpos : 0 < (keptRefs (st0.get_relation p)).countP
            (fun mem => mem.kind == X.kind && mem.ref == X.id) := Nat.pos_of_ne_zero hc
        rw [← hg.bij X.kind p X.id] at hpos
        obtain ⟨m0, hm0, hP⟩ := List.countP_pos_iff.mp hpos
        obtain ⟨i, hi⟩ := List.mem_iff_getElem?.mp hm0
        have hilt : i < (st0.member_meta X.kind).length :=
          (List.getElem?_eq_some_iff.mp hi).1
        have hm0e : (st0.member_meta X.kind)[i] = m0 := by
          rw [List.getElem?_eq_getElem hilt] at hi
          cases hi
          rfl
        have hid : m0.member_id = X.id := beq_iff_eq.mp ((Bool.and_eq_true _ _).mp hP).2
        have hin := (range_index_iff (st0.member_meta X.kind) X.id (hg.sorted X.kind)
          i hilt).mpr (by rw [hm0e]; exact hid)
        omega
      have hmiss' : ∀ p : Nat, missingCount tn tw tr (done ++ [X]) (st0.get_relation p)
          = missingCount tn tw tr done (st0.get_relation p) := by
        intro p
        have := missing_split tn tw tr done X (st0.get_relation p) henb hfresh
        rw [hXK0 p] at this
        omega
      refine ⟨hInv.rbuf, hInv.rlen, ?_, ?_, ?_⟩
      · intro p hp
        rw [hmiss' p]
        exact hInv.entry p hp
      · intro j
        rw [member_meta_trace_update]
        exact hInv.mlen j
      · intro j i m0 m h0 h1
        rw [member_meta_trace_update] at h1
        obtain ⟨k1, k2⟩ := hInv.mkey j i m0 m h0 h1
        refine ⟨k1, ?_⟩
        rw [hmiss' m0.relation_pos]
        exact k2
    case pos =>
      -- nonempty range: accepted; offsets set, then the decrement walk
      have hsortv : mmSorted (st.member_meta X.kind) :=
        mmSorted_of_keysStable ⟨hmlenX, hkeysX⟩ (hg.sorted X.kind)
      have hupd := updateRange_sorted X.id
        (fun m => { m with buffer_offset := some st.members_buffer.length })
        (st.member_meta X.kind) hsortv
      rw [hrangeEq] at hupd
      have hcnR : count_not_removed (st.member_meta X.kind)
          (findRange (st.member_meta X.kind) X.id).1
          (findRange (st.member_meta X.kind) X.id).2
          = (findRange (st0.member_meta X.kind) X.id).2
            - (findRange (st0.member_meta X.kind) X.id).1 := by
        rw [hrangeEq]
        unfold count_not_removed
        rw [List.countP_eq_length.mpr, sliceOf_length]
        · omega
        · rw [hmlenX]
          omega
        · intro m hm
          obtain ⟨j, hj⟩ := List.mem_iff_getElem?.mp hm
          have hjlt : j < (findRange (st0.member_meta X.kind) X.id).2
              - (findRange (st0.member_meta X.kind) X.id).1 := by
            have := (List.getElem?_eq_some_iff.mp hj).1
            have hsl : (sliceOf (st.member_meta X.kind)
                (findRange (st0.member_meta X.kind) X.id).1
                (findRange (st0.member_meta X.kind) X.id).2).length
                = (findRange (st0.member_meta X.kind) X.id).2
                  - (findRange (st0.member_meta X.kind) X.id).1 := by
              apply sliceOf_length
              · omega
              · rw [hmlenX]
                omega
            omega
          rw [sliceOf_getElem _ _ _ j hjlt] at hj
          have hrem := hlive ((findRange (st0.member_meta X.kind) X.id).1 + j) m
            (by omega) (by omega) hj
          rw [hrem]
          rfl
      have hcne0 : ((count_not_removed (st.member_meta X.kind)
          (findRange (st.member_meta X.kind) X.id).1
          (findRange (st.member_meta X.kind) X.id).2 == 0)) = false := by
        rw [hcnR, beq_eq_false_iff_ne]
        omega
      have hfa : find_and_add_object st X
          = (processLoop X.kind (findRange (st.member_meta X.kind) X.id).2
              ((findRange (st.member_meta X.kind) X.id).2
                - (findRange (st.member_meta X.kind) X.id).1)
              (findRange (st.member_meta X.kind) X.id).1
              (({ st with members_buffer := st.members_buffer ++ [(X, false)] }
                : CollectorState).setMM X.kind
                (updateRange (st.member_meta X.kind)
                  (findRange (st.member_meta X.kind) X.id).1
                  (findRange (st.member_meta X.kind) X.id).2
                  (fun m => { m with buffer_offset := some st.members_buffer.length }))),
            true) := by
        simp only [find_and_add_object]
        rw [if_neg (by rw [hcne0]; exact Bool.false_ne_true)]
      rw [handle_pass2_eq, if_pos henb, hfa, if_pos rfl]
      show C6Inv tn tw tr st0 (done ++ [X])
        (processLoop X.kind (findRange (st.member_meta X.kind) X.id).2
          ((findRange (st.member_meta X.kind) X.id).2
            - (findRange (st.member_meta X.kind) X.id).1)
          (findRange (st.member_meta X.kind) X.id).1
          (({ st with members_buffer := st.members_buffer ++ [(X, false)] }
            : CollectorState).setMM X.kind
            (updateRange (st.member_meta X.kind)
              (findRange (st.member_meta X.kind) X.id).1
              (findRange (st.member_meta X.kind) X.id).2
              (fun m => { m with buffer_offset := some st.members_buffer.length }))))
      rw [hrangeEq, hupd]
      have hmn := missing_to_midNeed tn tw tr st0 hg done X henb hfresh
      have hmid : MidInv tn tw tr st0 (done ++ [X]) X.kind
          (findRange (st0.member_meta X.kind) X.id).2
          (findRange (st0.member_meta X.kind) X.id).1
          (({ st with members_buffer := st.members_buffer ++ [(X, false)] }
            : CollectorState).setMM X.kind
            ((st.member_meta X.kind).map (fun m =>
              if m.member_id = X.id then
                { m with buffer_offset := some st.members_buffer.length } else m))) := by
        refine ⟨?_, ?_, ?_, ?_, ?_⟩
        · rw [setMM_relations_buffer]
          exact hInv.rbuf
        · rw [setMM_rels]
          exact hInv.rlen
        · intro p hp
          rw [setMM_rels]
          show st.m_relations[p]? = _
          rw [hInv.entry p hp, hmn p]
        · intro j
          rw [member_meta_setMM]
          by_cases hj : j = X.kind
          · rw [if_pos hj, List.length_map, hj]
            exact hInv.mlen X.kind
          · rw [if_neg hj, member_meta_membuf]
            exact hInv.mlen j
        · intro j i m0 m h0 h1
          rw [member_meta_setMM] at h1
          by_cases hj : j = X.kind
          · rw [if_pos hj, List.getElem?_map] at h1
            cases h2 : (st.member_meta X.kind)[i]? with
            | none => rw [h2] at h1; cases h1
            | some mx =>
              rw [h2] at h1
              have hbase := hInv.mkey j i m0 mx h0 (by rw [hj]; exact h2)
              cases h1
              have hflg : mx.removed = decide (midNeed tn tw tr st0 (done ++ [X])
                  (st0.member_meta X.kind) (findRange (st0.member_meta X.kind) X.id).1
                  (findRange (st0.member_meta X.kind) X.id).2 m0.relation_pos = 0) := by
                rw [hbase.2, hmn m0.relation_pos]
              by_cases hxid : mx.member_id = X.id
              · simp only [if_pos hxid]
                exact ⟨hbase.1, hflg⟩
              · simp only [if_neg hxid]
                exact ⟨hbase.1, hflg⟩
          · rw [if_neg hj, member_meta_membuf] at h1
            have hbase := hInv.mkey j i m0 m h0 h1
            refine ⟨hbase.1, ?_⟩
            rw [hbase.2, hmn m0.relation_pos]
      have hloop := processLoop_c6 tn tw tr st0 hg (done ++ [X]) X.kind
        (findRange (st0.member_meta X.kind) X.id).2 hrle0.2
        ((findRange (st0.member_meta X.kind) X.id).2
          - (findRange (st0.member_meta X.kind) X.id).1)
        (findRange (st0.member_meta X.kind) X.id).1 _ (by omega) hmid
      have hmn2 : ∀ q : Nat, midNeed tn tw tr st0 (done ++ [X]) (st0.member_meta X.kind)
          (findRange (st0.member_meta X.kind) X.id).2
          (findRange (st0.member_meta X.kind) X.id).2 q
          = missingCount tn tw tr (done ++ [X]) (st0.get_relation q) := by
        intro q
        unfold midNeed
        rw [cRem_hi, Nat.add_zero]
      refine ⟨hloop.rbuf, hloop.rlen, ?_, hloop.mlen, ?_⟩
      · intro p hp
        have := hloop.entry p hp
        rw [hmn2 p] at this
        exact this
      · intro j i m0 m h0 h1
        obtain ⟨k1, k2⟩ := hloop.mkey j i m0 m h0 h1
        refine ⟨k1, ?_⟩
        rw [hmn2 m0.relation_pos] at k2
        exact k2

theorem c6_base (tn tw tr : Bool) (st0 : CollectorState) (hg : Pass1Good st0) :
    C6Inv tn tw tr st0 [] st0 := by
  have hmiss : ∀ p : Nat, missingCount tn tw tr [] (st0.get_relation p)
      = (keptRefs (st0.get_relation p)).length := by
    intro p
    unfold missingCount
    rw [List.countP_eq_length]
    intro mem _
    rfl
  refine ⟨rfl, rfl, ?_, fun j => rfl, ?_⟩
  · intro p hp
    have hsome : st0.m_relations[p]? = some (st0.m_relations[p]) :=
      List.getElem?_eq_getElem hp
    obtain ⟨e1, e2, e3⟩ := hg.entry p _ hsome
    rw [hsome]
    rw [if_neg (by rw [hmiss p]; omega)]
    have heta : st0.m_relations[p] = RelationMeta.mk (st0.m_relations[p]).relation_offset
        (st0.m_relations[p]).need_members := rfl
    rw [heta, e1, e2, hmiss p]
  · intro j i m0 m h0 h1
    rw [h0] at h1
    cases h1
    refine ⟨rfl, ?_⟩
    have hrp : m0.relation_pos < st0.m_relations.length :=
      hg.valid j m0 (mem_of_getElem_some h0)
    have hsome : st0.m_relations[m0.relation_pos]?
        = some (st0.m_relations[m0.relation_pos]) := List.getElem?_eq_getElem hrp
    obtain ⟨_, _, e3⟩ := hg.entry _ _ hsome
    rw [hg.flags j m0 (mem_of_getElem_some h0)]
    exact (decide_eq_false_iff_not.mpr (by rw [hmiss m0.relation_pos]; omega)).symm

theorem pass2_fold_c6 (tn tw tr : Bool) (st0 : CollectorState) (hg : Pass1Good st0) :
    ∀ (rest done : List Obj) (st : CollectorState),
      (done ++ rest).Pairwise (fun a b => ¬(a.kind = b.kind ∧ a.id = b.id)) →
      C6Inv tn tw tr st0 done st →
      C6Inv tn tw tr st0 (done ++ rest) (rest.foldl (handle_pass2 tn tw tr) st) := by
  intro rest
  induction rest with
  | nil =>
    intro done st _ hInv
    rw [List.append_nil]
    exact hInv
  | cons X rest ih =>
    intro done st hpw hInv
    rw [List.foldl_cons]
    have hfresh : arrived tn tw tr done X.kind X.id = false := by
      unfold arrived
      rw [List.any_eq_false]
      intro o ho
      have hrel : ¬(o.kind = X.kind ∧ o.id = X.id) :=
        (List.pairwise_append.mp hpw).2.2 o ho X (List.mem_cons_self X rest)
      intro hP
      have h1 := ((Bool.and_eq_true _ _).mp hP).1
      have h2 := ((Bool.and_eq_true _ _).mp hP).2
      have h1b := ((Bool.and_eq_true _ _).mp h1).2
      exact hrel ⟨beq_iff_eq.mp h1b, beq_iff_eq.mp h2⟩
    have hstep := handle_pass2_c6 tn tw tr st0 hg done st hInv X hfresh
    have hpw2 : ((done ++ [X]) ++ rest).Pairwise
        (fun a b => ¬(a.kind = b.kind ∧ a.id = b.id)) := by
      rw [List.append_assoc, List.singleton_append]
      exact hpw
    have hres := ih (done ++ [X]) _ hpw2 hstep
    rw [List.append_assoc, List.singleton_append] at hres
    exact hres

theorem filterMap_pointwise {α β γ : Type} (p1 : α → Bool) (p2 : β → Bool)
    (f1 : α → γ) (f2 : β → γ) :
    ∀ (l1 : List α) (l2 : List β), l1.length = l2.length →
      (∀ (i : Nat) (x1 : α) (x2 : β), l1[i]? = some x1 → l2[i]? = some x2 →
        p1 x1 = p2 x2 ∧ (p1 x1 = true → f1 x1 = f2 x2)) →
      (l1.filter p1).map f1 = (l2.filter p2).map f2 := by
  intro l1
  induction l1 with
  | nil =>
    intro l2 hlen _
    have h2 : l2 = [] := by
      cases l2 with
      | nil => rfl
      | cons b t2 => cases hlen
    rw [h2]
    rfl
  | cons a t ih =>
    intro l2 hlen h
    cases l2 with
    | nil => cases hlen
    | cons b t2 =>
      have hhead := h 0 a b (by simp) (by simp)
      have htail := ih t2
        (by rw [List.length_cons, List.length_cons] at hlen; exact Nat.succ_injective hlen)
        (fun i x1 x2 h1 h2 => h (i + 1) x1 x2
          (by rw [List.getElem?_cons_succ]; exact h1)
          (by rw [List.getElem?_cons_succ]; exact h2))
      rw [List.filter_cons, List.filter_cons]
      by_cases hpa : p1 a = true
      · rw [if_pos hpa, if_pos (by rw [← hhead.1]; exact hpa)]
        rw [List.map_cons, List.map_cons, htail, hhead.2 hpa]
      · rw [if_neg hpa, if_neg (by rw [← hhead.1]; exact hpa)]
        exact htail

theorem get_incomplete_of_inv (tn tw tr : Bool) (st0 : CollectorState)
    (hg : Pass1Good st0) (d : List Obj) (st : CollectorState)
    (hInv : C6Inv tn tw tr st0 d st) :
    get_incomplete_relations st
      = ((st0.m_relations.map (fun rm => st0.get_relation rm.relation_offset)).filter
          (fun rel => rel.members.any
            (fun mem => mem.ref != 0 && !arrived tn tw tr d mem.kind mem.ref))) := by
  unfold get_incomplete_relations
  rw [List.filter_map]
  refine filterMap_pointwise _ _ _ _ st.m_relations st0.m_relations hInv.rlen ?_
  intro i x1 x2 h1 h2
  have hiN : i < st0.m_relations.length := (List.getElem?_eq_some_iff.mp h2).1
  have he := hInv.entry i hiN
  rw [he] at h1
  cases h1
  obtain ⟨e1, _, _⟩ := hg.entry i x2 h2
  have hany_iff : missingCount tn tw tr d (st0.get_relation i) ≠ 0
      ↔ (st0.get_relation i).members.any
          (fun mem => mem.ref != 0 && !arrived tn tw tr d mem.kind mem.ref) = true := by
    unfold missingCount keptRefs
    constructor
    · intro hne
      obtain ⟨mem, hm, hP⟩ := List.countP_pos_iff.mp (Nat.pos_of_ne_zero hne)
      rw [List.any_eq_true]
      have hm2 := List.mem_filter.mp hm
      exact ⟨mem, hm2.1, by rw [Bool.and_eq_true]; exact ⟨hm2.2, hP⟩⟩
    · intro hany
      obtain ⟨mem, hm, hP⟩ := List.any_eq_true.mp hany
      rw [Bool.and_eq_true] at hP
      intro hc
      rw [List.countP_eq_zero] at hc
      exact (hc mem (List.mem_filter.mpr ⟨hm, hP.1⟩)) hP.2
  by_cases hmz : missingCount tn tw tr d (st0.get_relation i) = 0
  · simp only [if_pos hmz]
    have hR : (st0.get_relation x2.relation_offset).members.any
        (fun mem => mem.ref != 0 && !arrived tn tw tr d mem.kind mem.ref) = false := by
      rw [e1]
      cases hA : (st0.get_relation i).members.any
          (fun mem => mem.ref != 0 && !arrived tn tw tr d mem.kind mem.ref) with
      | false => rfl
      | true => exact absurd hmz (hany_iff.mpr hA)
    constructor
    · show (!(RelationMeta.has_all_members ({} : RelationMeta)))
          = (st0.get_relation x2.relation_offset).members.any
            (fun mem => mem.ref != 0 && !arrived tn tw tr d mem.kind mem.ref)
      rw [hR]
      rfl
    · intro hpt
      exfalso
      have hff : (false : Bool) = true := hpt
      exact Bool.false_ne_true hff
  · simp only [if_neg hmz]
    have hneed_ne : (RelationMeta.has_all_members
        ⟨i, (missingCount tn tw tr d (st0.get_relation i) : Int)⟩) = false := by
      show (((missingCount tn tw tr d (st0.get_relation i) : Nat) : Int) == 0) = false
      rw [beq_eq_false_iff_ne]
      exact Int.natCast_ne_zero.mpr hmz
    constructor
    · show (!(RelationMeta.has_all_members
          ⟨i, (missingCount tn tw tr d (st0.get_relation i) : Int)⟩))
          = (st0.get_relation x2.relation_offset).members.any
            (fun mem => mem.ref != 0 && !arrived tn tw tr d mem.kind mem.ref)
      rw [hneed_ne, e1]
      cases hA : (st0.get_relation i).members.any
          (fun mem => mem.ref != 0 && !arrived tn tw tr d mem.kind mem.ref) with
      | true => rfl
      | false =>
        exfalso
        have := hany_iff.mp hmz
        rw [hA] at this
        cases this
    · intro _
      show st.get_relation i = st0.get_relation x2.relation_offset
      rw [e1]
      unfold CollectorState.get_relation
      rw [hInv.rbuf]

/-- C6 (amended): for spec-conformant input — each pass-2 (type, id)
delivered at most once, pass-1 relation ids pairwise distinct, member
refs nonzero — `get_incomplete_relations()` after flush returns exactly
the kept relations (those tracked after pass 1) having at least one
kept member (nonzero ref in the stored copy) for which no enabled
object with that (type, id) ever arrived in pass 2. -/
theorem incomplete_relations_exact (h : Hooks) (tn tw tr : Bool)
    (pass1 pass2 : List Obj)
    (H1 : pass2.Pairwise (fun a b => ¬(a.kind = b.kind ∧ a.id = b.id)))
    (H2 : pass1.Pairwise (fun a b => a.kind = ItemKind.relation →
      b.kind = ItemKind.relation → a.id ≠ b.id))
    (H3 : ∀ r ∈ pass1, r.kind = ItemKind.relation → ∀ mem ∈ r.members, mem.ref ≠ 0) :
    get_incomplete_relations (runCollector h tn tw tr pass1 pass2)
      = (((read_relations h pass1 {}).m_relations.map
          (fun rm => (read_relations h pass1 {}).get_relation rm.relation_offset)).filter
          (fun rel => rel.members.any
            (fun mem => mem.ref != 0 && !arrived tn tw tr pass2 mem.kind mem.ref))) := by
  have hg := read_relations_good h pass1 H2 H3
  have hbase := c6_base tn tw tr _ hg
  have hfold := pass2_fold_c6 tn tw tr _ hg pass2 [] _
    (by rw [List.nil_append]; exact H1) hbase
  rw [List.nil_append] at hfold
  exact get_incomplete_of_inv tn tw tr _ hg pass2 _ hfold

theorem incomplete_relations_exact_witness :
    get_incomplete_relations (runCollector keepAllHooks false true false [relC6] [wayC6])
      = (((read_relations keepAllHooks [relC6] {}).m_relations.map
          (fun rm => (read_relations keepAllHooks [relC6] {}).get_relation
            rm.relation_offset)).filter
          (fun rel => rel.members.any
            (fun mem => mem.ref != 0
              && !arrived false true false [wayC6] mem.kind mem.ref))) :=
  incomplete_relations_exact keepAllHooks false true false [relC6] [wayC6]
    (by decide) (by decide) (by decide)

end Osmium
